import Mathlib

/-!
# Verification of the GRAVIS shortest-path step-trace engine

Shallow embedding of `src/algorithms/shortestPath.ts`: the three algorithms
`dijkstra`, `bellmanFord` and `floydWarshall`, their step recording, and path
reconstruction.  JavaScript numbers are modelled by `ℚ` extended with `+∞`
(`inf`, JS `Infinity`) and `−∞` (`ninf`, JS `-Infinity`); JS objects used as
string-keyed maps are modelled by association lists with JS assignment
semantics (`setk` overwrites in place or appends a fresh key at the end);
the unbounded `while` loops are modelled with an explicit fuel that is proved
sufficient below.  Human-readable step messages and the UI-only fields of
nodes and edges (coordinates, flags) are elided: no algorithmic decision
reads them.
-/

namespace SP

/-- JS numbers as used by the engine: rationals extended with `±∞`.
`NaN` never arises on the guarded operations the code performs. -/
abbrev ENum := WithBot (WithTop ℚ)

/-- A finite numeric value. -/
def num (q : ℚ) : ENum := ((q : WithTop ℚ) : ENum)

/-- JS `Infinity`. -/
def inf : ENum := ((⊤ : WithTop ℚ) : ENum)

/-- JS `-Infinity`. -/
def ninf : ENum := (⊥ : ENum)

/-- Lookup in a JS object modelled as an association list
(`undefined` becomes `none`). -/
def getk {α : Type} (m : List (String × α)) (k : String) : Option α :=
  (m.find? (fun p => p.1 == k)).map (fun p => p.2)

/-- JS object assignment `m[k] = v`: overwrite in place if the key exists,
append a fresh key at the end otherwise. -/
def setk {α : Type} (m : List (String × α)) (k : String) (v : α) :
    List (String × α) :=
  if m.any (fun p => p.1 == k) then
    m.map (fun p => if p.1 == k then (k, v) else p)
  else m ++ [(k, v)]

/-- A graph vertex (`Node` in `types/graph.ts`); only `id` is read by the
algorithms, `label` only feeds the elided messages. -/
structure Node where
  id : String
  label : String
deriving DecidableEq, Repr, Inhabited

/-- A directed weighted edge (`Edge` in `types/graph.ts`). -/
structure Edge where
  «from» : Node
  «to» : Node
  weight : ℚ
deriving DecidableEq, Repr

/-- Step kinds of `AlgorithmStep.type`. -/
inductive StepType where
  | init
  | update
  | visit
  | finish
deriving DecidableEq, Repr

/-- A recorded step (`AlgorithmStep`), message elided; absent optional fields
keep their defaults. -/
structure Step where
  type : StepType
  currentNode : Option String := none
  distances : List (String × ENum) := []
  visited : List String := []
  previous : List (String × Option String) := []
  distanceMatrix : List (List ENum) := []
  nodes : List String := []
  iNode : Option String := none
  jNode : Option String := none
  kNode : Option String := none
deriving DecidableEq, Repr

/-- The result record (`AlgorithmResult`). -/
structure AlgorithmResult where
  steps : List Step
  finalDistances : List (String × ENum)
  shortestPaths : List (String × List String)
deriving DecidableEq, Repr

/-! ## Priority queue

`PriorityQueue` keeps an array of `(node, priority)` pairs, re-sorted with the
stable JS `Array.prototype.sort` after each insertion or priority change. -/

structure PQItem where
  node : Node
  priority : ENum
deriving DecidableEq, Repr

/-- Comparator `(a, b) => a.priority - b.priority`; on ties (difference `0`,
or `NaN` for two infinite priorities) the stable sort keeps the original
order, which a `≤`-based stable merge sort reproduces. -/
def pqLE (a b : PQItem) : Bool := decide (a.priority ≤ b.priority)

/-- `PriorityQueue.add`: push then stable sort. -/
def pqAdd (items : List PQItem) (n : Node) (p : ENum) : List PQItem :=
  (items ++ [PQItem.mk n p]).mergeSort pqLE

/-- `PriorityQueue.hasNode`. -/
def pqHasNode (items : List PQItem) (nodeId : String) : Bool :=
  items.any (fun it => it.node.id == nodeId)

/-- Overwrite the priority of the first item with the given node id
(`findIndex` semantics). -/
def pqSetFirst : List PQItem → String → ENum → List PQItem
  | [], _, _ => []
  | it :: rest, nodeId, p =>
    if it.node.id == nodeId then ⟨it.node, p⟩ :: rest
    else it :: pqSetFirst rest nodeId p

/-- `PriorityQueue.changePriority`: no-op when the node is absent, otherwise
overwrite then stable sort. -/
def pqChangePriority (items : List PQItem) (nodeId : String) (p : ENum) :
    List PQItem :=
  if pqHasNode items nodeId then (pqSetFirst items nodeId p).mergeSort pqLE
  else items

/-! ## Dijkstra -/

/-- The mutable locals of `dijkstra`. -/
structure DState where
  steps : List Step
  distances : List (String × ENum)
  visitedVertices : List (String × Bool)
  previousVertices : List (String × Option String)
  queue : List PQItem
  visitedList : List String
deriving Repr

/-- Body of the `outgoingEdges.forEach` callback: relax one edge out of the
current vertex. -/
def dijkstraRelax (nodes : List Node) (currentId : String) (st : DState)
    (e : Edge) : DState :=
  if (getk st.visitedVertices e.«to».id).getD false then st
  else
    match getk st.distances e.«to».id with
    | none =>
      -- JS: `dnew < undefined` is false, and the enqueue fallback fails since
      -- the neighbor id is not among the node ids (= the distance keys)
      st
    | some dn =>
      match getk st.distances currentId with
      | none =>
        -- JS: `NaN < dn` is false; fall through to the enqueue-anyway branch
        if pqHasNode st.queue e.«to».id then st
        else
          match nodes.find? (fun n => n.id == e.«to».id) with
          | some nb => { st with queue := pqAdd st.queue nb dn }
          | none => st
      | some dc =>
        if dc + num e.weight < dn then
          let dnew := dc + num e.weight
          let d2 := setk st.distances e.«to».id dnew
          let p2 := setk st.previousVertices e.«to».id (some currentId)
          let q2 :=
            if pqHasNode st.queue e.«to».id then
              pqChangePriority st.queue e.«to».id dnew
            else
              match nodes.find? (fun n => n.id == e.«to».id) with
              | some nb => pqAdd st.queue nb dnew
              | none => st.queue
          let stp : Step :=
            { type := .update, currentNode := some currentId,
              distances := d2, visited := st.visitedList, previous := p2 }
          { st with
            distances := d2, previousVertices := p2, queue := q2,
            steps := st.steps ++ [stp] }
        else
          if pqHasNode st.queue e.«to».id then st
          else
            match nodes.find? (fun n => n.id == e.«to».id) with
            | some nb => { st with queue := pqAdd st.queue nb dn }
            | none => st

/-- The `while (!queue.isEmpty())` loop, with fuel. -/
def dijkstraLoop (nodes : List Node) (edges : List Edge) :
    Nat → DState → DState
  | 0, st => st
  | fuel + 1, st =>
    match st.queue with
    | [] => st
    | item :: rest =>
      let current := item.node
      let st1 := { st with queue := rest }
      if (getk st1.visitedVertices current.id).getD false then
        dijkstraLoop nodes edges fuel st1
      else
        let vv := setk st1.visitedVertices current.id true
        let vl := st1.visitedList ++ [current.id]
        let stp : Step :=
          { type := .visit, currentNode := some current.id,
            distances := st1.distances, visited := vl,
            previous := st1.previousVertices }
        let st2 := { st1 with
          visitedVertices := vv, visitedList := vl,
          steps := st1.steps ++ [stp] }
        let outgoing := edges.filter (fun e => e.«from».id == current.id)
        dijkstraLoop nodes edges fuel
          (outgoing.foldl (dijkstraRelax nodes current.id) st2)

/-- An upper bound on the number of loop iterations: every queue insertion
happens at start (one) or while visiting a fresh vertex (at most one per
edge), and every iteration removes one queue item. -/
def dijkstraFuel (nodes : List Node) (edges : List Edge) : Nat :=
  (nodes.length + 1) * (edges.length + 1)

/-- Fuel for a predecessor walk: an acyclic walk visits each key at most once
and leaves the key set at most once. -/
def wFuel {α : Type} (prev : List (String × α)) : Nat := prev.length + 2

/-- The backward predecessor walk of `dijkstra`'s path reconstruction
(`while (current !== null)`), with fuel; `none` when the fuel runs out or a
missing key is dereferenced — the situations in which the JS loop would not
terminate normally. -/
def walkD (prev : List (String × Option String)) :
    Nat → Option String → List String → Option (List String)
  | _, none, path => some path
  | 0, some _, _ => none
  | fuel + 1, some c, path =>
    match getk prev c with
    | none => none
    | some p => walkD prev fuel p (c :: path)

/-- One vertex of `dijkstra`'s path reconstruction: walk the predecessors
backward and keep the path only if it starts at the source. -/
def dijkstraPathStep (prev : List (String × Option String))
    (sourceId : String) (acc : List (String × List String)) (n : Node) :
    List (String × List String) :=
  match walkD prev (wFuel prev) (some n.id) [] with
  | none => acc  -- unreachable: the predecessor graph is proved acyclic
  | some path =>
    if path.head? = some sourceId then setk acc n.id path else acc

/-- The initial distance map of `dijkstra`: everything `Infinity`, then the
source overwritten to `0`. -/
def dijkstraInitDistances (nodes : List Node) (sourceId : String) :
    List (String × ENum) :=
  setk (nodes.foldl (fun m n => setk m n.id inf) []) sourceId (num 0)

/-- The initial `previousVertices` map: every vertex `null`. -/
def initPrevious (nodes : List Node) : List (String × Option String) :=
  nodes.foldl (fun m n => setk m n.id (none : Option String)) []

/-- The initial `visitedVertices` map: every vertex `false`. -/
def initVisited (nodes : List Node) : List (String × Bool) :=
  nodes.foldl (fun m n => setk m n.id false) []

/-- The state of `dijkstra` right after initialization (source found). -/
def dijkstraSt0 (nodes : List Node) (sourceId : String) (sourceNode : Node) :
    DState :=
  let distances1 := dijkstraInitDistances nodes sourceId
  let previous0 := initPrevious nodes
  let stp0 : Step :=
    { type := .init, distances := distances1, visited := [],
      previous := previous0 }
  { steps := [stp0],
    distances := distances1, visitedVertices := initVisited nodes,
    previousVertices := previous0,
    queue := pqAdd [] sourceNode ((getk distances1 sourceId).getD (num 0)),
    visitedList := [] }

/-- The state of `dijkstra` after the main loop (source found). -/
def dijkstraFinalState (nodes : List Node) (edges : List Edge)
    (sourceId : String) (sourceNode : Node) : DState :=
  dijkstraLoop nodes edges (dijkstraFuel nodes edges)
    (dijkstraSt0 nodes sourceId sourceNode)

/-- `dijkstra(nodes, edges, sourceId)`. -/
def dijkstra (nodes : List Node) (edges : List Edge) (sourceId : String) :
    AlgorithmResult :=
  match nodes.find? (fun n => n.id == sourceId) with
  | none => { steps := [], finalDistances := [], shortestPaths := [] }
  | some sourceNode =>
    let stF := dijkstraFinalState nodes edges sourceId sourceNode
    let stpF : Step :=
      { type := .finish, distances := stF.distances,
        visited := stF.visitedList, previous := stF.previousVertices }
    { steps := stF.steps ++ [stpF], finalDistances := stF.distances,
      shortestPaths :=
        nodes.foldl (dijkstraPathStep stF.previousVertices sourceId) [] }

/-! ## Bellman–Ford -/

/-- The id-level directed edge records built at the start of `bellmanFord`. -/
structure DEdge where
  «from» : String
  «to» : String
  weight : ℚ
deriving DecidableEq, Repr

/-- The mutable locals of `bellmanFord` during the relaxation passes. -/
structure BFState where
  steps : List Step
  distances : List (String × ENum)
  previous : List (String × Option String)
deriving Repr

/-- Relax one directed edge inside a pass, threading the `hasUpdate` flag. -/
def bfRelaxEdge (acc : BFState × Bool) (e : DEdge) : BFState × Bool :=
  let (st, hasUpdate) := acc
  match getk st.distances e.«from» with
  | none => (st, hasUpdate)  -- JS: `NaN < dt` is false
  | some df =>
    if df = inf then (st, hasUpdate)
    else
      match getk st.distances e.«to» with
      | none => (st, hasUpdate)  -- JS: `newDistance < undefined` is false
      | some dt =>
        if df + num e.weight < dt then
          let d2 := setk st.distances e.«to» (df + num e.weight)
          let p2 := setk st.previous e.«to» (some e.«from»)
          let stp : Step :=
            { type := .update, currentNode := some e.«from»,
              distances := d2, previous := p2 }
          (BFState.mk (st.steps ++ [stp]) d2 p2, true)
        else (st, hasUpdate)

/-- One full pass over all directed edges. -/
def bfPass (dedges : List DEdge) (st : BFState) : BFState × Bool :=
  dedges.foldl bfRelaxEdge (st, false)

/-- The up-to-`|V|−1` relaxation passes with early termination (a `visit`
step is recorded when a pass makes no update). -/
def bfPasses (dedges : List DEdge) : Nat → BFState → BFState
  | 0, st => st
  | k + 1, st =>
    let r := bfPass dedges st
    if r.2 then bfPasses dedges k r.1
    else
      let stp : Step :=
        { type := .visit, distances := r.1.distances,
          previous := r.1.previous }
      { r.1 with steps := r.1.steps ++ [stp] }

/-- One edge of the extra negative-cycle detection pass: flag the target of a
still-relaxable edge (a JS `Set`, insertion order kept) and record an
`update` step. -/
def bfDetectStep (acc : BFState × List String) (e : DEdge) :
    BFState × List String :=
  let (st, negs) := acc
  match getk st.distances e.«from» with
  | none => (st, negs)
  | some df =>
    if df = inf then (st, negs)
    else
      match getk st.distances e.«to» with
      | none => (st, negs)
      | some dt =>
        if df + num e.weight < dt then
          let stp : Step :=
            { type := .update, distances := st.distances,
              previous := st.previous }
          ({ st with steps := st.steps ++ [stp] },
           if e.«to» ∈ negs then negs else negs ++ [e.«to»])
        else (st, negs)

/-- The extra negative-cycle detection pass. -/
def bfDetect (dedges : List DEdge) (st : BFState) : BFState × List String :=
  dedges.foldl bfDetectStep (st, [])

/-- Locals of the negative-cycle propagation loop. -/
structure PropState where
  distances : List (String × ENum)
  previous : List (String × Option String)
  visited : List String
  queue : List String
deriving Repr

/-- The propagation `while (queue.length > 0)` loop, with fuel: pop, skip if
already visited, else mark `−∞`, clear the predecessor and push the unvisited
out-neighbors. -/
def bfPropagate (dedges : List DEdge) : Nat → PropState → PropState
  | 0, st => st
  | fuel + 1, st =>
    match st.queue with
    | [] => st
    | current :: rest =>
      if current ∈ st.visited then
        bfPropagate dedges fuel { st with queue := rest }
      else
        let visited2 := st.visited ++ [current]
        let d2 := setk st.distances current ninf
        let p2 := setk st.previous current (none : Option String)
        let pushes := (dedges.filter (fun e =>
          e.«from» == current && !(visited2.contains e.«to»))).map
          (fun e => e.«to»)
        bfPropagate dedges fuel
          { distances := d2, previous := p2, visited := visited2,
            queue := rest ++ pushes }

/-- Fuel bound for the propagation loop: every iteration pops one element, and
at most `|frontier| + (|frontier| + |edges|) · |edges|` elements are ever
pushed. -/
def propFuel (dedges : List DEdge) (negs : List String) : Nat :=
  (negs.length + dedges.length + 1) * (dedges.length + 1)

/-- The guarded backward predecessor walk of `bellmanFord`'s path
reconstruction (per-walk visited set), with fuel; the fuel `wFuel` is proved
sufficient for every input. -/
def walkBF (prev : List (String × Option String)) :
    Nat → Option String → List String → List String → Option (List String)
  | _, none, _, path => some path
  | fuel, some c, visited, path =>
    if c ∈ visited then some path
    else
      match fuel with
      | 0 => none
      | fuel + 1 =>
        walkBF prev fuel ((getk prev c).getD none) (visited ++ [c])
          (c :: path)

/-- One vertex of `bellmanFord`'s path reconstruction: skip `±∞` distances,
walk the predecessors backward, and keep the path only if it starts at the
source. -/
def bfPathStep (st3 : BFState) (sourceId : String)
    (acc : List (String × List String)) (n : Node) :
    List (String × List String) :=
  match getk st3.distances n.id with
  | none => acc  -- unreachable: every node id is a distance key
  | some dv =>
    if dv = ninf ∨ dv = inf then acc
    else
      match walkBF st3.previous (wFuel st3.previous) (some n.id) [] [] with
      | none => acc  -- unreachable: `wFuel` is proved sufficient
      | some path =>
        if path ≠ [] ∧ path.head? = some sourceId then setk acc n.id path
        else acc

/-- The id-level directed edge list built at the start of `bellmanFord`. -/
def toDEdges (edges : List Edge) : List DEdge :=
  edges.map (fun e => DEdge.mk e.«from».id e.«to».id e.weight)

/-- The initial distance map of `bellmanFord`: `0` at the source id,
`Infinity` elsewhere. -/
def bfInitDistances (nodes : List Node) (sourceId : String) :
    List (String × ENum) :=
  nodes.foldl (fun m n =>
    setk m n.id (if n.id == sourceId then num 0 else inf)) []

/-- The state of `bellmanFord` right after initialization. -/
def bfSt0 (nodes : List Node) (sourceId : String) : BFState :=
  let distances0 := bfInitDistances nodes sourceId
  let previous0 := initPrevious nodes
  let stp0 : Step :=
    { type := .init, distances := distances0, previous := previous0 }
  { steps := [stp0], distances := distances0, previous := previous0 }

/-- The state of `bellmanFord` after the relaxation passes. -/
def bfAfterPasses (nodes : List Node) (edges : List Edge)
    (sourceId : String) : BFState :=
  bfPasses (toDEdges edges) (nodes.length - 1) (bfSt0 nodes sourceId)

/-- The state of `bellmanFord` after detection, propagation and the finish
step. -/
def bfFinalState (nodes : List Node) (edges : List Edge)
    (sourceId : String) : BFState :=
  let dedges := toDEdges edges
  let det := bfDetect dedges (bfAfterPasses nodes edges sourceId)
  let st2 := det.1
  let negs := det.2
  if negs.isEmpty then
    let stpF : Step :=
      { type := .finish, distances := st2.distances,
        previous := st2.previous }
    { st2 with steps := st2.steps ++ [stpF] }
  else
    let ps := bfPropagate dedges (propFuel dedges negs)
      (PropState.mk st2.distances st2.previous [] negs)
    let stpF : Step :=
      { type := .finish, distances := ps.distances,
        previous := ps.previous }
    BFState.mk (st2.steps ++ [stpF]) ps.distances ps.previous

/-- `bellmanFord(nodes, edges, sourceId)`. -/
def bellmanFord (nodes : List Node) (edges : List Edge) (sourceId : String) :
    AlgorithmResult :=
  let st3 := bfFinalState nodes edges sourceId
  { steps := st3.steps, finalDistances := st3.distances,
    shortestPaths := nodes.foldl (bfPathStep st3 sourceId) [] }

/-! ## Floyd–Warshall -/

/-- Read a matrix cell, with a default for the (unreachable) out-of-range
case. -/
def mget {α : Type} (m : List (List α)) (dflt : α) (i j : Nat) : α :=
  (m.getD i []).getD j dflt

/-- Write a matrix cell (no-op out of range; the in-range side conditions are
discharged where it matters). -/
def mset {α : Type} (m : List (List α)) (i j : Nat) (v : α) :
    List (List α) :=
  m.set i ((m.getD i []).set j v)

/-- The edge-overwriting initialization loop.  `none` models the JS
`TypeError` thrown when `indexOf` returns `−1` for the from-vertex
(`dist[-1]` is `undefined`); an absent to-vertex only writes the never-read
`-1` property of the row, a no-op. -/
def fwInitStep (nodeIds : List String)
    (acc : Option (List (List ENum) × List (List (Option Nat)))) (e : Edge) :
    Option (List (List ENum) × List (List (Option Nat))) :=
  match acc with
  | none => none
  | some (d, nx) =>
    match nodeIds.indexOf? e.«from».id, nodeIds.indexOf? e.«to».id with
    | none, _ => none
    | some _, none => some (d, nx)
    | some i, some j => some (mset d i j (num e.weight), mset nx i j (some j))

/-- The whole edge-overwriting initialization loop. -/
def fwInitEdges (nodeIds : List String) (edges : List Edge)
    (dist : List (List ENum)) (next : List (List (Option Nat))) :
    Option (List (List ENum) × List (List (Option Nat))) :=
  edges.foldl (fwInitStep nodeIds) (some (dist, next))

/-- One vertex of the final-distance extraction relative to the first vertex:
`finalDistances[node.id] = dist[0][index]`. -/
def fwFinalStep (dist : List (List ENum))
    (acc : List (String × ENum)) (p : Nat × Node) : List (String × ENum) :=
  setk acc p.2.id (mget dist inf 0 p.1)

/-- One vertex of the simplified two-element path extraction:
`shortestPaths[node.id] = [nodeIds[0], node.id]`. -/
def fwPathStep (nodeIds : List String)
    (acc : List (String × List String)) (nd : Node) :
    List (String × List String) :=
  setk acc nd.id [nodeIds.getD 0 "", nd.id]

/-- Locals of the triple refinement loop. -/
structure FWState where
  dist : List (List ENum)
  next : List (List (Option Nat))
  steps : List Step
deriving Repr

/-- Innermost body of the triple loop. -/
def fwInner (nodeIds : List String) (k i : Nat) (st : FWState) (j : Nat) :
    FWState :=
  if mget st.dist inf i k + mget st.dist inf k j < mget st.dist inf i j then
    let d2 := mset st.dist i j (mget st.dist inf i k + mget st.dist inf k j)
    let nx2 := mset st.next i j (mget st.next none i k)
    let stp : Step :=
      { type := .update, distanceMatrix := d2, nodes := nodeIds,
        iNode := some (nodeIds.getD i ""),
        jNode := some (nodeIds.getD j ""),
        kNode := some (nodeIds.getD k "") }
    { dist := d2, next := nx2, steps := st.steps ++ [stp] }
  else st

/-- The innermost `j` loop for fixed `k` and `i`. -/
def fwJLoop (nodeIds : List String) (n k : Nat) (st : FWState) (i : Nat) :
    FWState :=
  (List.range n).foldl (fwInner nodeIds k i) st

/-- The middle `i` loop for fixed `k`. -/
def fwKStep (nodeIds : List String) (n : Nat) (st : FWState) (k : Nat) :
    FWState :=
  (List.range n).foldl (fwJLoop nodeIds n k) st

/-- The triple `k`/`i`/`j` refinement loop. -/
def fwLoop (nodeIds : List String) (n : Nat) (st : FWState) : FWState :=
  (List.range n).foldl (fwKStep nodeIds n) st

/-- The `n × n` matrix of `Infinity` with `0` written on the diagonal. -/
def fwDistBase (n : Nat) : List (List ENum) :=
  (List.range n).foldl (fun m i => mset m i i (num 0))
    (List.replicate n (List.replicate n inf))

/-- The matrices after the edge-overwriting initialization (`none` on the
modelled `TypeError`). -/
def fwMatrices (nodes : List Node) (edges : List Edge) :
    Option (List (List ENum) × List (List (Option Nat))) :=
  fwInitEdges (nodes.map (fun nd => nd.id)) edges
    (fwDistBase nodes.length)
    (List.replicate nodes.length (List.replicate nodes.length none))

/-- `floydWarshall(nodes, edges)`; `none` models the `TypeError` on an edge
whose from-vertex is not in the vertex list. -/
def floydWarshall (nodes : List Node) (edges : List Edge) :
    Option AlgorithmResult :=
  let n := nodes.length
  let nodeIds := nodes.map (fun nd => nd.id)
  match fwMatrices nodes edges with
  | none => none
  | some dn =>
    let stp0 : Step :=
      { type := .init, distanceMatrix := dn.1, nodes := nodeIds }
    let st0 : FWState := { dist := dn.1, next := dn.2, steps := [stp0] }
    let stF := fwLoop nodeIds n st0
    let stpF : Step :=
      { type := .finish, distanceMatrix := stF.dist, nodes := nodeIds }
    let steps2 := stF.steps ++ [stpF]
    let finalDistances :=
      if nodes.length > 0 then
        nodes.enum.foldl (fwFinalStep stF.dist) []
      else []
    let shortestPaths :=
      if nodes.length > 0 then
        nodes.foldl (fwPathStep nodeIds) []
      else []
    some (AlgorithmResult.mk steps2 finalDistances shortestPaths)

/-! ## Basic properties of the JS-object model -/

theorem getk_nil {α : Type} (k : String) :
    getk ([] : List (String × α)) k = none := rfl

theorem getk_cons {α : Type} (p : String × α) (m : List (String × α))
    (k : String) :
    getk (p :: m) k = if p.1 = k then some p.2 else getk m k := by
  by_cases h : p.1 = k
  · simp [getk, List.find?_cons_of_pos, h]
  · rw [if_neg h]
    simp only [getk]
    rw [List.find?_cons_of_neg]
    simp [h]

theorem getk_append {α : Type} (m₁ m₂ : List (String × α)) (k : String) :
    getk (m₁ ++ m₂) k = ((getk m₁ k).or (getk m₂ k)) := by
  induction m₁ with
  | nil => simp [getk_nil]
  | cons p m ih =>
    rw [List.cons_append, getk_cons, getk_cons]
    by_cases h : p.1 = k <;> simp [h, ih]

theorem getk_isSome_iff_any {α : Type} (m : List (String × α)) (k : String) :
    (getk m k).isSome = m.any (fun p => p.1 == k) := by
  induction m with
  | nil => simp [getk_nil]
  | cons p m ih =>
    rw [getk_cons]
    by_cases h : p.1 = k <;> simp [h, ih]

theorem getk_replace_eq {α : Type} (m : List (String × α)) (k : String)
    (v : α) :
    getk (m.map (fun p => if p.1 == k then (k, v) else p)) k =
      (getk m k).map (fun _ => v) := by
  induction m with
  | nil => simp [getk_nil]
  | cons p m ih =>
    simp only [List.map_cons]
    by_cases hp : p.1 = k
    · simp [hp, getk_cons]
    · rw [if_neg (by simp [hp]), getk_cons, getk_cons, if_neg hp, if_neg hp]
      exact ih

theorem getk_replace_ne {α : Type} (m : List (String × α)) {k k' : String}
    (v : α) (h : k' ≠ k) :
    getk (m.map (fun p => if p.1 == k then (k, v) else p)) k' =
      getk m k' := by
  induction m with
  | nil => rfl
  | cons p m ih =>
    simp only [List.map_cons]
    by_cases hp : p.1 = k
    · rw [if_pos (by simp [hp]), getk_cons, getk_cons,
        if_neg (fun hh : (k, v).1 = k' => h (hh.symm)),
        if_neg (fun hh : p.1 = k' => h (by rw [← hh, hp]))]
      exact ih
    · rw [if_neg (by simp [hp]), getk_cons, getk_cons]
      by_cases hp' : p.1 = k'
      · rw [if_pos hp', if_pos hp']
      · rw [if_neg hp', if_neg hp']
        exact ih

theorem getk_none_of_not_any {α : Type} {m : List (String × α)} {k : String}
    (h : ¬ m.any (fun p => p.1 == k)) : getk m k = none := by
  cases hg : getk m k with
  | none => rfl
  | some w =>
    have hs := getk_isSome_iff_any m k
    rw [hg] at hs
    simp at hs
    exact absurd hs (by simpa using h)

theorem getk_setk_self {α : Type} (m : List (String × α)) (k : String)
    (v : α) : getk (setk m k v) k = some v := by
  unfold setk
  by_cases h : m.any (fun p => p.1 == k)
  · have hs : (getk m k).isSome := by rw [getk_isSome_iff_any, h]
    rw [if_pos h, getk_replace_eq]
    cases hg : getk m k with
    | none => rw [hg] at hs; simp at hs
    | some w => simp
  · rw [if_neg h, getk_append, getk_none_of_not_any h, getk_cons]
    simp [getk_nil]

theorem getk_setk_of_ne {α : Type} (m : List (String × α)) {k k' : String}
    (v : α) (h : k' ≠ k) : getk (setk m k v) k' = getk m k' := by
  unfold setk
  by_cases ha : m.any (fun p => p.1 == k)
  · rw [if_pos ha]
    exact getk_replace_ne m v h
  · rw [if_neg ha, getk_append, getk_cons]
    simp only [getk_nil, if_neg (Ne.symm h)]
    cases getk m k' <;> simp

/-- Keys of a map after `setk`. -/
theorem keys_setk {α : Type} (m : List (String × α)) (k : String) (v : α) :
    (setk m k v).map Prod.fst =
      if m.any (fun p => p.1 == k) then m.map Prod.fst
      else m.map Prod.fst ++ [k] := by
  unfold setk
  by_cases h : m.any (fun p => p.1 == k)
  · simp only [h, if_true, List.map_map]
    congr 1
    funext p
    by_cases hp : p.1 = k <;> simp [hp]
  · simp [h]

theorem length_setk {α : Type} (m : List (String × α)) (k : String) (v : α)
    (h : m.any (fun p => p.1 == k)) : (setk m k v).length = m.length := by
  unfold setk
  simp [h]

/-- Lookup in an initialization fold whose written value depends only on the
vertex id. -/
theorem getk_initFold {α : Type} (nodes : List Node) (g : String → α)
    (m0 : List (String × α)) (k : String) :
    getk (nodes.foldl (fun m n => setk m n.id (g n.id)) m0) k =
      if nodes.any (fun n => n.id == k) then some (g k) else getk m0 k := by
  induction nodes generalizing m0 with
  | nil => simp
  | cons n ns ih =>
    rw [List.foldl_cons, ih]
    by_cases hk : n.id = k
    · subst hk
      by_cases h2 : ns.any (fun x => x.id == n.id) <;>
        simp [h2, getk_setk_self]
    · have hany : (List.any (n :: ns) fun x => x.id == k)
          = (ns.any fun x => x.id == k) := by simp [hk]
      rw [hany, getk_setk_of_ne m0 (g n.id) (fun hh => hk hh.symm)]

/-- A fold whose step fixes the initial accumulator is the identity. -/
theorem foldl_const {α β : Type} (l : List β) (f : α → β → α) (a : α)
    (h : ∀ x ∈ l, f a x = a) : l.foldl f a = a := by
  induction l with
  | nil => rfl
  | cons x xs ih =>
    rw [List.foldl_cons, h x (by simp)]
    exact ih (fun y hy => h y (by simp [hy]))

/-- Distance maps every present value of which is `Infinity`. -/
def AllInf (d : List (String × ENum)) : Prop :=
  ∀ k v, getk d k = some v → v = inf

theorem bfRelaxEdge_allInf {st : BFState} {b : Bool}
    (h : AllInf st.distances) (e : DEdge) :
    bfRelaxEdge (st, b) e = (st, b) := by
  simp only [bfRelaxEdge]
  cases hf : getk st.distances e.«from» with
  | none => rfl
  | some df => simp [h _ _ hf]

theorem bfPass_allInf {st : BFState} (dedges : List DEdge)
    (h : AllInf st.distances) : bfPass dedges st = (st, false) :=
  foldl_const dedges _ _ (fun e _ => bfRelaxEdge_allInf h e)

/-- On an all-`Infinity` state the passes change neither distances nor
predecessors (the first pass records the early-termination `visit` step and
stops). -/
theorem bfPasses_allInf {st : BFState} (dedges : List DEdge) (k : Nat)
    (h : AllInf st.distances) :
    (bfPasses dedges k st).distances = st.distances ∧
      (bfPasses dedges k st).previous = st.previous := by
  cases k with
  | zero => exact ⟨rfl, rfl⟩
  | succ k =>
    simp only [bfPasses, bfPass_allInf dedges h]
    exact ⟨rfl, rfl⟩

theorem bfDetectStep_allInf {st : BFState} {negs : List String}
    (h : AllInf st.distances) (e : DEdge) :
    bfDetectStep (st, negs) e = (st, negs) := by
  simp only [bfDetectStep]
  cases hf : getk st.distances e.«from» with
  | none => rfl
  | some df => simp [h _ _ hf]

theorem bfDetect_allInf {st : BFState} (dedges : List DEdge)
    (h : AllInf st.distances) : bfDetect dedges st = (st, []) :=
  foldl_const dedges _ _ (fun e _ => bfDetectStep_allInf h e)

/-- Concrete sample vertices used by the concrete parts of the claims. -/
def nodeA : Node := ⟨"A", "A"⟩

def nodeB : Node := ⟨"B", "B"⟩

def nodeC : Node := ⟨"C", "C"⟩

def nodeD : Node := ⟨"D", "D"⟩

def edgeAB1 : Edge := ⟨nodeA, nodeB, 1⟩

theorem bfInitDistances_getk (nodes : List Node) (sourceId k : String) :
    getk (bfInitDistances nodes sourceId) k =
      if nodes.any (fun n => n.id == k) then
        some (if k == sourceId then num 0 else inf)
      else none := by
  have h := getk_initFold nodes
    (fun s => if s == sourceId then num 0 else inf) [] k
  simp only [bfInitDistances]
  simpa [getk_nil] using h

theorem fwInit_foldl_none (nodeIds : List String) (es : List Edge) :
    es.foldl (fwInitStep nodeIds) none = none :=
  foldl_const es _ none (fun _ _ => rfl)

theorem bfPathStep_skip {st3 : BFState} {sourceId : String}
    {acc : List (String × List String)} {n : Node}
    (h : ∀ v, getk st3.distances n.id = some v → v = ninf ∨ v = inf) :
    bfPathStep st3 sourceId acc n = acc := by
  simp only [bfPathStep]
  cases hv : getk st3.distances n.id with
  | none => rfl
  | some dv => simp [h dv hv]

/-- When every initial distance is `Infinity` (unknown source), the final
state of `bellmanFord` keeps the initial distance and predecessor maps, with
no negative-cycle propagation. -/
theorem bfFinalState_allInf (nodes : List Node) (edges : List Edge)
    (sourceId : String) (h : AllInf (bfInitDistances nodes sourceId)) :
    (bfFinalState nodes edges sourceId).distances
        = bfInitDistances nodes sourceId ∧
      (bfFinalState nodes edges sourceId).previous = initPrevious nodes := by
  have hst0d : (bfSt0 nodes sourceId).distances
      = bfInitDistances nodes sourceId := rfl
  have hp := @bfPasses_allInf (bfSt0 nodes sourceId) (toDEdges edges)
    (nodes.length - 1) (by rw [hst0d]; exact h)
  have h1d : (bfAfterPasses nodes edges sourceId).distances
      = bfInitDistances nodes sourceId := hp.1
  have h1p : (bfAfterPasses nodes edges sourceId).previous
      = initPrevious nodes := hp.2
  have hD : bfDetect (toDEdges edges) (bfAfterPasses nodes edges sourceId)
      = (bfAfterPasses nodes edges sourceId, []) :=
    bfDetect_allInf _ (by rw [h1d]; exact h)
  unfold bfFinalState
  simp only [hD, List.isEmpty_nil, if_true]
  exact ⟨h1d, h1p⟩

/-- Claim C4 theorem: with a source id absent from the vertex list, `dijkstra`
returns the all-empty result while `bellmanFord` assigns `+∞` to every listed
vertex and returns no paths. -/
theorem claim_C4_theorem (nodes : List Node) (edges : List Edge)
    (sourceId : String) (hs : ∀ n ∈ nodes, n.id ≠ sourceId) :
    dijkstra nodes edges sourceId =
        { steps := [], finalDistances := [], shortestPaths := [] } ∧
      (∀ n ∈ nodes,
        getk (bellmanFord nodes edges sourceId).finalDistances n.id
          = some inf) ∧
      (bellmanFord nodes edges sourceId).shortestPaths = [] := by
  have hAll : AllInf (bfInitDistances nodes sourceId) := by
    intro k v hv
    rw [bfInitDistances_getk] at hv
    by_cases ha : nodes.any (fun n => n.id == k)
    · rw [if_pos ha] at hv
      obtain ⟨n, hn, hnk⟩ := List.any_eq_true.1 ha
      have hks : ¬ (k == sourceId) = true := by
        simp only [beq_iff_eq] at hnk ⊢
        rw [← hnk]
        exact hs n hn
      rw [if_neg hks] at hv
      exact (Option.some.inj hv).symm
    · rw [if_neg ha] at hv
      cases hv
  have hBF := bfFinalState_allInf nodes edges sourceId hAll
  refine ⟨?_, ?_, ?_⟩
  · have hfind : nodes.find? (fun n => n.id == sourceId) = none := by
      rw [List.find?_eq_none]
      intro n hn
      simp [hs n hn]
    simp [dijkstra, hfind]
  · intro n hn
    show getk (bfFinalState nodes edges sourceId).distances n.id = some inf
    rw [hBF.1, bfInitDistances_getk,
      if_pos (List.any_eq_true.2 ⟨n, hn, by simp⟩),
      if_neg (by simpa using hs n hn)]
  · show nodes.foldl (bfPathStep (bfFinalState nodes edges sourceId)
      sourceId) [] = []
    refine foldl_const nodes _ [] (fun n hn => ?_)
    refine bfPathStep_skip (fun v hv => ?_)
    right
    refine hAll n.id v ?_
    rw [← hBF.1]
    exact hv

/-- Claim C4 witness: the theorem at the one-vertex graph with unknown source
id. -/
theorem claim_C4_witness :
    dijkstra [nodeA] [] "Z" =
        { steps := [], finalDistances := [], shortestPaths := [] } ∧
      getk (bellmanFord [nodeA] [] "Z").finalDistances "A" = some inf ∧
      (bellmanFord [nodeA] [] "Z").shortestPaths = [] := by
  obtain ⟨h1, h2, h3⟩ := claim_C4_theorem [nodeA] [] "Z" (by decide)
  exact ⟨h1, h2 nodeA (by simp), h3⟩

/-- Claim C3 counterexample: on the empty vertex list `bellmanFord` still
records two steps (`init` and `finish`), not an empty step sequence. -/
theorem claim_C3_counterexample :
    (bellmanFord [] [] "A").steps.length = 2 := by rfl

/-- Claim C3 theorem (amended): with an empty vertex list, `dijkstra` returns
the all-empty result; `bellmanFord` returns empty distance and path maps but
an `init` and a `finish` step; `floydWarshall` returns empty maps with an
`init` and a `finish` step when the edge list is empty and fails (the
modelled `TypeError`) otherwise. -/
theorem claim_C3_theorem (edges : List Edge) (sourceId : String) :
    dijkstra [] edges sourceId =
        { steps := [], finalDistances := [], shortestPaths := [] } ∧
      (bellmanFord [] edges sourceId).finalDistances = [] ∧
      (bellmanFord [] edges sourceId).shortestPaths = [] ∧
      (bellmanFord [] edges sourceId).steps.map Step.type
        = [StepType.init, StepType.finish] ∧
      (edges = [] → floydWarshall [] edges =
        some { steps := [{ type := .init }, { type := .finish }],
               finalDistances := [], shortestPaths := [] }) ∧
      (edges ≠ [] → floydWarshall [] edges = none) := by
  have hD : bfDetect (toDEdges edges) (bfSt0 [] sourceId)
      = (bfSt0 [] sourceId, []) := by
    refine bfDetect_allInf _ (fun k v hv => ?_)
    rw [show (bfSt0 [] sourceId).distances = [] from rfl, getk_nil] at hv
    cases hv
  have hF : bfFinalState [] edges sourceId =
      { steps := (bfSt0 [] sourceId).steps ++ [{ type := .finish }],
        distances := [], previous := [] } := by
    unfold bfFinalState
    rw [show bfAfterPasses [] edges sourceId = bfSt0 [] sourceId from rfl]
    simp only [hD, List.isEmpty_nil, if_true]
    rfl
  refine ⟨rfl, ?_, ?_, ?_, ?_, ?_⟩
  · show (bfFinalState [] edges sourceId).distances = []
    rw [hF]
  · show List.foldl (bfPathStep (bfFinalState [] edges sourceId) sourceId)
      [] [] = []
    rfl
  · show ((bfFinalState [] edges sourceId).steps).map Step.type
      = [StepType.init, StepType.finish]
    rw [hF]
    rfl
  · rintro rfl
    rfl
  · intro hne
    cases edges with
    | nil => exact absurd rfl hne
    | cons e es =>
      show floydWarshall [] (e :: es) = none
      have hm : fwMatrices [] (e :: es) = none := by
        simp only [fwMatrices, fwInitEdges, List.foldl_cons, List.map_nil]
        have h1 : ∀ acc : List (List ENum) × List (List (Option Nat)),
            fwInitStep [] (some acc) e = none := fun acc => rfl
        rw [h1]
        exact fwInit_foldl_none [] es
      simp [floydWarshall, hm]

/-- Claim C3 witness: the theorem applied at concrete inputs discharging both
implications. -/
theorem claim_C3_witness :
    dijkstra [] [] "A" =
        { steps := [], finalDistances := [], shortestPaths := [] } ∧
      floydWarshall [] [] =
        some { steps := [{ type := .init }, { type := .finish }],
               finalDistances := [], shortestPaths := [] } ∧
      floydWarshall [] [edgeAB1] = none :=
  ⟨(claim_C3_theorem [] "A").1,
   (claim_C3_theorem [] "A").2.2.2.2.1 rfl,
   (claim_C3_theorem [edgeAB1] "A").2.2.2.2.2 (by simp)⟩

/-! ## Matrix lemmas -/

theorem getD_set_self {α : Type} (l : List α) (i : Nat) (a d : α)
    (h : i < l.length) : (l.set i a).getD i d = a := by
  rw [List.getD_eq_getElem?_getD, List.getElem?_set_self h]
  rfl

theorem getD_set_ne {α : Type} (l : List α) {i j : Nat} (a d : α)
    (h : i ≠ j) : (l.set i a).getD j d = l.getD j d := by
  rw [List.getD_eq_getElem?_getD, List.getElem?_set_ne h,
    ← List.getD_eq_getElem?_getD]

theorem mget_mset_self {α : Type} (m : List (List α)) (d : α) {i j : Nat}
    (v : α) (hi : i < m.length) (hj : j < (m.getD i []).length) :
    mget (mset m i j v) d i j = v := by
  unfold mget mset
  rw [getD_set_self _ _ _ _ hi, getD_set_self _ _ _ _ hj]

theorem mget_mset_ne {α : Type} (m : List (List α)) (d : α)
    {i j i' j' : Nat} (v : α) (h : i ≠ i' ∨ j ≠ j') :
    mget (mset m i' j' v) d i j = mget m d i j := by
  unfold mget mset
  by_cases hii : i = i'
  · subst hii
    have hj : j ≠ j' := h.resolve_left (fun hh => hh rfl)
    by_cases hlen : i < m.length
    · rw [getD_set_self _ _ _ _ hlen, getD_set_ne _ _ _ (Ne.symm hj)]
    · rw [List.set_eq_of_length_le (Nat.le_of_not_lt hlen)]
  · rw [getD_set_ne _ _ _ (fun hh => hii hh.symm)]

/-- An `n × n` matrix shape. -/
def MShape {α : Type} (n : Nat) (m : List (List α)) : Prop :=
  m.length = n ∧ ∀ row ∈ m, row.length = n

theorem mshape_mset {α : Type} {n : Nat} {m : List (List α)} (i j : Nat)
    (v : α) (h : MShape n m) : MShape n (mset m i j v) := by
  obtain ⟨h1, h2⟩ := h
  by_cases hlen : i < m.length
  · refine ⟨by rw [mset, List.length_set]; exact h1, ?_⟩
    intro row hrow
    rcases List.mem_or_eq_of_mem_set hrow with hmem | heq
    · exact h2 row hmem
    · subst heq
      rw [List.length_set]
      have hg : m.getD i [] = m[i] := by
        rw [List.getD_eq_getElem?_getD, List.getElem?_eq_getElem hlen]
        rfl
      rw [hg]
      exact h2 _ (List.getElem_mem hlen)
  · refine ⟨by rw [mset, List.length_set]; exact h1, ?_⟩
    intro row hrow
    rw [mset, List.set_eq_of_length_le (Nat.le_of_not_lt hlen)] at hrow
    exact h2 row hrow

theorem mshape_replicate {α : Type} (n : Nat) (x : α) :
    MShape n (List.replicate n (List.replicate n x)) := by
  refine ⟨by simp, ?_⟩
  intro row hrow
  rw [List.eq_of_mem_replicate hrow]
  simp

theorem mshape_fwDistBase (n : Nat) : MShape n (fwDistBase n) := by
  unfold fwDistBase
  have : ∀ (l : List Nat) (m : List (List ENum)), MShape n m →
      MShape n (l.foldl (fun m i => mset m i i (num 0)) m) := by
    intro l
    induction l with
    | nil => intro m h; exact h
    | cons x xs ih =>
      intro m h
      rw [List.foldl_cons]
      exact ih _ (mshape_mset x x _ h)
  exact this _ _ (mshape_replicate n inf)

theorem indexOf?_spec {l : List String} {a : String} {i : Nat}
    (h : l.indexOf? a = some i) : i < l.length ∧ l[i]? = some a := by
  have h' : List.findIdx? (fun x => x == a) l = some i := h
  rw [List.findIdx?_eq_some_iff_getElem] at h'
  obtain ⟨hlt, hbeq, -⟩ := h'
  exact ⟨hlt, by rw [List.getElem?_eq_getElem hlt, beq_iff_eq.1 hbeq]⟩

theorem indexOf?_inj {l : List String} {a b : String} {i : Nat}
    (ha : l.indexOf? a = some i) (hb : l.indexOf? b = some i) : a = b := by
  obtain ⟨-, ha2⟩ := indexOf?_spec ha
  obtain ⟨-, hb2⟩ := indexOf?_spec hb
  rw [ha2] at hb2
  exact Option.some.inj hb2

theorem indexOf?_isSome_of_mem {l : List String} {a : String}
    (h : a ∈ l) : ∃ i, l.indexOf? a = some i ∧ i < l.length := by
  have h' := @List.findIdx?_eq_some_of_exists _ l
    (fun x => x == a) ⟨a, h, by simp⟩
  refine ⟨_, h', ?_⟩
  exact (List.findIdx?_eq_some_iff_getElem.1 h').1

/-- Shape preservation by the edge-overwriting initialization. -/
theorem mshape_fwInitEdges {nodeIds : List String} {edges : List Edge}
    {n : Nat} {d0 : List (List ENum)} {nx0 : List (List (Option Nat))}
    {res : List (List ENum) × List (List (Option Nat))}
    (hres : fwInitEdges nodeIds edges d0 nx0 = some res)
    (hd : MShape n d0) : MShape n res.1 := by
  unfold fwInitEdges at hres
  induction edges generalizing d0 nx0 with
  | nil =>
    cases hres
    exact hd
  | cons e es ih =>
    rw [List.foldl_cons] at hres
    simp only [fwInitStep] at hres
    cases hfi : nodeIds.indexOf? e.«from».id with
    | none =>
      rw [hfi] at hres
      rw [show List.foldl (fwInitStep nodeIds) none es = none from
        fwInit_foldl_none nodeIds es] at hres
      cases hres
    | some i' =>
      cases hfj : nodeIds.indexOf? e.«to».id with
      | none =>
        rw [hfi, hfj] at hres
        exact ih hres hd
      | some j' =>
        rw [hfi, hfj] at hres
        exact ih hres (mshape_mset i' j' _ hd)

/-- Cells written by the initialization: the last edge mapping to a cell
wins. -/
theorem fwInitEdges_cell {nodeIds : List String} {edges : List Edge}
    {d0 : List (List ENum)} {nx0 : List (List (Option Nat))}
    (hshape : MShape nodeIds.length d0)
    {a b : String} {i j : Nat}
    {res : List (List ENum) × List (List (Option Nat))} {e0 : Edge}
    (hi : nodeIds.indexOf? a = some i) (hj : nodeIds.indexOf? b = some j)
    (hres : fwInitEdges nodeIds edges d0 nx0 = some res)
    (hlast : edges.reverse.find?
      (fun e => e.«from».id == a && e.«to».id == b) = some e0) :
    mget res.1 inf i j = num e0.weight := by
  induction edges using List.reverseRecOn generalizing res nx0 with
  | nil => cases hlast
  | append_singleton es e ih =>
    have hsplit : fwInitEdges nodeIds (es ++ [e]) d0 nx0
        = fwInitStep nodeIds (fwInitEdges nodeIds es d0 nx0) e := by
      unfold fwInitEdges
      rw [List.foldl_append]
      rfl
    rw [hsplit] at hres
    cases hmid : fwInitEdges nodeIds es d0 nx0 with
    | none =>
      rw [hmid] at hres
      cases hres
    | some mid =>
      obtain ⟨dm, nxm⟩ := mid
      rw [hmid] at hres
      have hrev : (es ++ [e]).reverse = e :: es.reverse := by
        rw [List.reverse_append]
        rfl
      rw [hrev] at hlast
      by_cases hpe : (e.«from».id == a && e.«to».id == b) = true
      · have he0 : e0 = e := by
          simp only [List.find?_cons, hpe, if_true] at hlast
          exact (Option.some.inj hlast).symm
        obtain ⟨hfa, hfb⟩ : e.«from».id = a ∧ e.«to».id = b := by
          simpa using hpe
        simp only [fwInitStep, hfa, hfb, hi, hj] at hres
        have hd : MShape nodeIds.length dm := mshape_fwInitEdges hmid hshape
        have hilt : i < dm.length := by
          rw [hd.1]
          exact (indexOf?_spec hi).1
        have hjlt : j < (dm.getD i []).length := by
          rw [List.getD_eq_getElem?_getD, List.getElem?_eq_getElem hilt,
            Option.getD_some, hd.2 _ (List.getElem_mem hilt)]
          exact (indexOf?_spec hj).1
        rw [← Option.some.inj hres, he0]
        exact mget_mset_self dm inf (num e.weight) hilt hjlt
      · simp only [List.find?_cons, hpe, if_false] at hlast
        simp only [fwInitStep] at hres
        cases hfi : nodeIds.indexOf? e.«from».id with
        | none =>
          rw [hfi] at hres
          cases hres
        | some i' =>
          cases hfj : nodeIds.indexOf? e.«to».id with
          | none =>
            rw [hfi, hfj] at hres
            rw [← Option.some.inj hres]
            exact ih hmid hlast
          | some j' =>
            rw [hfi, hfj] at hres
            rw [← Option.some.inj hres]
            have hne : i ≠ i' ∨ j ≠ j' := by
              by_contra hcon
              push_neg at hcon
              obtain ⟨hii, hjj⟩ := hcon
              have h1 : e.«from».id = a :=
                indexOf?_inj (hii ▸ hfi) hi
              have h2 : e.«to».id = b :=
                indexOf?_inj (hjj ▸ hfj) hj
              exact hpe (by simp [h1, h2])
            rw [mget_mset_ne dm inf (num e.weight) hne]
            exact ih hmid hlast

def edgeAB10 : Edge := ⟨nodeA, nodeB, 10⟩

def edgeAB3 : Edge := ⟨nodeA, nodeB, 3⟩

/-- The initial `FWState` built from successfully initialized matrices. -/
def fwSt0 (nodes : List Node)
    (res : List (List ENum) × List (List (Option Nat))) : FWState :=
  { dist := res.1, next := res.2,
    steps := [{ type := .init, distanceMatrix := res.1,
                nodes := nodes.map (fun nd => nd.id) }] }

/-- The `FWState` after the triple loop. -/
def fwFinalSt (nodes : List Node)
    (res : List (List ENum) × List (List (Option Nat))) : FWState :=
  fwLoop (nodes.map (fun nd => nd.id)) nodes.length (fwSt0 nodes res)

theorem floydWarshall_some {nodes : List Node} {edges : List Edge}
    {res : List (List ENum) × List (List (Option Nat))}
    (h : fwMatrices nodes edges = some res) :
    floydWarshall nodes edges = some
      { steps := (fwFinalSt nodes res).steps ++
          [{ type := .finish,
             distanceMatrix := (fwFinalSt nodes res).dist,
             nodes := nodes.map (fun nd => nd.id) }],
        finalDistances :=
          if nodes.length > 0 then
            nodes.enum.foldl (fwFinalStep (fwFinalSt nodes res).dist) []
          else [],
        shortestPaths :=
          if nodes.length > 0 then
            nodes.foldl (fwPathStep (nodes.map (fun nd => nd.id))) []
          else [] } := by
  unfold floydWarshall
  rw [h]
  rfl

theorem fwInner_steps (nodeIds : List String) (k i : Nat) (st : FWState)
    (j : Nat) : ∃ t, (fwInner nodeIds k i st j).steps = st.steps ++ t := by
  unfold fwInner
  by_cases hc : mget st.dist inf i k + mget st.dist inf k j
      < mget st.dist inf i j
  · rw [if_pos hc]
    exact ⟨_, rfl⟩
  · rw [if_neg hc]
    exact ⟨[], by simp⟩

theorem foldl_steps {β : Type} (f : FWState → β → FWState)
    (hf : ∀ st x, ∃ t, (f st x).steps = st.steps ++ t) :
    ∀ (l : List β) (st : FWState),
      ∃ t, (l.foldl f st).steps = st.steps ++ t := by
  intro l
  induction l with
  | nil => exact fun st => ⟨[], by simp⟩
  | cons x xs ih =>
    intro st
    obtain ⟨t1, h1⟩ := hf st x
    obtain ⟨t2, h2⟩ := ih (f st x)
    exact ⟨t1 ++ t2, by rw [List.foldl_cons, h2, h1, List.append_assoc]⟩

theorem fwLoop_steps (nodeIds : List String) (n : Nat) (st : FWState) :
    ∃ t, (fwLoop nodeIds n st).steps = st.steps ++ t := by
  unfold fwLoop
  refine foldl_steps _ (fun st1 k => ?_) _ _
  unfold fwKStep
  refine foldl_steps _ (fun st2 i => ?_) _ _
  unfold fwJLoop
  exact foldl_steps _ (fun st3 j => fwInner_steps nodeIds k i st3 j) _ _

theorem foldl_preserve {α β : Type} (P : α → Prop) (f : α → β → α) :
    ∀ (l : List β) (a : α), P a → (∀ acc x, P acc → P (f acc x)) →
      P (l.foldl f a) := by
  intro l
  induction l with
  | nil => exact fun a ha _ => ha
  | cons x xs ih =>
    intro a ha h
    rw [List.foldl_cons]
    exact ih _ (h a x ha) h

/-- The joint shape invariant of the triple loop: the working matrix and
every recorded matrix snapshot are `n × n`. -/
def FWShapeInv (nmat : Nat) (st : FWState) : Prop :=
  MShape nmat st.dist ∧ ∀ s ∈ st.steps, MShape nmat s.distanceMatrix

theorem fwInner_shape {nmat : Nat} (nodeIds : List String) (k i j : Nat)
    {st : FWState} (h : FWShapeInv nmat st) :
    FWShapeInv nmat (fwInner nodeIds k i st j) := by
  unfold fwInner
  by_cases hc : mget st.dist inf i k + mget st.dist inf k j
      < mget st.dist inf i j
  · rw [if_pos hc]
    refine ⟨mshape_mset i j _ h.1, ?_⟩
    intro s hs
    rcases List.mem_append.1 hs with hs | hs
    · exact h.2 s hs
    · rw [List.mem_singleton.1 hs]
      exact mshape_mset i j _ h.1
  · rw [if_neg hc]
    exact h

theorem fwLoop_shape {nmat : Nat} (nodeIds : List String) (n : Nat)
    {st : FWState} (h : FWShapeInv nmat st) :
    FWShapeInv nmat (fwLoop nodeIds n st) := by
  unfold fwLoop
  refine foldl_preserve _ _ _ _ h (fun acc k hacc => ?_)
  unfold fwKStep
  refine foldl_preserve _ _ _ _ hacc (fun acc2 i hacc2 => ?_)
  unfold fwJLoop
  exact foldl_preserve _ _ _ _ hacc2
    (fun acc3 j hacc3 => fwInner_shape nodeIds k i j hacc3)

theorem fwInitEdges_isSome {nodeIds : List String} {edges : List Edge}
    (d0 : List (List ENum)) (nx0 : List (List (Option Nat)))
    (h : ∀ e ∈ edges, ∃ i, nodeIds.indexOf? e.«from».id = some i) :
    ∃ res, fwInitEdges nodeIds edges d0 nx0 = some res := by
  unfold fwInitEdges
  induction edges generalizing d0 nx0 with
  | nil => exact ⟨(d0, nx0), rfl⟩
  | cons e es ih =>
    rw [List.foldl_cons]
    obtain ⟨i, hi⟩ := h e (List.mem_cons_self e es)
    simp only [fwInitStep, hi]
    cases hj : nodeIds.indexOf? e.«to».id with
    | none =>
      exact ih _ _ (fun e2 he2 => h e2 (List.mem_cons_of_mem e he2))
    | some j =>
      exact ih _ _ (fun e2 he2 => h e2 (List.mem_cons_of_mem e he2))

/-- Claim C7 theorem: in the matrix recorded by the `init` step, a cell whose
ordered vertex pair is hit by several parallel edges holds the weight of the
last such edge in the supplied order (no minimum is taken). -/
theorem claim_C7_theorem (nodes : List Node) (edges : List Edge)
    (a b : String) (i j : Nat) (e0 : Edge)
    (res : List (List ENum) × List (List (Option Nat)))
    (hi : (nodes.map (fun nd => nd.id)).indexOf? a = some i)
    (hj : (nodes.map (fun nd => nd.id)).indexOf? b = some j)
    (hres : fwMatrices nodes edges = some res)
    (hlast : edges.reverse.find?
      (fun e => e.«from».id == a && e.«to».id == b) = some e0) :
    mget res.1 inf i j = num e0.weight ∧
    (floydWarshall nodes edges).map
        (fun r => r.steps.head?.map
          (fun s => (s.type, mget s.distanceMatrix inf i j)))
      = some (some (StepType.init, num e0.weight)) := by
  have hshape : MShape (nodes.map (fun nd => nd.id)).length
      (fwDistBase nodes.length) := by
    rw [List.length_map]
    exact mshape_fwDistBase nodes.length
  have hcell : mget res.1 inf i j = num e0.weight :=
    fwInitEdges_cell hshape hi hj hres hlast
  refine ⟨hcell, ?_⟩
  rw [floydWarshall_some hres]
  obtain ⟨t, ht⟩ := fwLoop_steps (nodes.map (fun nd => nd.id)) nodes.length
    (fwSt0 nodes res)
  have hsteps : (fwFinalSt nodes res).steps
      = { type := .init, distanceMatrix := res.1,
          nodes := nodes.map (fun nd => nd.id) } :: t := ht
  simp only [Option.map_some, hsteps, List.cons_append, List.head?_cons]
  simp [hcell]

/-- Claim C7 witness: parallel edges A→B with weight 10 then 3 leave 3 in the
init-step cell (A, B). -/
theorem claim_C7_witness :
    ((floydWarshall [nodeA, nodeB] [edgeAB10, edgeAB3]).map
        (fun r => r.steps.head?.map
          (fun s => (s.type, mget s.distanceMatrix inf 0 1))))
      = some (some (StepType.init, num 3)) :=
  (claim_C7_theorem [nodeA, nodeB] [edgeAB10, edgeAB3] "A" "B" 0 1 edgeAB3
    ([[num 0, num 3], [inf, num 0]], [[none, some 1], [none, none]])
    (by decide) (by decide) (by decide) (by decide)).2

/-- Claim C10 theorem: when every edge endpoint occurs in the vertex list,
all initialization writes target in-range indices (never `−1`) and
`floydWarshall` totals to a result whose recorded matrices are all `n × n`. -/
theorem claim_C10_theorem (nodes : List Node) (edges : List Edge)
    (h : ∀ e ∈ edges, (∃ n ∈ nodes, n.id = e.«from».id) ∧
      (∃ n ∈ nodes, n.id = e.«to».id)) :
    (∀ e ∈ edges, ∃ i j,
      (nodes.map (fun nd => nd.id)).indexOf? e.«from».id = some i ∧
      (nodes.map (fun nd => nd.id)).indexOf? e.«to».id = some j ∧
      i < nodes.length ∧ j < nodes.length) ∧
    ∃ r, floydWarshall nodes edges = some r ∧
      ∀ s ∈ r.steps, MShape nodes.length s.distanceMatrix := by
  have hidx : ∀ e ∈ edges, ∃ i,
      (nodes.map (fun nd => nd.id)).indexOf? e.«from».id = some i ∧
      i < nodes.length := by
    intro e he
    obtain ⟨⟨nf, hnf, hid⟩, -⟩ := h e he
    obtain ⟨i, hi, hlt⟩ := indexOf?_isSome_of_mem
      (List.mem_map.2 ⟨nf, hnf, hid⟩)
    exact ⟨i, hi, by simpa using hlt⟩
  have hidx2 : ∀ e ∈ edges, ∃ j,
      (nodes.map (fun nd => nd.id)).indexOf? e.«to».id = some j ∧
      j < nodes.length := by
    intro e he
    obtain ⟨-, ⟨nt, hnt, hid⟩⟩ := h e he
    obtain ⟨jj, hjj, hlt⟩ := indexOf?_isSome_of_mem
      (List.mem_map.2 ⟨nt, hnt, hid⟩)
    exact ⟨jj, hjj, by simpa using hlt⟩
  refine ⟨?_, ?_⟩
  · intro e he
    obtain ⟨i, hi, hilt⟩ := hidx e he
    obtain ⟨j, hj, hjlt⟩ := hidx2 e he
    exact ⟨i, j, hi, hj, hilt, hjlt⟩
  · obtain ⟨res, hres⟩ := fwInitEdges_isSome
      (fwDistBase nodes.length)
      (List.replicate nodes.length (List.replicate nodes.length none))
      (fun e he => ⟨(hidx e he).choose, (hidx e he).choose_spec.1⟩)
    have hres' : fwMatrices nodes edges = some res := hres
    have hshape0 : MShape nodes.length res.1 :=
      mshape_fwInitEdges hres' (mshape_fwDistBase nodes.length)
    have hinv : FWShapeInv nodes.length (fwSt0 nodes res) := by
      refine ⟨hshape0, ?_⟩
      intro s hs
      rw [List.mem_singleton.1 hs]
      exact hshape0
    have hloop := fwLoop_shape (nodes.map (fun nd => nd.id))
      nodes.length hinv
    refine ⟨_, floydWarshall_some hres', ?_⟩
    intro s hs
    rcases List.mem_append.1 hs with hs | hs
    · exact hloop.2 s hs
    · rw [List.mem_singleton.1 hs]
      exact hloop.1

/-- Claim C10 witness: the theorem at a two-vertex graph with one valid
edge. -/
theorem claim_C10_witness :
    (∀ e ∈ [edgeAB1], ∃ i j,
      (([nodeA, nodeB]).map (fun nd => nd.id)).indexOf? e.«from».id
          = some i ∧
      (([nodeA, nodeB]).map (fun nd => nd.id)).indexOf? e.«to».id
          = some j ∧
      i < 2 ∧ j < 2) ∧
    ∃ r, floydWarshall [nodeA, nodeB] [edgeAB1] = some r ∧
      ∀ s ∈ r.steps, MShape 2 s.distanceMatrix :=
  claim_C10_theorem [nodeA, nodeB] [edgeAB1] (by decide)

/-! ## Negative-cycle propagation (claim C2) -/

theorem bnotContains_iff (l : List String) (a : String) :
    ((!(l.contains a)) = true) ↔ a ∉ l := by
  simp [List.elem_iff]

/-- Directed reachability along the id-level edge records (reflexive). -/
def ReachesD (dedges : List DEdge) : String → String → Prop :=
  Relation.ReflTransGen
    (fun x y => ∃ e ∈ dedges, e.«from» = x ∧ e.«to» = y)

/-- The termination potential of the propagation loop. -/
def propPhi (dedges : List DEdge) (st : PropState) : Nat :=
  st.queue.length +
    ((dedges.map (fun e => e.«to»)).dedup.filter
      (fun x => !(st.visited.contains x))).length * (dedges.length + 1)

theorem bfPropagate_drain (dedges : List DEdge) : ∀ (fuel : Nat)
    (st : PropState),
    (∀ x ∈ st.queue, x ∈ dedges.map (fun e => e.«to»)) →
    propPhi dedges st < fuel →
    (bfPropagate dedges fuel st).queue = [] := by
  intro fuel
  induction fuel with
  | zero => exact fun st _ h => absurd h (Nat.not_lt_zero _)
  | succ fuel ih =>
    intro st hq hphi
    rw [bfPropagate]
    cases hqe : st.queue with
    | nil => exact hqe
    | cons current rest =>
      dsimp only
      by_cases hv : current ∈ st.visited
      · rw [if_pos hv]
        refine ih _ (fun x hx => hq x (by rw [hqe]; exact List.mem_cons_of_mem _ hx)) ?_
        have : propPhi dedges { st with queue := rest } + 1
            = propPhi dedges st := by
          simp [propPhi, hqe]
          omega
        omega
      · rw [if_neg hv]
        set visited2 := st.visited ++ [current] with hvis2
        set pushes := (dedges.filter (fun e =>
          e.«from» == current && !(visited2.contains e.«to»))).map
          (fun e => e.«to») with hpsh
        refine ih _ ?_ ?_
        · intro x hx
          rcases List.mem_append.1 hx with hx | hx
          · exact hq x (by rw [hqe]; exact List.mem_cons_of_mem _ hx)
          · rw [hpsh] at hx
            obtain ⟨e, he, rfl⟩ := List.mem_map.1 hx
            exact List.mem_map.2 ⟨e, List.mem_of_mem_filter he, rfl⟩
        · -- the potential strictly drops
          have hcur : current ∈ (dedges.map (fun e => e.«to»)).dedup :=
            List.mem_dedup.2 (hq current (by rw [hqe]; exact List.mem_cons_self _ _))
          set T := (dedges.map (fun e => e.«to»)).dedup with hT
          set p1 : String → Bool := fun x => !(st.visited.contains x)
            with hp1
          set p2 : String → Bool := fun x => !(visited2.contains x)
            with hp2
          have himp : ∀ a, p2 a = true → p1 a = true := by
            intro a ha
            rw [hp2, bnotContains_iff] at ha
            rw [hp1, bnotContains_iff]
            intro hmem
            exact ha (by rw [hvis2]; exact List.mem_append_left _ hmem)
          have hfilter : T.filter p2 = (T.filter p1).filter p2 := by
            rw [List.filter_filter]
            refine (List.filter_congr ?_).symm
            intro a _
            cases hpa : p2 a with
            | true => simp [himp a hpa]
            | false => simp
          have hmemf : current ∈ T.filter p1 := by
            refine List.mem_filter.2 ⟨hcur, ?_⟩
            rw [hp1, bnotContains_iff]
            exact hv
          have hnp2 : ¬ p2 current = true := by
            rw [hp2, bnotContains_iff]
            simp only [not_not]
            rw [hvis2]
            exact List.mem_append_right _ (List.mem_singleton_self _)
          have hlt : (T.filter p2).length < (T.filter p1).length := by
            rw [hfilter]
            exact List.length_filter_lt_length_iff_exists.2
              ⟨current, hmemf, hnp2⟩
          have hpl : pushes.length ≤ dedges.length := by
            rw [hpsh, List.length_map]
            exact List.length_filter_le _ _
          have hU : (T.filter p2).length * (dedges.length + 1)
              + (dedges.length + 1)
              ≤ (T.filter p1).length * (dedges.length + 1) := by
            have h := Nat.mul_le_mul_right (dedges.length + 1) hlt
            rw [Nat.succ_mul] at h
            exact h
          have hphi' : propPhi dedges st
              = rest.length + 1
                + (T.filter p1).length * (dedges.length + 1) := by
            simp [propPhi, hqe, hT, hp1]
          have hgoal : propPhi dedges
              { distances := setk st.distances current ninf,
                previous := setk st.previous current
                  (none : Option String),
                visited := visited2, queue := rest ++ pushes }
              = rest.length + pushes.length
                + (T.filter p2).length * (dedges.length + 1) := by
            simp [propPhi, hT, hp2, List.length_append]
          rw [hgoal]
          rw [hphi'] at hphi
          omega

theorem bfPropagate_mem (dedges : List DEdge) : ∀ (fuel : Nat)
    (st : PropState),
    (∀ x ∈ st.visited, x ∈ (bfPropagate dedges fuel st).visited) ∧
    (∀ x ∈ st.queue, x ∈ (bfPropagate dedges fuel st).visited ∨
      x ∈ (bfPropagate dedges fuel st).queue) := by
  intro fuel
  induction fuel with
  | zero => exact fun st => ⟨fun x hx => hx, fun x hx => Or.inr hx⟩
  | succ fuel ih =>
    intro st
    rw [bfPropagate]
    cases hqe : st.queue with
    | nil =>
      refine ⟨fun x hx => hx, fun x hx => Or.inr ?_⟩
      dsimp only
      rw [hqe]
      exact hx
    | cons current rest =>
      dsimp only
      by_cases hv : current ∈ st.visited
      · rw [if_pos hv]
        refine ⟨fun x hx => (ih _).1 x hx, fun x hx => ?_⟩
        rcases List.mem_cons.1 hx with rfl | hx
        · exact Or.inl ((ih _).1 x hv)
        · exact (ih _).2 x hx
      · rw [if_neg hv]
        constructor
        · intro x hx
          exact (ih _).1 x (List.mem_append_left _ hx)
        · intro x hx
          rcases List.mem_cons.1 hx with rfl | hx
          · exact Or.inl ((ih _).1 x
              (List.mem_append_right _ (List.mem_singleton_self _)))
          · exact (ih _).2 x (List.mem_append_left _ hx)

theorem bfPropagate_closed (dedges : List DEdge) : ∀ (fuel : Nat)
    (st : PropState),
    (∀ x ∈ st.visited, ∀ e ∈ dedges, e.«from» = x →
      e.«to» ∈ st.visited ∨ e.«to» ∈ st.queue) →
    ∀ x ∈ (bfPropagate dedges fuel st).visited, ∀ e ∈ dedges,
      e.«from» = x →
      e.«to» ∈ (bfPropagate dedges fuel st).visited ∨
      e.«to» ∈ (bfPropagate dedges fuel st).queue := by
  intro fuel
  induction fuel with
  | zero => exact fun st h => h
  | succ fuel ih =>
    intro st h
    rw [bfPropagate]
    cases hqe : st.queue with
    | nil => exact h
    | cons current rest =>
      dsimp only
      by_cases hv : current ∈ st.visited
      · rw [if_pos hv]
        refine ih _ (fun x hx e he hfr => ?_)
        rcases h x hx e he hfr with hto | hto
        · exact Or.inl hto
        · rw [hqe] at hto
          rcases List.mem_cons.1 hto with heq | hto
          · exact Or.inl (heq ▸ hv)
          · exact Or.inr hto
      · rw [if_neg hv]
        refine ih _ (fun x hx e he hfr => ?_)
        rcases List.mem_append.1 hx with hx | hx
        · rcases h x hx e he hfr with hto | hto
          · exact Or.inl (List.mem_append_left _ hto)
          · rw [hqe] at hto
            rcases List.mem_cons.1 hto with heq | hto
            · exact Or.inl (List.mem_append_right _
                (heq ▸ List.mem_singleton_self _))
            · exact Or.inr (List.mem_append_left _ hto)
        · rw [List.mem_singleton.1 hx] at hfr
          by_cases hto : e.«to» ∈ st.visited ++ [current]
          · exact Or.inl hto
          · refine Or.inr (List.mem_append_right _ ?_)
            refine List.mem_map.2 ⟨e, ?_, rfl⟩
            refine List.mem_filter.2 ⟨he, ?_⟩
            rw [Bool.and_eq_true, beq_iff_eq, bnotContains_iff]
            exact ⟨hfr, hto⟩

theorem bfPropagate_marks (dedges : List DEdge) : ∀ (fuel : Nat)
    (st : PropState),
    (∀ x ∈ st.visited, getk st.distances x = some ninf ∧
      getk st.previous x = some none) →
    ∀ x ∈ (bfPropagate dedges fuel st).visited,
      getk (bfPropagate dedges fuel st).distances x = some ninf ∧
      getk (bfPropagate dedges fuel st).previous x = some none := by
  intro fuel
  induction fuel with
  | zero => exact fun st h => h
  | succ fuel ih =>
    intro st h
    rw [bfPropagate]
    cases hqe : st.queue with
    | nil => exact h
    | cons current rest =>
      dsimp only
      by_cases hv : current ∈ st.visited
      · rw [if_pos hv]
        exact ih _ h
      · rw [if_neg hv]
        refine ih _ (fun x hx => ?_)
        rcases List.mem_append.1 hx with hx | hx
        · have hne : x ≠ current := fun heq => hv (heq ▸ hx)
          rw [getk_setk_of_ne _ _ hne, getk_setk_of_ne _ _ hne]
          exact h x hx
        · rw [List.mem_singleton.1 hx]
          rw [getk_setk_self, getk_setk_self]
          exact ⟨rfl, rfl⟩

theorem bfPropagate_reach {dedges : List DEdge} {fuel : Nat}
    {st : PropState} {s v : String}
    (hdrain : (bfPropagate dedges fuel st).queue = [])
    (hclosed : ∀ x ∈ st.visited, ∀ e ∈ dedges, e.«from» = x →
      e.«to» ∈ st.visited ∨ e.«to» ∈ st.queue)
    (hs : s ∈ st.queue) (hr : ReachesD dedges s v) :
    v ∈ (bfPropagate dedges fuel st).visited := by
  induction hr with
  | refl =>
    rcases (bfPropagate_mem dedges fuel st).2 s hs with h | h
    · exact h
    · rw [hdrain] at h
      cases h
  | tail hxy hedge ih =>
    obtain ⟨e, he, hfr, hto⟩ := hedge
    rcases bfPropagate_closed dedges fuel st hclosed _ ih e he hfr with
      h | h
    · exact hto ▸ h
    · rw [hdrain] at h
      cases h

theorem bfDetectStep_negs (acc : BFState × List String) (e : DEdge) :
    (bfDetectStep acc e).2 = acc.2 ∨
      (bfDetectStep acc e).2 = acc.2 ++ [e.«to»] := by
  obtain ⟨st, negs⟩ := acc
  simp only [bfDetectStep]
  cases hf : getk st.distances e.«from» with
  | none => exact Or.inl rfl
  | some df =>
    dsimp only
    by_cases hdf : df = inf
    · rw [if_pos hdf]
      exact Or.inl rfl
    · rw [if_neg hdf]
      cases ht : getk st.distances e.«to» with
      | none => exact Or.inl rfl
      | some dt =>
        dsimp only
        by_cases hlt : df + num e.weight < dt
        · rw [if_pos hlt]
          by_cases hmem : e.«to» ∈ negs
          · rw [if_pos hmem]
            exact Or.inl rfl
          · rw [if_neg hmem]
            exact Or.inr rfl
        · rw [if_neg hlt]
          exact Or.inl rfl

/-- Every flagged vertex is the target of some directed edge. -/
theorem bfDetect_negs_sub (dedges : List DEdge) (st : BFState) :
    ∀ x ∈ (bfDetect dedges st).2, x ∈ dedges.map (fun e => e.«to») := by
  unfold bfDetect
  suffices h : ∀ (l : List DEdge), (∀ e ∈ l, e ∈ dedges) →
      ∀ acc : BFState × List String,
      (∀ x ∈ acc.2, x ∈ dedges.map (fun e => e.«to»)) →
      ∀ x ∈ (l.foldl bfDetectStep acc).2,
        x ∈ dedges.map (fun e => e.«to») by
    exact h dedges (fun e he => he) (st, []) (fun x hx => absurd hx
      (List.not_mem_nil x))
  intro l
  induction l with
  | nil => exact fun _ acc hacc => hacc
  | cons e es ih =>
    intro hsub acc hacc
    rw [List.foldl_cons]
    refine ih (fun e2 he2 => hsub e2 (List.mem_cons_of_mem e he2)) _ ?_
    rcases bfDetectStep_negs acc e with heq | heq
    · rw [heq]
      exact hacc
    · rw [heq]
      intro x hx
      rcases List.mem_append.1 hx with hx | hx
      · exact hacc x hx
      · rw [List.mem_singleton.1 hx]
        exact List.mem_map.2 ⟨e, hsub e (List.mem_cons_self e es), rfl⟩

theorem propPhi_lt_propFuel (dedges : List DEdge) (negs : List String)
    (d : List (String × ENum)) (p : List (String × Option String)) :
    propPhi dedges (PropState.mk d p [] negs) < propFuel dedges negs := by
  have h1 : ((dedges.map (fun e => e.«to»)).dedup.filter
      (fun x => !(([] : List String).contains x))).length
      ≤ dedges.length := by
    calc ((dedges.map (fun e => e.«to»)).dedup.filter
        (fun x => !(([] : List String).contains x))).length
        ≤ (dedges.map (fun e => e.«to»)).dedup.length :=
          List.length_filter_le _ _
      _ ≤ (dedges.map (fun e => e.«to»)).length :=
          List.Sublist.length_le (List.dedup_sublist _)
      _ = dedges.length := List.length_map _ _
  have h2 : propPhi dedges (PropState.mk d p [] negs)
      = negs.length + ((dedges.map (fun e => e.«to»)).dedup.filter
        (fun x => !(([] : List String).contains x))).length
        * (dedges.length + 1) := rfl
  rw [h2]
  unfold propFuel
  have h3 : ((dedges.map (fun e => e.«to»)).dedup.filter
      (fun x => !(([] : List String).contains x))).length
      * (dedges.length + 1) ≤ dedges.length * (dedges.length + 1) :=
    Nat.mul_le_mul_right _ h1
  nlinarith [Nat.zero_le negs.length]

/-- Claim C2 theorem: every vertex reachable along directed edges from a
vertex flagged by the extra detection pass ends with distance `−∞` and a
cleared predecessor. -/
theorem claim_C2_theorem (nodes : List Node) (edges : List Edge)
    (sourceId : String) (f v : String)
    (hf : f ∈ (bfDetect (toDEdges edges)
      (bfAfterPasses nodes edges sourceId)).2)
    (hreach : ReachesD (toDEdges edges) f v) :
    getk (bellmanFord nodes edges sourceId).finalDistances v = some ninf ∧
    getk (bfFinalState nodes edges sourceId).previous v = some none := by
  have hne : ¬ ((bfDetect (toDEdges edges)
      (bfAfterPasses nodes edges sourceId)).2.isEmpty = true) := by
    intro h
    rw [List.isEmpty_iff] at h
    rw [h] at hf
    exact List.not_mem_nil f hf
  have hqsub := bfDetect_negs_sub (toDEdges edges)
    (bfAfterPasses nodes edges sourceId)
  have hdrain := bfPropagate_drain (toDEdges edges)
    (propFuel (toDEdges edges) (bfDetect (toDEdges edges)
      (bfAfterPasses nodes edges sourceId)).2)
    (PropState.mk
      (bfDetect (toDEdges edges) (bfAfterPasses nodes edges sourceId)).1.distances
      (bfDetect (toDEdges edges) (bfAfterPasses nodes edges sourceId)).1.previous
      []
      (bfDetect (toDEdges edges) (bfAfterPasses nodes edges sourceId)).2)
    (fun x hx => hqsub x hx) (propPhi_lt_propFuel _ _ _ _)
  have hvmem := bfPropagate_reach hdrain
    (fun x hx => absurd hx (List.not_mem_nil x)) hf hreach
  have hmark := bfPropagate_marks (toDEdges edges)
    (propFuel (toDEdges edges) (bfDetect (toDEdges edges)
      (bfAfterPasses nodes edges sourceId)).2)
    (PropState.mk
      (bfDetect (toDEdges edges) (bfAfterPasses nodes edges sourceId)).1.distances
      (bfDetect (toDEdges edges) (bfAfterPasses nodes edges sourceId)).1.previous
      []
      (bfDetect (toDEdges edges) (bfAfterPasses nodes edges sourceId)).2)
    (fun x hx => absurd hx (List.not_mem_nil x)) v hvmem
  constructor
  · show getk (bfFinalState nodes edges sourceId).distances v = some ninf
    simp only [bfFinalState]
    rw [if_neg hne]
    exact hmark.1
  · simp only [bfFinalState]
    rw [if_neg hne]
    exact hmark.2

/-- The negative-cycle example graph A→B(1), B→C(−3), C→B(1), C→D(2). -/
def c2edges : List Edge :=
  [⟨nodeA, nodeB, 1⟩, ⟨nodeB, nodeC, -3⟩, ⟨nodeC, nodeB, 1⟩,
   ⟨nodeC, nodeD, 2⟩]

/-- Claim C2 witness: in the negative-cycle example from source A, the final
distances of B, C and D are all `−∞`. -/
theorem claim_C2_witness :
    getk (bellmanFord [nodeA, nodeB, nodeC, nodeD] c2edges
        "A").finalDistances "B" = some ninf ∧
    getk (bellmanFord [nodeA, nodeB, nodeC, nodeD] c2edges
        "A").finalDistances "C" = some ninf ∧
    getk (bellmanFord [nodeA, nodeB, nodeC, nodeD] c2edges
        "A").finalDistances "D" = some ninf := by
  have hB := claim_C2_theorem [nodeA, nodeB, nodeC, nodeD] c2edges "A"
    "C" "B" (by with_unfolding_all decide)
    (Relation.ReflTransGen.single ⟨DEdge.mk "C" "B" 1, by decide, rfl, rfl⟩)
  have hC := claim_C2_theorem [nodeA, nodeB, nodeC, nodeD] c2edges "A"
    "C" "C" (by with_unfolding_all decide) Relation.ReflTransGen.refl
  have hD := claim_C2_theorem [nodeA, nodeB, nodeC, nodeD] c2edges "A"
    "C" "D" (by with_unfolding_all decide)
    (Relation.ReflTransGen.single ⟨DEdge.mk "C" "D" 2, by decide, rfl, rfl⟩)
  exact ⟨hB.1, hC.1, hD.1⟩

/-! ## Monotonicity of recorded distances (claim C9) -/

/-- Pointwise comparison of two snapshots of the distance map: on every key
present in both, the later value is `≤` the earlier one. -/
def mapGE (early later : List (String × ENum)) : Prop :=
  ∀ k v1 v2, getk early k = some v1 → getk later k = some v2 → v2 ≤ v1

theorem mapGE_refl (d : List (String × ENum)) : mapGE d d := by
  intro k v1 v2 h1 h2
  rw [h1] at h2
  exact le_of_eq (Option.some.inj h2).symm

theorem mapGE_setk_le {s d : List (String × ENum)} {k : String}
    {old v : ENum} (h : mapGE s d) (hold : getk d k = some old)
    (hle : v ≤ old) : mapGE s (setk d k v) := by
  intro k0 v1 v2 h1 h2
  by_cases hk : k0 = k
  · subst hk
    rw [getk_setk_self] at h2
    exact le_trans (le_trans (le_of_eq (Option.some.inj h2).symm) hle)
      (h k0 v1 old h1 hold)
  · rw [getk_setk_of_ne _ _ hk] at h2
    exact h k0 v1 v2 h1 h2

theorem mapGE_setk_bot {s d : List (String × ENum)} {k : String}
    (h : mapGE s d) : mapGE s (setk d k ninf) := by
  intro k0 v1 v2 h1 h2
  by_cases hk : k0 = k
  · subst hk
    rw [getk_setk_self] at h2
    rw [← Option.some.inj h2]
    exact bot_le
  · rw [getk_setk_of_ne _ _ hk] at h2
    exact h k0 v1 v2 h1 h2

/-- The running monotonicity invariant: every recorded snapshot dominates the
current distance map, and the snapshots are pairwise ordered. -/
def Mono (steps : List Step) (d : List (String × ENum)) : Prop :=
  (∀ s ∈ steps, mapGE s.distances d) ∧
  List.Pairwise (fun s1 s2 => mapGE s1.distances s2.distances) steps

theorem mono_push {steps : List Step} {d : List (String × ENum)}
    {stp : Step} (h : Mono steps d) (hstp : stp.distances = d) :
    Mono (steps ++ [stp]) d := by
  constructor
  · intro s hs
    rcases List.mem_append.1 hs with hs | hs
    · exact h.1 s hs
    · rw [List.mem_singleton.1 hs, hstp]
      exact mapGE_refl d
  · rw [List.pairwise_append]
    refine ⟨h.2, List.pairwise_singleton _ _, ?_⟩
    intro a ha b hb
    rw [List.mem_singleton.1 hb, hstp]
    exact h.1 a ha

theorem mono_update {steps : List Step} {d : List (String × ENum)}
    {k : String} {old v : ENum} (h : Mono steps d)
    (hold : getk d k = some old) (hle : v ≤ old) :
    Mono steps (setk d k v) :=
  ⟨fun s hs => mapGE_setk_le (h.1 s hs) hold hle, h.2⟩

theorem mono_bot {steps : List Step} {d : List (String × ENum)}
    {k : String} (h : Mono steps d) : Mono steps (setk d k ninf) :=
  ⟨fun s hs => mapGE_setk_bot (h.1 s hs), h.2⟩

theorem dijkstraRelax_mono {nodes : List Node} {currentId : String}
    {st : DState} (e : Edge) (h : Mono st.steps st.distances) :
    Mono (dijkstraRelax nodes currentId st e).steps
      (dijkstraRelax nodes currentId st e).distances := by
  unfold dijkstraRelax
  by_cases hvis : (getk st.visitedVertices e.«to».id).getD false
  · rw [if_pos hvis]
    exact h
  · rw [if_neg hvis]
    cases hdn : getk st.distances e.«to».id with
    | none => exact h
    | some dn =>
      dsimp only
      cases hdc : getk st.distances currentId with
      | none =>
        dsimp only
        by_cases hq : pqHasNode st.queue e.«to».id
        · rw [if_pos hq]
          exact h
        · rw [if_neg hq]
          cases nodes.find? (fun n => n.id == e.«to».id) with
          | none => exact h
          | some nb => exact h
      | some dc =>
        dsimp only
        by_cases himp : dc + num e.weight < dn
        · rw [if_pos himp]
          dsimp only
          exact mono_push (mono_update h hdn (le_of_lt himp)) rfl
        · rw [if_neg himp]
          by_cases hq : pqHasNode st.queue e.«to».id
          · rw [if_pos hq]
            exact h
          · rw [if_neg hq]
            cases nodes.find? (fun n => n.id == e.«to».id) with
            | none => exact h
            | some nb => exact h

theorem dijkstraLoop_mono (nodes : List Node) (edges : List Edge) :
    ∀ (fuel : Nat) (st : DState), Mono st.steps st.distances →
    Mono (dijkstraLoop nodes edges fuel st).steps
      (dijkstraLoop nodes edges fuel st).distances := by
  intro fuel
  induction fuel with
  | zero => exact fun st h => h
  | succ fuel ih =>
    intro st h
    rw [dijkstraLoop]
    cases hqe : st.queue with
    | nil => exact h
    | cons item rest =>
      dsimp only
      by_cases hv : (getk st.visitedVertices item.node.id).getD false
      · rw [if_pos hv]
        exact ih _ h
      · rw [if_neg hv]
        refine ih _ ?_
        refine foldl_preserve (fun s : DState => Mono s.steps s.distances) _ _ _
          ?_ (fun acc e hacc => dijkstraRelax_mono e hacc)
        exact mono_push h rfl

theorem bfRelaxEdge_mono {acc : BFState × Bool} (e : DEdge)
    (h : Mono acc.1.steps acc.1.distances) :
    Mono (bfRelaxEdge acc e).1.steps (bfRelaxEdge acc e).1.distances := by
  obtain ⟨st, b⟩ := acc
  simp only [bfRelaxEdge]
  cases hf : getk st.distances e.«from» with
  | none => exact h
  | some df =>
    dsimp only
    by_cases hdf : df = inf
    · rw [if_pos hdf]
      exact h
    · rw [if_neg hdf]
      cases ht : getk st.distances e.«to» with
      | none => exact h
      | some dt =>
        dsimp only
        by_cases hlt : df + num e.weight < dt
        · rw [if_pos hlt]
          exact mono_push (mono_update h ht (le_of_lt hlt)) rfl
        · rw [if_neg hlt]
          exact h

theorem bfPasses_mono (dedges : List DEdge) : ∀ (k : Nat) (st : BFState),
    Mono st.steps st.distances →
    Mono (bfPasses dedges k st).steps (bfPasses dedges k st).distances := by
  intro k
  induction k with
  | zero => exact fun st h => h
  | succ k ih =>
    intro st h
    rw [bfPasses]
    have hp : Mono (bfPass dedges st).1.steps
        (bfPass dedges st).1.distances := by
      unfold bfPass
      refine foldl_preserve
        (fun acc : BFState × Bool => Mono acc.1.steps acc.1.distances)
        _ _ _ h (fun acc e hacc => bfRelaxEdge_mono e hacc)
    by_cases hu : (bfPass dedges st).2
    · rw [if_pos hu]
      exact ih _ hp
    · rw [if_neg hu]
      exact mono_push hp rfl

theorem bfDetect_mono (dedges : List DEdge) (st : BFState)
    (h : Mono st.steps st.distances) :
    Mono (bfDetect dedges st).1.steps (bfDetect dedges st).1.distances := by
  unfold bfDetect
  refine foldl_preserve
    (fun acc : BFState × List String => Mono acc.1.steps acc.1.distances)
    _ _ _ h (fun acc e hacc => ?_)
  obtain ⟨st2, negs⟩ := acc
  simp only [bfDetectStep]
  cases hf : getk st2.distances e.«from» with
  | none => exact hacc
  | some df =>
    dsimp only
    by_cases hdf : df = inf
    · rw [if_pos hdf]
      exact hacc
    · rw [if_neg hdf]
      cases ht : getk st2.distances e.«to» with
      | none => exact hacc
      | some dt =>
        dsimp only
        by_cases hlt : df + num e.weight < dt
        · rw [if_pos hlt]
          exact mono_push hacc rfl
        · rw [if_neg hlt]
          exact hacc

theorem bfPropagate_mono (dedges : List DEdge) (steps : List Step) :
    ∀ (fuel : Nat) (st : PropState), Mono steps st.distances →
    Mono steps (bfPropagate dedges fuel st).distances := by
  intro fuel
  induction fuel with
  | zero => exact fun st h => h
  | succ fuel ih =>
    intro st h
    rw [bfPropagate]
    cases hqe : st.queue with
    | nil => exact h
    | cons current rest =>
      dsimp only
      by_cases hv : current ∈ st.visited
      · rw [if_pos hv]
        exact ih _ h
      · rw [if_neg hv]
        exact ih _ (mono_bot h)

/-- The assembled invariant for `dijkstra`'s result. -/
theorem dijkstra_mono (nodes : List Node) (edges : List Edge)
    (sourceId : String) :
    Mono (dijkstra nodes edges sourceId).steps
      (dijkstra nodes edges sourceId).finalDistances := by
  unfold dijkstra
  cases hfind : nodes.find? (fun n => n.id == sourceId) with
  | none => exact ⟨fun s hs => absurd hs (List.not_mem_nil s),
      List.Pairwise.nil⟩
  | some sourceNode =>
    dsimp only
    have h0 : Mono (dijkstraSt0 nodes sourceId sourceNode).steps
        (dijkstraSt0 nodes sourceId sourceNode).distances := by
      refine ⟨fun s hs => ?_, List.pairwise_singleton _ _⟩
      rw [List.mem_singleton.1 hs]
      exact mapGE_refl _
    have h1 := dijkstraLoop_mono nodes edges (dijkstraFuel nodes edges)
      (dijkstraSt0 nodes sourceId sourceNode) h0
    exact mono_push h1 rfl

/-- The assembled invariant for `bellmanFord`'s result. -/
theorem bellmanFord_mono (nodes : List Node) (edges : List Edge)
    (sourceId : String) :
    Mono (bellmanFord nodes edges sourceId).steps
      (bellmanFord nodes edges sourceId).finalDistances := by
  have h0 : Mono (bfSt0 nodes sourceId).steps
      (bfSt0 nodes sourceId).distances := by
    refine ⟨fun s hs => ?_, List.pairwise_singleton _ _⟩
    rw [List.mem_singleton.1 hs]
    exact mapGE_refl _
  have h1 := bfPasses_mono (toDEdges edges) (nodes.length - 1)
    (bfSt0 nodes sourceId) h0
  have h2 := bfDetect_mono (toDEdges edges)
    (bfAfterPasses nodes edges sourceId) h1
  show Mono (bfFinalState nodes edges sourceId).steps
    (bfFinalState nodes edges sourceId).distances
  unfold bfFinalState
  by_cases hne : ((bfDetect (toDEdges edges)
      (bfAfterPasses nodes edges sourceId)).2.isEmpty = true)
  · rw [if_pos hne]
    exact mono_push h2 rfl
  · rw [if_neg hne]
    have h3 := bfPropagate_mono (toDEdges edges)
      (bfDetect (toDEdges edges)
        (bfAfterPasses nodes edges sourceId)).1.steps
      (propFuel (toDEdges edges) (bfDetect (toDEdges edges)
        (bfAfterPasses nodes edges sourceId)).2)
      (PropState.mk
        (bfDetect (toDEdges edges)
          (bfAfterPasses nodes edges sourceId)).1.distances
        (bfDetect (toDEdges edges)
          (bfAfterPasses nodes edges sourceId)).1.previous
        []
        (bfDetect (toDEdges edges)
          (bfAfterPasses nodes edges sourceId)).2)
      h2
    exact mono_push h3 rfl

theorem pairwise_index {l : List Step}
    (h : List.Pairwise (fun s1 s2 => mapGE s1.distances s2.distances) l)
    {i j : Nat} {si sj : Step} (hij : i ≤ j) (hi : l[i]? = some si)
    (hj : l[j]? = some sj) : mapGE si.distances sj.distances := by
  obtain ⟨hi1, hi2⟩ := List.getElem?_eq_some_iff.1 hi
  obtain ⟨hj1, hj2⟩ := List.getElem?_eq_some_iff.1 hj
  rcases Nat.lt_or_ge i j with hlt | hge
  · have hp := List.pairwise_iff_getElem.1 h i j hi1 hj1 hlt
    rw [hi2, hj2] at hp
    exact hp
  · have heq : i = j := Nat.le_antisymm hij hge
    subst heq
    rw [hi2] at hj2
    rw [← hj2]
    exact mapGE_refl _

theorem dijkstra_last (nodes : List Node) (edges : List Edge)
    (sourceId : String) :
    ∀ last, (dijkstra nodes edges sourceId).steps.getLast? = some last →
      last.type = StepType.finish ∧
      last.distances = (dijkstra nodes edges sourceId).finalDistances := by
  unfold dijkstra
  cases hfind : nodes.find? (fun n => n.id == sourceId) with
  | none =>
    intro last h
    rw [List.getLast?_nil] at h
    cases h
  | some sourceNode =>
    dsimp only
    intro last h
    rw [List.getLast?_concat] at h
    rw [← Option.some.inj h]
    exact ⟨rfl, rfl⟩

theorem bellmanFord_last (nodes : List Node) (edges : List Edge)
    (sourceId : String) :
    ∀ last, (bellmanFord nodes edges sourceId).steps.getLast? = some last →
      last.type = StepType.finish ∧
      last.distances = (bellmanFord nodes edges sourceId).finalDistances := by
  show ∀ last, (bfFinalState nodes edges sourceId).steps.getLast?
      = some last → last.type = StepType.finish ∧
      last.distances = (bfFinalState nodes edges sourceId).distances
  unfold bfFinalState
  by_cases hne : ((bfDetect (toDEdges edges)
      (bfAfterPasses nodes edges sourceId)).2.isEmpty = true)
  · rw [if_pos hne]
    dsimp only
    intro last h
    rw [List.getLast?_concat] at h
    rw [← Option.some.inj h]
    exact ⟨rfl, rfl⟩
  · rw [if_neg hne]
    dsimp only
    intro last h
    rw [List.getLast?_concat] at h
    rw [← Option.some.inj h]
    exact ⟨rfl, rfl⟩

/-- Claim C9 theorem: in `dijkstra` and `bellmanFord`, per-vertex recorded
distances never increase across the ordered step sequence, and the returned
final distance map is the one recorded by the (last) `finish` step. -/
theorem claim_C9_theorem (nodes : List Node) (edges : List Edge)
    (sourceId : String) :
    (∀ (i j : Nat) (si sj : Step), i ≤ j →
      (dijkstra nodes edges sourceId).steps[i]? = some si →
      (dijkstra nodes edges sourceId).steps[j]? = some sj →
      mapGE si.distances sj.distances) ∧
    (∀ last, (dijkstra nodes edges sourceId).steps.getLast? = some last →
      last.type = StepType.finish ∧
      last.distances = (dijkstra nodes edges sourceId).finalDistances) ∧
    (∀ (i j : Nat) (si sj : Step), i ≤ j →
      (bellmanFord nodes edges sourceId).steps[i]? = some si →
      (bellmanFord nodes edges sourceId).steps[j]? = some sj →
      mapGE si.distances sj.distances) ∧
    (∀ last,
      (bellmanFord nodes edges sourceId).steps.getLast? = some last →
      last.type = StepType.finish ∧
      last.distances = (bellmanFord nodes edges sourceId).finalDistances) :=
  ⟨fun i j si sj hij hi hj =>
    pairwise_index (dijkstra_mono nodes edges sourceId).2 hij hi hj,
   dijkstra_last nodes edges sourceId,
   fun i j si sj hij hi hj =>
    pairwise_index (bellmanFord_mono nodes edges sourceId).2 hij hi hj,
   bellmanFord_last nodes edges sourceId⟩

/-- Claim C9 witness: the theorem applied to the one-vertex graph, comparing
the init and visit snapshots and the finish step of both algorithms. -/
theorem claim_C9_witness :
    mapGE ([("A", num 0)] : List (String × ENum))
        ([("A", num 0)] : List (String × ENum)) ∧
    ([("A", num 0)] : List (String × ENum))
        = (dijkstra [nodeA] [] "A").finalDistances ∧
    ([("A", num 0)] : List (String × ENum))
        = (bellmanFord [nodeA] [] "A").finalDistances := by
  obtain ⟨hidx, hlast, hidx2, hlast2⟩ := claim_C9_theorem [nodeA] [] "A"
  refine ⟨?_, ?_, ?_⟩
  · exact hidx 0 1
      { type := .init, distances := [("A", num 0)], visited := [],
        previous := [("A", none)] }
      { type := .visit, currentNode := some "A",
        distances := [("A", num 0)], visited := ["A"],
        previous := [("A", none)] }
      (by omega) (by with_unfolding_all decide)
      (by with_unfolding_all decide)
  · exact (hlast
      { type := .finish, distances := [("A", num 0)], visited := ["A"],
        previous := [("A", none)] }
      (by with_unfolding_all decide)).2
  · exact (hlast2
      { type := .finish, distances := [("A", num 0)],
        previous := [("A", none)] }
      (by with_unfolding_all decide)).2

/-! ## Termination of the predecessor walks (claim C8) -/

theorem pqAdd_mem {items : List PQItem} {n : Node} {p : ENum} {it : PQItem}
    (h : it ∈ pqAdd items n p) : it ∈ items ∨ it = PQItem.mk n p := by
  unfold pqAdd at h
  have hp := (List.mergeSort_perm (items ++ [PQItem.mk n p]) pqLE).mem_iff.1 h
  rcases List.mem_append.1 hp with hp | hp
  · exact Or.inl hp
  · exact Or.inr (List.mem_singleton.1 hp)

theorem pqSetFirst_mem {items : List PQItem} {nodeId : String} {p : ENum}
    {it : PQItem} (h : it ∈ pqSetFirst items nodeId p) :
    ∃ it0 ∈ items, it.node = it0.node := by
  induction items with
  | nil => cases h
  | cons hd tl ih =>
    unfold pqSetFirst at h
    by_cases hh : hd.node.id == nodeId
    · rw [if_pos hh] at h
      rcases List.mem_cons.1 h with rfl | h
      · exact ⟨hd, List.mem_cons_self _ _, rfl⟩
      · exact ⟨it, List.mem_cons_of_mem _ h, rfl⟩
    · rw [if_neg hh] at h
      rcases List.mem_cons.1 h with rfl | h
      · exact ⟨it, List.mem_cons_self _ _, rfl⟩
      · obtain ⟨it0, h0, he⟩ := ih h
        exact ⟨it0, List.mem_cons_of_mem _ h0, he⟩

theorem pqChangePriority_mem {items : List PQItem} {nodeId : String}
    {p : ENum} {it : PQItem} (h : it ∈ pqChangePriority items nodeId p) :
    ∃ it0 ∈ items, it.node = it0.node := by
  unfold pqChangePriority at h
  by_cases hh : pqHasNode items nodeId
  · rw [if_pos hh] at h
    exact pqSetFirst_mem
      ((List.mergeSort_perm (pqSetFirst items nodeId p) pqLE).mem_iff.1 h)
  · rw [if_neg hh] at h
    exact ⟨it, h, rfl⟩

/-- A key is present exactly when some pair's first component equals it. -/
theorem getk_isSome_iff_mem_keys {α : Type} (m : List (String × α))
    (k : String) : (getk m k).isSome ↔ k ∈ m.map Prod.fst := by
  rw [getk_isSome_iff_any]
  constructor
  · intro h
    obtain ⟨p, hp, he⟩ := List.any_eq_true.1 h
    exact List.mem_map.2 ⟨p, hp, beq_iff_eq.1 he⟩
  · intro h
    obtain ⟨p, hp, he⟩ := List.mem_map.1 h
    exact List.any_eq_true.2 ⟨p, hp, by simp [he]⟩

/-- The bounded backward walk with the per-walk visited set always
completes within the fuel `wFuel`. -/
theorem walkBF_isSome (prev : List (String × Option String)) :
    ∀ (fuel : Nat) (cur : Option String) (visited path : List String),
    ((prev.map Prod.fst).dedup.filter
      (fun x => !(visited.contains x))).length + 2 ≤ fuel →
    (walkBF prev fuel cur visited path).isSome := by
  intro fuel
  induction fuel with
  | zero => omega
  | succ fuel ih =>
    intro cur visited path hcnt
    cases cur with
    | none => simp [walkBF]
    | some c =>
      rw [walkBF]
      by_cases hv : c ∈ visited
      · rw [if_pos hv]
        simp
      · rw [if_neg hv]
        cases hk : getk prev c with
        | none =>
          simp only [hk, Option.getD_none]
          cases fuel with
          | zero => omega
          | succ fuel2 => simp [walkBF]
        | some p =>
          by_cases hmem : c ∈ (prev.map Prod.fst).dedup
          · refine ih _ _ _ ?_
            -- the key count strictly drops
            set T := (prev.map Prod.fst).dedup with hT
            set p1 : String → Bool := fun x => !(visited.contains x)
              with hp1
            set p2 : String → Bool :=
              fun x => !((visited ++ [c]).contains x) with hp2
            have himp : ∀ a, p2 a = true → p1 a = true := by
              intro a ha
              rw [hp2, bnotContains_iff] at ha
              rw [hp1, bnotContains_iff]
              exact fun hmem2 => ha (List.mem_append_left _ hmem2)
            have hfilter : T.filter p2 = (T.filter p1).filter p2 := by
              rw [List.filter_filter]
              refine (List.filter_congr ?_).symm
              intro a _
              cases hpa : p2 a with
              | true => simp [himp a hpa]
              | false => simp
            have hmemf : c ∈ T.filter p1 := by
              refine List.mem_filter.2 ⟨hmem, ?_⟩
              rw [hp1, bnotContains_iff]
              exact hv
            have hnp2 : ¬ p2 c = true := by
              rw [hp2, bnotContains_iff]
              simp only [not_not]
              exact List.mem_append_right _ (List.mem_singleton_self _)
            have hlt : (T.filter p2).length < (T.filter p1).length := by
              rw [hfilter]
              exact List.length_filter_lt_length_iff_exists.2
                ⟨c, hmemf, hnp2⟩
            omega
          · exfalso
            refine hmem (List.mem_dedup.2 ?_)
            refine (getk_isSome_iff_mem_keys prev c).1 ?_
            rw [hk]
            rfl

/-- The unguarded backward walk completes provided the predecessor links
strictly decrease some rank and stay inside the key set. -/
theorem walkD_isSome_of_rank {prev : List (String × Option String)}
    {rk : String → Nat}
    (hstep : ∀ v u, getk prev v = some (some u) →
      (getk prev u).isSome ∧ rk u < rk v) :
    ∀ (fuel : Nat) (c : String) (path : List String),
    (getk prev c).isSome → rk c < fuel →
    (walkD prev fuel (some c) path).isSome := by
  intro fuel
  induction fuel with
  | zero => omega
  | succ fuel ih =>
    intro c path hc hrk
    rw [walkD]
    cases hk : getk prev c with
    | none =>
      rw [hk] at hc
      cases hc
    | some p =>
      cases p with
      | none => simp [walkD]
      | some u =>
        obtain ⟨hu, hlt⟩ := hstep c u hk
        exact ih u (c :: path) hu (by omega)

/-- The visit rank of an id: its position in the visited list, or the list
length when absent. -/
def rkOf : List String → String → Nat
  | [], _ => 0
  | y :: l, x => if y = x then 0 else rkOf l x + 1

theorem rkOf_absent {l : List String} {x : String} (h : x ∉ l) :
    rkOf l x = l.length := by
  induction l with
  | nil => rfl
  | cons y l ih =>
    have hne : y ≠ x := fun he => h (he ▸ List.mem_cons_self y l)
    rw [rkOf, if_neg hne, ih (fun hm => h (List.mem_cons_of_mem y hm))]
    rfl

theorem rkOf_lt_length {l : List String} {x : String} (h : x ∈ l) :
    rkOf l x < l.length := by
  induction l with
  | nil => cases h
  | cons y l ih =>
    by_cases he : y = x
    · rw [rkOf, if_pos he]
      simp
    · rw [rkOf, if_neg he]
      have hm : x ∈ l := by
        rcases List.mem_cons.1 h with hh | hh
        · exact absurd hh.symm he
        · exact hh
      simpa [List.length_cons] using ih hm

theorem rkOf_append_of_mem {l t : List String} {x : String} (h : x ∈ l) :
    rkOf (l ++ t) x = rkOf l x := by
  induction l with
  | nil => cases h
  | cons y l ih =>
    by_cases he : y = x
    · rw [List.cons_append, rkOf, if_pos he, rkOf, if_pos he]
    · have hm : x ∈ l := by
        rcases List.mem_cons.1 h with hh | hh
        · exact absurd hh.symm he
        · exact hh
      rw [List.cons_append, rkOf, if_neg he, rkOf, if_neg he, ih hm]

theorem rkOf_append_self {l : List String} {x : String} (h : x ∉ l) :
    rkOf (l ++ [x]) x = l.length := by
  induction l with
  | nil => simp [rkOf]
  | cons y l ih =>
    have hne : y ≠ x := fun he => h (he ▸ List.mem_cons_self y l)
    rw [List.cons_append, rkOf, if_neg hne,
      ih (fun hm => h (List.mem_cons_of_mem y hm))]
    rfl

theorem nodup_subset_length {l l' : List String} (hn : l.Nodup)
    (hs : ∀ x ∈ l, x ∈ l') : l.length ≤ l'.length := by
  calc l.length = l.toFinset.card := (List.toFinset_card_of_nodup hn).symm
    _ ≤ l'.toFinset.card := Finset.card_le_card
        (fun x hx => List.mem_toFinset.2 (hs x (List.mem_toFinset.1 hx)))
    _ ≤ l'.length := l'.toFinset_card_le

/-- Domain preservation of `setk` at a present key. -/
theorem setk_present_domain {α : Type} {m : List (String × α)}
    {k : String} (v : α) (hk : (getk m k).isSome) (x : String) :
    (getk (setk m k v) x).isSome = (getk m x).isSome := by
  by_cases hx : x = k
  · subst hx
    rw [getk_setk_self]
    cases hg : getk m x with
    | none => rw [hg] at hk; cases hk
    | some w => rfl
  · rw [getk_setk_of_ne _ _ hx]

/-- The standing invariant of `dijkstra`'s main loop. -/
structure DInv (nodes : List Node) (st : DState) : Prop where
  queue_nodes : ∀ it ∈ st.queue, it.node ∈ nodes
  vl_nodup : st.visitedList.Nodup
  visited_iff : ∀ x, ((getk st.visitedVertices x).getD false = true)
    ↔ x ∈ st.visitedList
  dom_prev : ∀ x, (getk st.previousVertices x).isSome
    ↔ nodes.any (fun n => n.id == x)
  dom_dist : ∀ x, (getk st.distances x).isSome
    ↔ nodes.any (fun n => n.id == x)
  vl_dom : ∀ x ∈ st.visitedList, nodes.any (fun n => n.id == x)
  prev_rank : ∀ v u, getk st.previousVertices v = some (some u) →
    u ∈ st.visitedList ∧ (v ∈ st.visitedList →
      rkOf st.visitedList u < rkOf st.visitedList v)

theorem dijkstraRelax_inv {nodes : List Node} {currentId : String}
    {st : DState} (e : Edge) (h : DInv nodes st)
    (hcur : currentId ∈ st.visitedList) :
    DInv nodes (dijkstraRelax nodes currentId st e) ∧
    (dijkstraRelax nodes currentId st e).visitedList = st.visitedList := by
  unfold dijkstraRelax
  by_cases hvis : (getk st.visitedVertices e.«to».id).getD false
  · rw [if_pos hvis]
    exact ⟨h, rfl⟩
  · rw [if_neg hvis]
    cases hdn : getk st.distances e.«to».id with
    | none => exact ⟨h, rfl⟩
    | some dn =>
      dsimp only
      cases hdc : getk st.distances currentId with
      | none =>
        dsimp only
        by_cases hq : pqHasNode st.queue e.«to».id
        · rw [if_pos hq]
          exact ⟨h, rfl⟩
        · rw [if_neg hq]
          cases hfind : nodes.find? (fun n => n.id == e.«to».id) with
          | none => exact ⟨h, rfl⟩
          | some nb =>
            refine ⟨{ h with queue_nodes := ?_ }, rfl⟩
            intro it hit
            rcases pqAdd_mem hit with hit | hit
            · exact h.queue_nodes it hit
            · rw [hit]
              exact List.mem_of_find?_eq_some hfind
      | some dc =>
        dsimp only
        by_cases himp : dc + num e.weight < dn
        · rw [if_pos himp]
          dsimp only
          have hdnS : (getk st.distances e.«to».id).isSome := by
            rw [hdn]; rfl
          have hpS : (getk st.previousVertices e.«to».id).isSome := by
            rw [(h.dom_prev _)]
            exact (h.dom_dist _).1 hdnS
          have hvnot : e.«to».id ∉ st.visitedList := by
            intro hm
            have := (h.visited_iff e.«to».id).2 hm
            simp [this] at hvis
          refine ⟨?_, rfl⟩
          refine DInv.mk ?_ h.vl_nodup h.visited_iff ?_ ?_ h.vl_dom ?_
          · intro it hit
            by_cases hq : pqHasNode st.queue e.«to».id
            · rw [if_pos hq] at hit
              obtain ⟨it0, h0, he0⟩ := pqChangePriority_mem hit
              have := h.queue_nodes it0 h0
              rw [← he0] at this
              exact this
            · rw [if_neg hq] at hit
              cases hfind : nodes.find? (fun n => n.id == e.«to».id) with
              | none =>
                rw [hfind] at hit
                exact h.queue_nodes it hit
              | some nb =>
                rw [hfind] at hit
                rcases pqAdd_mem hit with hit | hit
                · exact h.queue_nodes it hit
                · rw [hit]
                  exact List.mem_of_find?_eq_some hfind
          · intro x
            rw [setk_present_domain _ hpS x]
            exact h.dom_prev x
          · intro x
            rw [setk_present_domain _ hdnS x]
            exact h.dom_dist x
          · intro v u hvu
            by_cases hv : v = e.«to».id
            · subst hv
              rw [getk_setk_self] at hvu
              have : currentId = u := Option.some.inj (Option.some.inj hvu)
              subst this
              exact ⟨hcur, fun hm => absurd hm hvnot⟩
            · rw [getk_setk_of_ne _ _ hv] at hvu
              exact h.prev_rank v u hvu
        · rw [if_neg himp]
          by_cases hq : pqHasNode st.queue e.«to».id
          · rw [if_pos hq]
            exact ⟨h, rfl⟩
          · rw [if_neg hq]
            cases hfind : nodes.find? (fun n => n.id == e.«to».id) with
            | none => exact ⟨h, rfl⟩
            | some nb =>
              refine ⟨{ h with queue_nodes := ?_ }, rfl⟩
              intro it hit
              rcases pqAdd_mem hit with hit | hit
              · exact h.queue_nodes it hit
              · rw [hit]
                exact List.mem_of_find?_eq_some hfind

theorem dijkstraLoop_inv (nodes : List Node) (edges : List Edge) :
    ∀ (fuel : Nat) (st : DState), DInv nodes st →
    DInv nodes (dijkstraLoop nodes edges fuel st) := by
  intro fuel
  induction fuel with
  | zero => exact fun st h => h
  | succ fuel ih =>
    intro st h
    rw [dijkstraLoop]
    cases hqe : st.queue with
    | nil => exact h
    | cons item rest =>
      dsimp only
      have hrest : ∀ it ∈ rest, it.node ∈ nodes := by
        intro it hit
        refine h.queue_nodes it ?_
        rw [hqe]
        exact List.mem_cons_of_mem _ hit
      by_cases hv : (getk st.visitedVertices item.node.id).getD false
      · rw [if_pos hv]
        refine ih _ (DInv.mk hrest h.vl_nodup h.visited_iff h.dom_prev
          h.dom_dist h.vl_dom h.prev_rank)
      · rw [if_neg hv]
        have hcid_dom : nodes.any (fun n => n.id == item.node.id) = true := by
          refine List.any_eq_true.2 ⟨item.node, ?_, by simp⟩
          refine h.queue_nodes item ?_
          rw [hqe]
          exact List.mem_cons_self _ _
        have hcnot : item.node.id ∉ st.visitedList := by
          intro hm
          exact hv ((h.visited_iff _).2 hm)
        have hdisj : st.visitedList.Disjoint [item.node.id] := by
          intro a ha hb
          rw [List.mem_singleton] at hb
          exact hcnot (hb ▸ ha)
        have h2 : DInv nodes
            { steps := st.steps ++
                [{ type := .visit, currentNode := some item.node.id,
                   distances := st.distances,
                   visited := st.visitedList ++ [item.node.id],
                   previous := st.previousVertices }],
              distances := st.distances,
              visitedVertices := setk st.visitedVertices item.node.id true,
              previousVertices := st.previousVertices,
              queue := rest,
              visitedList := st.visitedList ++ [item.node.id] } := by
          refine DInv.mk hrest ?_ ?_ h.dom_prev h.dom_dist ?_ ?_
          · exact h.vl_nodup.append (List.nodup_singleton _) hdisj
          · intro x
            by_cases hx : x = item.node.id
            · subst hx
              rw [getk_setk_self]
              simp
            · rw [getk_setk_of_ne _ _ hx, h.visited_iff x]
              constructor
              · exact fun hm => List.mem_append_left _ hm
              · intro hm
                rcases List.mem_append.1 hm with hm | hm
                · exact hm
                · exact absurd (List.mem_singleton.1 hm) hx
          · intro x hx
            rcases List.mem_append.1 hx with hx | hx
            · exact h.vl_dom x hx
            · rw [List.mem_singleton.1 hx]
              exact hcid_dom
          · intro v u hvu
            obtain ⟨hu_vl, hlt⟩ := h.prev_rank v u hvu
            refine ⟨List.mem_append_left _ hu_vl, ?_⟩
            intro hv_vl
            rcases List.mem_append.1 hv_vl with hvv | hvv
            · rw [rkOf_append_of_mem hu_vl, rkOf_append_of_mem hvv]
              exact hlt hvv
            · rw [List.mem_singleton.1 hvv, rkOf_append_of_mem hu_vl,
                rkOf_append_self hcnot]
              exact rkOf_lt_length hu_vl
        refine ih _ ?_
        have hfold := foldl_preserve
          (fun s : DState => DInv nodes s ∧
            s.visitedList = st.visitedList ++ [item.node.id])
          (dijkstraRelax nodes item.node.id)
          (edges.filter (fun e => e.«from».id == item.node.id))
          _ ⟨h2, rfl⟩ ?_
        · exact hfold.1
        · intro acc e hacc
          obtain ⟨hi, hveq⟩ := hacc
          have hc : item.node.id ∈ acc.visitedList := by
            rw [hveq]
            exact List.mem_append_right _ (List.mem_singleton.2 rfl)
          obtain ⟨hi2, hveq2⟩ := dijkstraRelax_inv e hi hc
          exact ⟨hi2, hveq2.trans hveq⟩

theorem initVisited_getk (nodes : List Node) (k : String) :
    getk (initVisited nodes) k =
      if nodes.any (fun n => n.id == k) then some false else none := by
  have h := getk_initFold nodes (fun _ => (false : Bool)) [] k
  simp only [initVisited]
  simpa [getk_nil] using h

theorem initPrevious_getk (nodes : List Node) (k : String) :
    getk (initPrevious nodes) k =
      if nodes.any (fun n => n.id == k) then some (none : Option String)
      else none := by
  have h := getk_initFold nodes (fun _ => (none : Option String)) [] k
  simp only [initPrevious]
  simpa [getk_nil] using h

theorem dijkstraInitDistances_getk (nodes : List Node) (sourceId k : String)
    (hsrc : nodes.any (fun n => n.id == sourceId) = true) :
    getk (dijkstraInitDistances nodes sourceId) k =
      if nodes.any (fun n => n.id == k) then
        some (if k == sourceId then num 0 else inf)
      else none := by
  unfold dijkstraInitDistances
  by_cases hk : k = sourceId
  · subst hk
    rw [getk_setk_self, hsrc]
    simp
  · rw [getk_setk_of_ne _ _ hk]
    have h := getk_initFold nodes (fun _ => inf) [] k
    simp only [getk_nil] at h
    rw [h]
    have hkb : (k == sourceId) = false := by
      simp [hk]
    rw [hkb]
    simp

theorem dijkstraSt0_inv (nodes : List Node) (sourceId : String)
    (sourceNode : Node)
    (hfind : nodes.find? (fun n => n.id == sourceId) = some sourceNode) :
    DInv nodes (dijkstraSt0 nodes sourceId sourceNode) := by
  have hsrc : nodes.any (fun n => n.id == sourceId) = true := by
    refine List.any_eq_true.2 ⟨sourceNode, List.mem_of_find?_eq_some hfind, ?_⟩
    have hp := List.find?_some hfind
    simpa using hp
  refine DInv.mk ?_ List.nodup_nil ?_ ?_ ?_ ?_ ?_
  · intro it hit
    simp only [dijkstraSt0] at hit
    rcases pqAdd_mem hit with hit | hit
    · cases hit
    · rw [hit]
      exact List.mem_of_find?_eq_some hfind
  · intro x
    simp only [dijkstraSt0]
    rw [initVisited_getk]
    by_cases hx : nodes.any (fun n => n.id == x) <;> simp [hx]
  · intro x
    simp only [dijkstraSt0]
    rw [initPrevious_getk]
    by_cases hx : nodes.any (fun n => n.id == x) <;> simp [hx]
  · intro x
    simp only [dijkstraSt0]
    rw [dijkstraInitDistances_getk nodes sourceId x hsrc]
    by_cases hx : nodes.any (fun n => n.id == x) <;> simp [hx]
  · intro x hx
    simp only [dijkstraSt0] at hx
    exact absurd hx (List.not_mem_nil x)
  · intro v u hvu
    simp only [dijkstraSt0] at hvu
    rw [initPrevious_getk] at hvu
    by_cases hx : nodes.any (fun n => n.id == v)
    · rw [if_pos hx] at hvu
      simp at hvu
    · rw [if_neg hx] at hvu
      cases hvu

/-- The invariant holds at the end of Dijkstra's main loop. -/
theorem dijkstraFinal_inv (nodes : List Node) (edges : List Edge)
    (sourceId : String) (sourceNode : Node)
    (hfind : nodes.find? (fun n => n.id == sourceId) = some sourceNode) :
    DInv nodes (dijkstraFinalState nodes edges sourceId sourceNode) :=
  dijkstraLoop_inv nodes edges _ _ (dijkstraSt0_inv nodes sourceId sourceNode hfind)

/-- The backward walk over an invariant-satisfying predecessor map succeeds
within the standard fuel from any vertex of the graph. -/
theorem dinv_walkD_isSome {nodes : List Node} {st : DState}
    (hinv : DInv nodes st) {n : Node} (hn : n ∈ nodes) :
    (walkD st.previousVertices (wFuel st.previousVertices)
      (some n.id) []).isSome := by
  have hdom : (getk st.previousVertices n.id).isSome := by
    refine (hinv.dom_prev n.id).2 ?_
    exact List.any_eq_true.2 ⟨n, hn, by simp⟩
  have hstep : ∀ v u, getk st.previousVertices v = some (some u) →
      (getk st.previousVertices u).isSome ∧
      rkOf st.visitedList u < rkOf st.visitedList v := by
    intro v u hvu
    obtain ⟨hu_vl, hlt⟩ := hinv.prev_rank v u hvu
    refine ⟨(hinv.dom_prev u).2 (hinv.vl_dom u hu_vl), ?_⟩
    by_cases hvm : v ∈ st.visitedList
    · exact hlt hvm
    · rw [rkOf_absent hvm]
      exact rkOf_lt_length hu_vl
  refine @walkD_isSome_of_rank st.previousVertices
    (fun v => rkOf st.visitedList v) hstep _ n.id [] hdom ?_
  have hle : rkOf st.visitedList n.id ≤ st.visitedList.length := by
    by_cases hx : n.id ∈ st.visitedList
    · exact le_of_lt (rkOf_lt_length hx)
    · exact le_of_eq (rkOf_absent hx)
  have hvlen : st.visitedList.length ≤
      (st.previousVertices.map Prod.fst).length := by
    refine nodup_subset_length hinv.vl_nodup ?_
    intro x hx
    rw [← getk_isSome_iff_mem_keys]
    exact (hinv.dom_prev x).2 (hinv.vl_dom x hx)
  have hvlen2 : (st.previousVertices.map Prod.fst).length =
      st.previousVertices.length := List.length_map _ _
  show rkOf st.visitedList n.id < st.previousVertices.length + 2
  omega

/-- The Bellman–Ford walk succeeds within the standard fuel for any
predecessor map whatsoever, thanks to the per-walk visited set. -/
theorem walkBF_wFuel_isSome (prev : List (String × Option String))
    (cur : Option String) :
    (walkBF prev (wFuel prev) cur [] []).isSome := by
  refine walkBF_isSome prev _ cur [] [] ?_
  have h1 : ((prev.map Prod.fst).dedup.filter
      (fun x => !(([] : List String).contains x))).length ≤
      (prev.map Prod.fst).dedup.length := List.length_filter_le _ _
  have h2 : (prev.map Prod.fst).dedup.length ≤ (prev.map Prod.fst).length :=
    (List.dedup_sublist _).length_le
  have h3 : (prev.map Prod.fst).length = prev.length := List.length_map _ _
  show _ + 2 ≤ prev.length + 2
  omega

/-- The zero-weight-cycle graph named in the specification: a chain
A→B(2), B→C(0), C→B(0), C→D(1) with a zero-weight cycle between B and C. -/
def c8edges : List Edge :=
  [⟨nodeA, nodeB, 2⟩, ⟨nodeB, nodeC, 0⟩, ⟨nodeC, nodeB, 0⟩,
   ⟨nodeC, nodeD, 1⟩]

/-- Claim C8 theorem: For every input graph and source the predecessor walks of path
reconstruction terminate: in `dijkstra` (whenever the source id is found
among the vertices, so that reconstruction runs at all) the backward walk
from every vertex of the graph returns a result within the standard fuel
bound, and in `bellmanFord` the visited-set–guarded backward walk from
every vertex likewise returns a result — in particular on graphs with
zero-weight cycles among intermediate vertices. -/
theorem claim_C8_theorem (nodes : List Node) (edges : List Edge)
    (sourceId : String) (sourceNode : Node) (n : Node)
    (hfind : nodes.find? (fun nd => nd.id == sourceId) = some sourceNode)
    (hn : n ∈ nodes) :
    (walkD
      (dijkstraFinalState nodes edges sourceId sourceNode).previousVertices
      (wFuel
        (dijkstraFinalState nodes edges sourceId sourceNode).previousVertices)
      (some n.id) []).isSome = true ∧
    (walkBF (bfFinalState nodes edges sourceId).previous
      (wFuel (bfFinalState nodes edges sourceId).previous)
      (some n.id) [] []).isSome = true :=
  ⟨dinv_walkD_isSome
      (dijkstraFinal_inv nodes edges sourceId sourceNode hfind) hn,
   walkBF_wFuel_isSome _ _⟩

/-- Witness for C8 on the zero-weight-cycle graph of the specification,
reconstructing the path to D. -/
theorem claim_C8_witness :
    ([nodeA, nodeB, nodeC, nodeD].find? (fun nd => nd.id == "A") =
        some nodeA ∧
      nodeD ∈ [nodeA, nodeB, nodeC, nodeD]) ∧
    ((walkD
      (dijkstraFinalState [nodeA, nodeB, nodeC, nodeD] c8edges "A"
        nodeA).previousVertices
      (wFuel (dijkstraFinalState [nodeA, nodeB, nodeC, nodeD] c8edges "A"
        nodeA).previousVertices)
      (some nodeD.id) []).isSome = true ∧
    (walkBF (bfFinalState [nodeA, nodeB, nodeC, nodeD] c8edges "A").previous
      (wFuel (bfFinalState [nodeA, nodeB, nodeC, nodeD] c8edges "A").previous)
      (some nodeD.id) [] []).isSome = true) :=
  ⟨⟨by decide, by decide⟩,
   claim_C8_theorem [nodeA, nodeB, nodeC, nodeD] c8edges "A" nodeA nodeD
     (by decide) (by decide)⟩

/-! ## Walks over the id-level edge list -/

/-- A chain (directed walk) following edges of `E` from `a` to `b`. -/
inductive Chain (E : List DEdge) : String → List DEdge → String → Prop
  | nil (a : String) : Chain E a [] a
  | cons {a b : String} {e : DEdge} {es : List DEdge} (he : e ∈ E)
      (hfrom : e.«from» = a) (hrest : Chain E e.«to» es b) :
      Chain E a (e :: es) b

/-- The total weight of a walk. -/
def chainW (es : List DEdge) : ℚ := (es.map DEdge.weight).sum

theorem chainW_nil : chainW [] = 0 := rfl

theorem chainW_cons (e : DEdge) (es : List DEdge) :
    chainW (e :: es) = e.weight + chainW es := by
  unfold chainW
  rw [List.map_cons, List.sum_cons]

theorem chainW_append (l1 l2 : List DEdge) :
    chainW (l1 ++ l2) = chainW l1 + chainW l2 := by
  unfold chainW
  rw [List.map_append, List.sum_append]

theorem chainW_nonneg {E : List DEdge} (hw : ∀ e ∈ E, 0 ≤ e.weight) :
    ∀ {a b : String} {es : List DEdge}, Chain E a es b → 0 ≤ chainW es := by
  intro a b es h
  induction h with
  | nil => exact le_of_eq chainW_nil.symm
  | cons he hfrom hrest ih =>
    rw [chainW_cons]
    have := hw _ he
    linarith

theorem Chain.append {E : List DEdge} {a c b : String}
    {l1 l2 : List DEdge} (h1 : Chain E a l1 c) (h2 : Chain E c l2 b) :
    Chain E a (l1 ++ l2) b := by
  induction h1 with
  | nil => exact h2
  | cons he hfrom hrest ih => exact Chain.cons he hfrom (ih h2)

theorem chain_split {E : List DEdge} {a b : String} {l1 l2 : List DEdge}
    (h : Chain E a (l1 ++ l2) b) :
    ∃ c, Chain E a l1 c ∧ Chain E c l2 b := by
  induction l1 generalizing a with
  | nil => exact ⟨a, Chain.nil a, h⟩
  | cons e l1 ih =>
    cases h with
    | cons he hfrom hrest =>
      obtain ⟨c, hc1, hc2⟩ := ih hrest
      exact ⟨c, Chain.cons he hfrom hc1, hc2⟩

/-- Cut a walk at a later revisit of the vertex `a`. -/
theorem chain_jump {E : List DEdge} (hw : ∀ e ∈ E, 0 ≤ e.weight)
    (a : String) :
    ∀ (tl : List DEdge) (c b : String), Chain E c tl b →
    a ∈ tl.map DEdge.«to» →
    ∃ tl2, Chain E a tl2 b ∧ tl2.length < tl.length ∧
      chainW tl2 ≤ chainW tl ∧
      tl2.map DEdge.«to» ⊆ tl.map DEdge.«to» := by
  intro tl
  induction tl with
  | nil => intro c b _ hmem; cases hmem
  | cons f tl ih =>
    intro c b hch hmem
    cases hch with
    | cons hf hffrom hrest =>
      by_cases hfa : f.«to» = a
      · refine ⟨tl, hfa ▸ hrest, by simp, ?_, ?_⟩
        · rw [chainW_cons]
          have := hw _ hf
          linarith
        · rw [List.map_cons]
          exact List.subset_cons_of_subset _ (List.Subset.refl _)
      · have hmem2 : a ∈ tl.map DEdge.«to» := by
          rw [List.map_cons] at hmem
          rcases List.mem_cons.1 hmem with h | h
          · exact absurd h.symm hfa
          · exact h
        obtain ⟨tl2, hc, hlen, hwle, hsub⟩ := ih _ _ hrest hmem2
        refine ⟨tl2, hc, ?_, ?_, ?_⟩
        · simpa using Nat.lt_succ_of_lt hlen
        · rw [chainW_cons]
          have := hw _ hf
          linarith
        · rw [List.map_cons]
          exact List.subset_cons_of_subset _ hsub

/-- Cut a walk that revisits its start vertex. -/
theorem chain_cut0 {E : List DEdge} (hw : ∀ e ∈ E, 0 ≤ e.weight)
    {a b : String} {es : List DEdge} (h : Chain E a es b)
    (hmem : a ∈ es.map DEdge.«to») :
    ∃ es2, Chain E a es2 b ∧ es2.length < es.length ∧
      chainW es2 ≤ chainW es ∧
      es2.map DEdge.«to» ⊆ es.map DEdge.«to» := by
  cases h with
  | nil => cases hmem
  | cons he hfrom hrest =>
    rename_i e tl
    by_cases hea : e.«to» = a
    · refine ⟨tl, hea ▸ hrest, by simp, ?_, ?_⟩
      · rw [chainW_cons]
        have := hw _ he
        linarith
      · rw [List.map_cons]
        exact List.subset_cons_of_subset _ (List.Subset.refl _)
    · have hmem2 : a ∈ tl.map DEdge.«to» := by
        rw [List.map_cons] at hmem
        rcases List.mem_cons.1 hmem with h | h
        · exact absurd h.symm hea
        · exact h
      obtain ⟨tl2, hc, hlen, hwle, hsub⟩ := chain_jump hw a tl _ _ hrest hmem2
      refine ⟨tl2, hc, ?_, ?_, ?_⟩
      · simpa using Nat.lt_succ_of_lt hlen
      · rw [chainW_cons]
        have := hw _ he
        linarith
      · rw [List.map_cons]
        exact List.subset_cons_of_subset _ hsub

/-- Every walk can be replaced by a walk with pairwise-distinct vertices, of
no greater weight (weights non-negative). -/
theorem chain_to_nodup {E : List DEdge} (hw : ∀ e ∈ E, 0 ≤ e.weight) :
    ∀ (n : Nat) (es : List DEdge) (a b : String), es.length ≤ n →
    Chain E a es b →
    ∃ es2, Chain E a es2 b ∧ chainW es2 ≤ chainW es ∧
      (a :: es2.map DEdge.«to»).Nodup ∧
      es2.map DEdge.«to» ⊆ es.map DEdge.«to» := by
  intro n
  induction n with
  | zero =>
    intro es a b hlen hch
    have : es = [] := List.eq_nil_of_length_eq_zero (Nat.le_zero.1 hlen)
    subst this
    exact ⟨[], hch, le_refl _, by simp, by simp⟩
  | succ n ih =>
    intro es a b hlen hch
    by_cases hmem : a ∈ es.map DEdge.«to»
    · obtain ⟨es2, hc, hl, hwle, hsub⟩ := chain_cut0 hw hch hmem
      have hlen2 : es2.length ≤ n := by omega
      obtain ⟨es3, hc3, hw3, hnd3, hsub3⟩ := ih es2 a b hlen2 hc
      exact ⟨es3, hc3, le_trans hw3 hwle, hnd3,
        List.Subset.trans hsub3 hsub⟩
    · cases hch with
      | nil => exact ⟨[], Chain.nil a, le_refl _, by simp, by simp⟩
      | cons he hfrom hrest =>
        rename_i e tl
        have hlen2 : tl.length ≤ n := by
          simp only [List.length_cons] at hlen
          omega
        obtain ⟨tl2, hc2, hw2, hnd2, hsub2⟩ := ih tl e.«to» b hlen2 hrest
        refine ⟨e :: tl2, Chain.cons he hfrom hc2, ?_, ?_, ?_⟩
        · rw [chainW_cons, chainW_cons]
          linarith
        · rw [List.map_cons, List.nodup_cons]
          refine ⟨?_, hnd2⟩
          intro hmem2
          refine hmem ?_
          rw [List.map_cons]
          rcases List.mem_cons.1 hmem2 with h | h
          · rw [h]
            exact List.mem_cons_self _ _
          · exact List.mem_cons_of_mem _ (hsub2 h)
        · rw [List.map_cons, List.map_cons]
          exact List.cons_subset_cons _ hsub2

/-! ## Arithmetic facts about the JS number embedding -/

theorem num_add (a b : ℚ) : num a + num b = num (a + b) := by
  unfold num
  norm_cast

theorem num_le_num {a b : ℚ} : num a ≤ num b ↔ a ≤ b := by
  unfold num
  norm_cast

theorem num_lt_num {a b : ℚ} : num a < num b ↔ a < b := by
  unfold num
  norm_cast

theorem num_ne_inf (q : ℚ) : num q ≠ inf := by
  unfold num inf
  intro h
  exact WithTop.coe_ne_top (WithBot.coe_inj.1 h)

theorem num_ne_ninf (q : ℚ) : num q ≠ ninf := by
  unfold num ninf
  exact WithBot.coe_ne_bot

theorem enum_le_inf (v : ENum) : v ≤ inf := by
  cases v with
  | none => exact bot_le
  | some w =>
    exact WithBot.coe_le_coe.2 le_top

theorem enum_cases (v : ENum) : v = ninf ∨ v = inf ∨ ∃ q, v = num q := by
  cases v with
  | none => exact Or.inl rfl
  | some w =>
    cases w with
    | top => exact Or.inr (Or.inl rfl)
    | coe q => exact Or.inr (Or.inr ⟨q, rfl⟩)

theorem inf_not_le_num (q : ℚ) : ¬(inf ≤ num q) := by
  unfold inf num
  rw [WithBot.coe_le_coe]
  intro h
  exact WithTop.coe_ne_top ((top_le_iff.1 h))

theorem inf_add_num (q : ℚ) : inf + num q = inf := by
  unfold inf num
  norm_cast

theorem le_num_cases {v : ENum} {q : ℚ} (h : v ≤ num q) :
    v = ninf ∨ ∃ p, v = num p ∧ p ≤ q := by
  rcases enum_cases v with hv | hv | ⟨p, hv⟩
  · exact Or.inl hv
  · rw [hv] at h
    exact absurd h (inf_not_le_num q)
  · subst hv
    exact Or.inr ⟨p, rfl, num_le_num.1 h⟩

/-- The id-level edges that both single-source algorithms can actually relax:
both endpoints occur among the vertex ids. -/
def effEdges (nodes : List Node) (edges : List Edge) : List DEdge :=
  (toDEdges edges).filter (fun e =>
    nodes.any (fun n => n.id == e.«from») &&
    nodes.any (fun n => n.id == e.«to»))

theorem effEdges_mem {nodes : List Node} {edges : List Edge} {e : DEdge} :
    e ∈ effEdges nodes edges ↔ e ∈ toDEdges edges ∧
      nodes.any (fun n => n.id == e.«from») = true ∧
      nodes.any (fun n => n.id == e.«to») = true := by
  unfold effEdges
  rw [List.mem_filter, Bool.and_eq_true]

theorem effEdges_nonneg {nodes : List Node} {edges : List Edge}
    (hw : ∀ e ∈ edges, 0 ≤ e.weight) :
    ∀ e ∈ effEdges nodes edges, 0 ≤ e.weight := by
  intro e he
  obtain ⟨ht, _, _⟩ := effEdges_mem.1 he
  unfold toDEdges at ht
  obtain ⟨e0, he0, heq⟩ := List.mem_map.1 ht
  rw [← heq]
  exact hw e0 he0

theorem any_iff_mem_mapid {nodes : List Node} {x : String} :
    nodes.any (fun n => n.id == x) = true ↔ x ∈ nodes.map Node.id := by
  rw [List.any_eq_true]
  constructor
  · rintro ⟨n, hn, hb⟩
    rw [List.mem_map]
    exact ⟨n, hn, (beq_iff_eq).1 hb⟩
  · intro hx
    obtain ⟨n, hn, he⟩ := List.mem_map.1 hx
    exact ⟨n, hn, (beq_iff_eq).2 he⟩

theorem chain_verts_dom {nodes : List Node} {edges : List Edge}
    {a b : String} {es : List DEdge}
    (h : Chain (effEdges nodes edges) a es b) :
    ∀ x ∈ es.map DEdge.«to», nodes.any (fun n => n.id == x) = true := by
  induction h with
  | nil => intro x hx; cases hx
  | cons he hfrom hrest ih =>
    intro x hx
    rw [List.map_cons] at hx
    rcases List.mem_cons.1 hx with hx | hx
    · subst hx
      exact (effEdges_mem.1 he).2.2
    · exact ih x hx

/-- Every walk over the effective edges shortens to one with fewer than
`|nodes|` edges, of no greater weight. -/
theorem chain_short {nodes : List Node} {edges : List Edge}
    (hw : ∀ e ∈ edges, 0 ≤ e.weight) {b : String} {es : List DEdge}
    {sourceId : String}
    (hsrc : nodes.any (fun n => n.id == sourceId) = true)
    (h : Chain (effEdges nodes edges) sourceId es b) :
    ∃ es2, Chain (effEdges nodes edges) sourceId es2 b ∧
      chainW es2 ≤ chainW es ∧ es2.length + 1 ≤ nodes.length := by
  obtain ⟨es2, hc2, hw2, hnd2, hsub2⟩ :=
    chain_to_nodup (effEdges_nonneg hw) es.length es sourceId b (le_refl _) h
  refine ⟨es2, hc2, hw2, ?_⟩
  have hlen : (sourceId :: es2.map DEdge.«to»).length ≤
      (nodes.map Node.id).length := by
    refine nodup_subset_length hnd2 ?_
    intro x hx
    rcases List.mem_cons.1 hx with hx | hx
    · subst hx
      exact any_iff_mem_mapid.1 hsrc
    · exact any_iff_mem_mapid.1 (chain_verts_dom hc2 x hx)
  simp only [List.length_cons, List.length_map] at hlen
  have : es2.length = (es2.map DEdge.«to»).length := (List.length_map _ _).symm
  omega

/-! ## Bellman–Ford relaxation: soundness, domain and monotonicity -/

/-- The distance-map domain is exactly the vertex-id set. -/
def BFDom (nodes : List Node) (d : List (String × ENum)) : Prop :=
  ∀ k, (getk d k).isSome = true ↔ nodes.any (fun n => n.id == k) = true

/-- No `-Infinity` values (before negative-cycle propagation). -/
def noNinf (d : List (String × ENum)) : Prop := ∀ k, getk d k ≠ some ninf

/-- Every finite distance is the weight of an actual walk from the source. -/
def BFSound (E : List DEdge) (sourceId : String)
    (d : List (String × ENum)) : Prop :=
  ∀ k q, getk d k = some (num q) →
    ∃ es, Chain E sourceId es k ∧ chainW es = q

/-- The distance at the source never exceeds `0`. -/
def srcLE (sourceId : String) (d : List (String × ENum)) : Prop :=
  ∀ dv, getk d sourceId = some dv → dv ≤ num 0

/-- The packaged relaxation invariant of `bellmanFord`. -/
structure BFPack (nodes : List Node) (edges : List Edge) (sourceId : String)
    (st : BFState) : Prop where
  dom : BFDom nodes st.distances
  fin : noNinf st.distances
  sound : BFSound (effEdges nodes edges) sourceId st.distances
  src_le : srcLE sourceId st.distances
  prev_src : getk st.previous sourceId = some (none : Option String)

theorem bfRelaxEdge_pack {nodes : List Node} {edges : List Edge}
    {sourceId : String} {acc : BFState × Bool} {e : DEdge}
    (he : e ∈ toDEdges edges) (hw : ∀ e0 ∈ edges, 0 ≤ e0.weight)
    (h : BFPack nodes edges sourceId acc.1) :
    BFPack nodes edges sourceId (bfRelaxEdge acc e).1 ∧
    mapGE acc.1.distances (bfRelaxEdge acc e).1.distances := by
  obtain ⟨st, b⟩ := acc
  simp only [bfRelaxEdge]
  cases hf : getk st.distances e.«from» with
  | none => exact ⟨h, mapGE_refl _⟩
  | some df =>
    dsimp only
    by_cases hdf : df = inf
    · rw [if_pos hdf]
      exact ⟨h, mapGE_refl _⟩
    · rw [if_neg hdf]
      cases ht : getk st.distances e.«to» with
      | none => exact ⟨h, mapGE_refl _⟩
      | some dt =>
        dsimp only
        by_cases hlt : df + num e.weight < dt
        · rw [if_pos hlt]
          dsimp only
          have hdfn : df ≠ ninf := fun hh => h.fin e.«from» (hh ▸ hf)
          obtain ⟨qf, hqf⟩ : ∃ qf, df = num qf := by
            rcases enum_cases df with hh | hh | hh
            · exact absurd hh hdfn
            · exact absurd hh hdf
            · exact hh
          subst hqf
          have hwq : 0 ≤ e.weight := by
            unfold toDEdges at he
            obtain ⟨e0, he0, heq⟩ := List.mem_map.1 he
            rw [← heq]
            exact hw e0 he0
          obtain ⟨esf, hcf, hwf⟩ := h.sound e.«from» qf hf
          have heff : e ∈ effEdges nodes edges := by
            refine effEdges_mem.2 ⟨he, ?_, ?_⟩
            · exact (h.dom e.«from»).1 (by rw [hf]; rfl)
            · exact (h.dom e.«to»).1 (by rw [ht]; rfl)
          have hq0 : 0 ≤ qf := by
            rw [← hwf]
            exact chainW_nonneg (effEdges_nonneg hw) hcf
          have hval : num qf + num e.weight = num (qf + e.weight) := num_add _ _
          have htS : (getk st.distances e.«to»).isSome = true := by
            rw [ht]; rfl
          refine ⟨⟨?_, ?_, ?_, ?_, ?_⟩, ?_⟩
          · intro k
            rw [setk_present_domain _ htS k]
            exact h.dom k
          · intro k
            by_cases hk : k = e.«to»
            · subst hk
              rw [getk_setk_self, hval]
              intro hh
              exact num_ne_ninf _ (Option.some.inj hh)
            · rw [getk_setk_of_ne _ _ hk]
              exact h.fin k
          · intro k q hk
            by_cases hke : k = e.«to»
            · subst hke
              rw [getk_setk_self, hval] at hk
              have hq : q = qf + e.weight := by
                have := Option.some.inj hk
                unfold num at this
                exact_mod_cast (WithBot.coe_inj.1 this).symm
              refine ⟨esf ++ [e], ?_, ?_⟩
              · exact Chain.append hcf
                  (Chain.cons heff rfl (Chain.nil e.«to»))
              · rw [chainW_append, hwf, hq, chainW_cons, chainW_nil]
                ring
            · rw [getk_setk_of_ne _ _ hke] at hk
              exact h.sound k q hk
          · intro dv hdv
            dsimp only at hdv
            by_cases hks : sourceId = e.«to»
            · rw [hks, getk_setk_self] at hdv
              have hdv2 := Option.some.inj hdv
              have hsold : ∀ dvs, getk st.distances sourceId = some dvs →
                  dvs ≤ num 0 := h.src_le
              have hsS : getk st.distances sourceId = some dt := by
                rw [hks]; exact ht
              have hdt0 : dt ≤ num 0 := hsold dt hsS
              rw [← hdv2, hval]
              have hlt2 : num (qf + e.weight) < dt := hval ▸ hlt
              have : num (qf + e.weight) < num 0 := lt_of_lt_of_le hlt2 hdt0
              have hcon : qf + e.weight < 0 := num_lt_num.1 this
              linarith
            · rw [getk_setk_of_ne _ _ hks] at hdv
              exact h.src_le dv hdv
          · by_cases hks : sourceId = e.«to»
            · exfalso
              have hsS : getk st.distances sourceId = some dt := by
                rw [hks]; exact ht
              have hdt0 : dt ≤ num 0 := h.src_le dt hsS
              have hlt2 : num (qf + e.weight) < dt := hval ▸ hlt
              have : num (qf + e.weight) < num 0 := lt_of_lt_of_le hlt2 hdt0
              have hcon : qf + e.weight < 0 := num_lt_num.1 this
              linarith
            · show getk (setk st.previous e.«to» (some e.«from»)) sourceId =
                some (none : Option String)
              rw [getk_setk_of_ne _ _ hks]
              exact h.prev_src
          · exact mapGE_setk_le (mapGE_refl _) ht (le_of_lt hlt)
        · rw [if_neg hlt]
          exact ⟨h, mapGE_refl _⟩

theorem mapGE_trans {a b c : List (String × ENum)} (h1 : mapGE a b)
    (h2 : mapGE b c) (hb : ∀ k, (getk c k).isSome → (getk b k).isSome) :
    mapGE a c := by
  intro k v1 v3 ha hc
  obtain ⟨v2, hv2⟩ := Option.isSome_iff_exists.1 (hb k (by rw [hc]; rfl))
  exact le_trans (h2 k v2 v3 hv2 hc) (h1 k v1 v2 ha hv2)

theorem bfFold_pack {nodes : List Node} {edges : List Edge}
    {sourceId : String} (hw : ∀ e0 ∈ edges, 0 ≤ e0.weight) :
    ∀ (l : List DEdge) (acc : BFState × Bool),
    (∀ e ∈ l, e ∈ toDEdges edges) → BFPack nodes edges sourceId acc.1 →
    BFPack nodes edges sourceId (l.foldl bfRelaxEdge acc).1 ∧
    mapGE acc.1.distances (l.foldl bfRelaxEdge acc).1.distances := by
  intro l
  induction l with
  | nil => exact fun acc _ h => ⟨h, mapGE_refl _⟩
  | cons e l ih =>
    intro acc hl h
    obtain ⟨h1, g1⟩ := bfRelaxEdge_pack (hl e (List.mem_cons_self _ _)) hw h
    obtain ⟨h2, g2⟩ := ih (bfRelaxEdge acc e)
      (fun e0 he0 => hl e0 (List.mem_cons_of_mem _ he0)) h1
    rw [List.foldl_cons]
    refine ⟨h2, mapGE_trans g1 g2 ?_⟩
    intro k hk
    rw [(h1.dom k)]
    rw [(h2.dom k)] at hk
    exact hk

/-- No relaxable improvement at edge `e` in distance map `d`. -/
def noImp (d : List (String × ENum)) (e : DEdge) : Prop :=
  ∀ df dt, getk d e.«from» = some df → df ≠ inf →
    getk d e.«to» = some dt → ¬(df + num e.weight < dt)

theorem bfRelaxEdge_flag {acc : BFState × Bool} (e : DEdge)
    (h : acc.2 = true) : (bfRelaxEdge acc e).2 = true := by
  obtain ⟨st, b⟩ := acc
  simp only [bfRelaxEdge]
  cases hf : getk st.distances e.«from» with
  | none => exact h
  | some df =>
    dsimp only
    by_cases hdf : df = inf
    · rw [if_pos hdf]; exact h
    · rw [if_neg hdf]
      cases ht : getk st.distances e.«to» with
      | none => exact h
      | some dt =>
        dsimp only
        by_cases hlt : df + num e.weight < dt
        · rw [if_pos hlt]
        · rw [if_neg hlt]; exact h

theorem bfFold_flag : ∀ (l : List DEdge) (acc : BFState × Bool),
    acc.2 = true → (l.foldl bfRelaxEdge acc).2 = true := by
  intro l
  induction l with
  | nil => exact fun acc h => h
  | cons e l ih =>
    intro acc h
    rw [List.foldl_cons]
    exact ih _ (bfRelaxEdge_flag e h)

theorem bfRelaxEdge_false {acc : BFState × Bool} {e : DEdge}
    (h : (bfRelaxEdge acc e).2 = false) :
    bfRelaxEdge acc e = acc ∧ noImp acc.1.distances e := by
  obtain ⟨st, b⟩ := acc
  simp only [bfRelaxEdge] at h ⊢
  cases hf : getk st.distances e.«from» with
  | none =>
    refine ⟨rfl, ?_⟩
    intro df dt hdf
    rw [hf] at hdf
    cases hdf
  | some df =>
    rw [hf] at h
    dsimp only at h ⊢
    by_cases hdf : df = inf
    · rw [if_pos hdf] at h ⊢
      refine ⟨rfl, ?_⟩
      intro df2 dt hdf2 hne
      rw [hf] at hdf2
      rw [← Option.some.inj hdf2] at hne
      exact absurd hdf hne
    · rw [if_neg hdf] at h ⊢
      cases ht : getk st.distances e.«to» with
      | none =>
        refine ⟨rfl, ?_⟩
        intro df2 dt hdf2 hne hdt
        rw [ht] at hdt
        cases hdt
      | some dt =>
        rw [ht] at h
        dsimp only at h ⊢
        by_cases hlt : df + num e.weight < dt
        · rw [if_pos hlt] at h
          cases h
        · rw [if_neg hlt] at h ⊢
          refine ⟨rfl, ?_⟩
          intro df2 dt2 hdf2 hne hdt2
          rw [hf] at hdf2
          rw [ht] at hdt2
          rw [← Option.some.inj hdf2, ← Option.some.inj hdt2]
          exact hlt

theorem bfFold_false : ∀ (l : List DEdge) (acc : BFState × Bool),
    (l.foldl bfRelaxEdge acc).2 = false →
    l.foldl bfRelaxEdge acc = acc ∧ ∀ e ∈ l, noImp acc.1.distances e := by
  intro l
  induction l with
  | nil =>
    intro acc _
    exact ⟨rfl, fun e he => absurd he (List.not_mem_nil e)⟩
  | cons e l ih =>
    intro acc hfold
    rw [List.foldl_cons] at hfold
    have hr2 : (bfRelaxEdge acc e).2 = false := by
      by_cases hb : (bfRelaxEdge acc e).2 = true
      · rw [bfFold_flag l _ hb] at hfold
        cases hfold
      · exact Bool.not_eq_true _ ▸ (Bool.eq_false_iff.2 hb)
    obtain ⟨heq, hni⟩ := bfRelaxEdge_false hr2
    rw [heq] at hfold
    rw [List.foldl_cons, heq]
    obtain ⟨heq2, hni2⟩ := ih acc hfold
    refine ⟨heq2, ?_⟩
    intro e0 he0
    rcases List.mem_cons.1 he0 with he0 | he0
    · rw [he0]; exact hni
    · exact hni2 e0 he0

theorem bfRelaxEdge_bound {acc : BFState × Bool} {e : DEdge} {qf : ℚ}
    {dt : ENum} (hf : getk acc.1.distances e.«from» = some (num qf))
    (ht : getk acc.1.distances e.«to» = some dt) :
    ∃ dt2, getk (bfRelaxEdge acc e).1.distances e.«to» = some dt2 ∧
      dt2 ≤ num (qf + e.weight) := by
  obtain ⟨st, b⟩ := acc
  simp only [bfRelaxEdge, hf]
  rw [if_neg (num_ne_inf qf), ht]
  dsimp only
  by_cases hlt : num qf + num e.weight < dt
  · rw [if_pos hlt]
    dsimp only
    refine ⟨num (qf + e.weight), ?_, le_refl _⟩
    rw [getk_setk_self, num_add]
  · rw [if_neg hlt]
    refine ⟨dt, ht, ?_⟩
    rw [← num_add]
    exact not_lt.1 hlt

theorem bfPass_bound {nodes : List Node} {edges : List Edge}
    {sourceId : String} (hw : ∀ e0 ∈ edges, 0 ≤ e0.weight) {st : BFState}
    (hp : BFPack nodes edges sourceId st) {e : DEdge}
    (he : e ∈ toDEdges edges) {qf : ℚ}
    (hf : getk st.distances e.«from» = some (num qf))
    (htS : (getk st.distances e.«to»).isSome = true) :
    ∃ dt2, getk (bfPass (toDEdges edges) st).1.distances e.«to» = some dt2 ∧
      dt2 ≤ num (qf + e.weight) := by
  obtain ⟨l1, l2, hsplit⟩ := List.append_of_mem he
  unfold bfPass
  rw [hsplit, List.foldl_append, List.foldl_cons]
  have hl1 : ∀ e0 ∈ l1, e0 ∈ toDEdges edges := by
    intro e0 he0
    rw [hsplit]
    exact List.mem_append_left _ he0
  have hl2 : ∀ e0 ∈ l2, e0 ∈ toDEdges edges := by
    intro e0 he0
    rw [hsplit]
    exact List.mem_append_right _ (List.mem_cons_of_mem _ he0)
  obtain ⟨hp1, g1⟩ := bfFold_pack hw l1 (st, false) hl1 hp
  set acc1 := l1.foldl bfRelaxEdge (st, false) with hacc1
  have hfS : (getk acc1.1.distances e.«from»).isSome = true := by
    rw [(hp1.dom _)]
    refine (hp.dom _).1 ?_
    rw [hf]; rfl
  obtain ⟨df1, hdf1⟩ := Option.isSome_iff_exists.1 hfS
  have hdf1le : df1 ≤ num qf := g1 _ _ _ hf hdf1
  obtain ⟨qf1, hqf1, hqf1le⟩ : ∃ p, df1 = num p ∧ p ≤ qf := by
    rcases le_num_cases hdf1le with hh | hh
    · exact absurd (hh ▸ hdf1) (hp1.fin _)
    · exact hh
  subst hqf1
  have htS1 : (getk acc1.1.distances e.«to»).isSome = true := by
    rw [(hp1.dom _)]
    exact (hp.dom _).1 htS
  obtain ⟨dt1, hdt1⟩ := Option.isSome_iff_exists.1 htS1
  obtain ⟨dt2, hdt2, hdt2le⟩ := bfRelaxEdge_bound hdf1 hdt1
  obtain ⟨hp2, g2⟩ := bfFold_pack hw l2 (bfRelaxEdge acc1 e) hl2
    (bfRelaxEdge_pack he hw hp1).1
  have htS3 : (getk (l2.foldl bfRelaxEdge
      (bfRelaxEdge acc1 e)).1.distances e.«to»).isSome = true := by
    rw [(hp2.dom _)]
    exact (hp.dom _).1 htS
  obtain ⟨dt3, hdt3⟩ := Option.isSome_iff_exists.1 htS3
  have hdt3le : dt3 ≤ dt2 := g2 _ _ _ hdt2 hdt3
  refine ⟨dt3, hdt3, le_trans (le_trans hdt3le hdt2le) ?_⟩
  exact num_le_num.2 (by linarith)

/-- The distance map undercuts every walk of at most `j` edges. -/
def chainBound (E : List DEdge) (sourceId : String)
    (d : List (String × ENum)) (j : Nat) : Prop :=
  ∀ es v, Chain E sourceId es v → es.length ≤ j →
    ∃ dv, getk d v = some dv ∧ dv ≤ num (chainW es)

/-- The distance map undercuts every walk. -/
def chainBoundAll (E : List DEdge) (sourceId : String)
    (d : List (String × ENum)) : Prop :=
  ∀ es v, Chain E sourceId es v →
    ∃ dv, getk d v = some dv ∧ dv ≤ num (chainW es)

/-- A relaxation fixpoint that covers the source undercuts every walk. -/
theorem fix_chainBoundAll {nodes : List Node} {edges : List Edge}
    {sourceId : String} {d : List (String × ENum)} (hdom : BFDom nodes d)
    (hfin : noNinf d) (h0 : ∀ dv, getk d sourceId = some dv → dv ≤ num 0)
    (hsome0 : (getk d sourceId).isSome = true)
    (hfix : ∀ e ∈ toDEdges edges, noImp d e) :
    chainBoundAll (effEdges nodes edges) sourceId d := by
  intro es
  induction es using List.reverseRecOn with
  | nil =>
    intro v hch
    cases hch
    obtain ⟨dv, hdv⟩ := Option.isSome_iff_exists.1 hsome0
    exact ⟨dv, hdv, h0 dv hdv⟩
  | append_singleton es e ih =>
    intro v hch
    obtain ⟨c, hc1, hc2⟩ := chain_split hch
    cases hc2 with
    | cons he hfrom hrest =>
      cases hrest
      obtain ⟨dvc, hdvc, hdvcle⟩ := ih c hc1
      obtain ⟨qc, hqc, hqcle⟩ : ∃ p, dvc = num p ∧ p ≤ chainW es := by
        rcases le_num_cases hdvcle with hh | hh
        · exact absurd (hh ▸ hdvc) (hfin _)
        · exact hh
      subst hqc
      have het : e ∈ toDEdges edges := (effEdges_mem.1 he).1
      have htany := (effEdges_mem.1 he).2.2
      have htS : (getk d e.«to»).isSome = true := (hdom _).2 htany
      obtain ⟨dt, hdt⟩ := Option.isSome_iff_exists.1 htS
      have hni := hfix e het
      have hfc : getk d e.«from» = some (num qc) := by
        rw [hfrom]; exact hdvc
      have hnlt := hni (num qc) dt hfc (num_ne_inf qc) hdt
      refine ⟨dt, hdt, ?_⟩
      have h1 : dt ≤ num qc + num e.weight := not_lt.1 hnlt
      rw [num_add] at h1
      refine le_trans h1 ?_
      rw [chainW_append, chainW_cons, chainW_nil]
      exact num_le_num.2 (by linarith)

theorem bfPasses_pack {nodes : List Node} {edges : List Edge}
    {sourceId : String} (hw : ∀ e0 ∈ edges, 0 ≤ e0.weight) :
    ∀ (k j : Nat) (st : BFState), BFPack nodes edges sourceId st →
    chainBound (effEdges nodes edges) sourceId st.distances j →
    BFPack nodes edges sourceId (bfPasses (toDEdges edges) k st) ∧
    chainBound (effEdges nodes edges) sourceId
      (bfPasses (toDEdges edges) k st).distances (j + k) := by
  intro k
  induction k with
  | zero => exact fun j st hp hb => ⟨hp, hb⟩
  | succ k ih =>
    intro j st hp hb
    rw [bfPasses]
    obtain ⟨hpp, gp⟩ := bfFold_pack hw (toDEdges edges) (st, false)
      (fun e he => he) hp
    by_cases hu : (bfPass (toDEdges edges) st).2
    · rw [if_pos hu]
      have hb1 : chainBound (effEdges nodes edges) sourceId
          (bfPass (toDEdges edges) st).1.distances (j + 1) := by
        unfold bfPass
        intro es v hch hlen
        by_cases hsh : es.length ≤ j
        · obtain ⟨dv, hdv, hdvle⟩ := hb es v hch hsh
          have hvS : (getk (List.foldl bfRelaxEdge (st, false)
              (toDEdges edges)).1.distances v).isSome = true := by
            rw [(hpp.dom _)]
            refine (hp.dom _).1 ?_
            rw [hdv]; rfl
          obtain ⟨dv2, hdv2⟩ := Option.isSome_iff_exists.1 hvS
          exact ⟨dv2, hdv2, le_trans (gp _ _ _ hdv hdv2) hdvle⟩
        · have hne : es ≠ [] := by
            intro hh
            rw [hh] at hsh
            exact hsh (Nat.zero_le j)
          have hsplit := (List.dropLast_append_getLast hne).symm
          rw [hsplit] at hch
          obtain ⟨c, hc1, hc2⟩ := chain_split hch
          cases hc2 with
          | cons he hfrom hrest =>
            cases hrest
            have hlen2 : es.dropLast.length ≤ j := by
              have h1 := List.length_dropLast es
              omega
            obtain ⟨dvc, hdvc, hdvcle⟩ := hb es.dropLast c hc1 hlen2
            obtain ⟨qc, hqc, hqcle⟩ : ∃ p, dvc = num p ∧
                p ≤ chainW es.dropLast := by
              rcases le_num_cases hdvcle with hh | hh
              · exact absurd (hh ▸ hdvc) (hp.fin _)
              · exact hh
            subst hqc
            set e0 := es.getLast hne
            have hfc : getk st.distances e0.«from» = some (num qc) := by
              rw [hfrom]; exact hdvc
            have hteff := effEdges_mem.1 he
            have htS : (getk st.distances e0.«to»).isSome = true :=
              (hp.dom _).2 hteff.2.2
            obtain ⟨dt2, hdt2, hdt2le⟩ :=
              bfPass_bound hw hp hteff.1 hfc htS
            refine ⟨dt2, hdt2, le_trans hdt2le ?_⟩
            rw [hsplit, chainW_append, chainW_cons, chainW_nil]
            exact num_le_num.2 (by linarith)
      have := ih (j + 1) (bfPass (toDEdges edges) st).1 hpp hb1
      have harith : j + 1 + k = j + (k + 1) := by omega
      rw [harith] at this
      exact this
    · rw [if_neg hu]
      have hfalse : (bfPass (toDEdges edges) st).2 = false :=
        Bool.not_eq_true _ ▸ (Bool.eq_false_iff.2 hu)
      obtain ⟨heq, hni⟩ := bfFold_false (toDEdges edges) (st, false) hfalse
      have hd : (bfPass (toDEdges edges) st).1 = st := by
        unfold bfPass
        rw [heq]
      obtain ⟨dv0, hdv0, hdv0le⟩ := hb [] sourceId (Chain.nil sourceId)
        (Nat.zero_le j)
      have hall : chainBoundAll (effEdges nodes edges) sourceId
          st.distances := by
        refine fix_chainBoundAll hp.dom hp.fin ?_ ?_ hni
        · intro dv hdv
          rw [hdv0] at hdv
          rw [← Option.some.inj hdv]
          exact le_trans hdv0le (le_of_eq (by rw [chainW_nil]))
        · rw [hdv0]; rfl
      constructor
      · refine ⟨?_, ?_, ?_, ?_, ?_⟩ <;> rw [hd]
        · exact hp.dom
        · exact hp.fin
        · exact hp.sound
        · exact hp.src_le
        · exact hp.prev_src
      · intro es v hch hlen
        rw [hd]
        exact hall es v hch

theorem bfSt0_pack {nodes : List Node} {edges : List Edge}
    {sourceId : String}
    (hsrc : nodes.any (fun n => n.id == sourceId) = true) :
    BFPack nodes edges sourceId (bfSt0 nodes sourceId) ∧
    chainBound (effEdges nodes edges) sourceId
      (bfSt0 nodes sourceId).distances 0 := by
  have hget : ∀ k, getk (bfSt0 nodes sourceId).distances k =
      if nodes.any (fun n => n.id == k) then
        some (if k == sourceId then num 0 else inf)
      else none := by
    intro k
    simp only [bfSt0]
    exact bfInitDistances_getk nodes sourceId k
  have hsrcv : getk (bfSt0 nodes sourceId).distances sourceId =
      some (num 0) := by
    rw [hget, hsrc]
    simp
  refine ⟨⟨?_, ?_, ?_, ?_, ?_⟩, ?_⟩
  · intro k
    rw [hget]
    by_cases hk : nodes.any (fun n => n.id == k) <;> simp [hk]
  · intro k
    rw [hget]
    by_cases hk : nodes.any (fun n => n.id == k)
    · rw [if_pos hk]
      by_cases hks : k == sourceId <;> simp only [hks, if_true, if_false]
      · intro hh
        exact num_ne_ninf 0 (Option.some.inj hh)
      · intro hh
        have : inf = ninf := Option.some.inj hh
        unfold inf ninf at this
        exact (WithBot.coe_ne_bot) this
    · rw [if_neg hk]
      intro hh
      cases hh
  · intro k q hk
    rw [hget] at hk
    by_cases hany : nodes.any (fun n => n.id == k)
    · rw [if_pos hany] at hk
      by_cases hks : (k == sourceId) = true
      · rw [if_pos hks] at hk
        have hkeq : k = sourceId := (beq_iff_eq).1 hks
        subst hkeq
        have hq : q = 0 := by
          have := Option.some.inj hk
          unfold num at this
          exact_mod_cast (WithBot.coe_inj.1 this).symm
        subst hq
        exact ⟨[], Chain.nil k, chainW_nil⟩
      · rw [if_neg hks] at hk
        exact absurd (Option.some.inj hk).symm (num_ne_inf q)
    · rw [if_neg hany] at hk
      cases hk
  · intro dv hdv
    rw [hsrcv] at hdv
    rw [← Option.some.inj hdv]
  · simp only [bfSt0]
    rw [initPrevious_getk, if_pos hsrc]
  · intro es v hch hlen
    have hes : es = [] := List.eq_nil_of_length_eq_zero (Nat.le_zero.1 hlen)
    subst hes
    cases hch
    refine ⟨num 0, hsrcv, ?_⟩
    rw [chainW_nil]

theorem bfAfterPasses_pack {nodes : List Node} {edges : List Edge}
    {sourceId : String} (hw : ∀ e0 ∈ edges, 0 ≤ e0.weight)
    (hsrc : nodes.any (fun n => n.id == sourceId) = true) :
    BFPack nodes edges sourceId (bfAfterPasses nodes edges sourceId) ∧
    chainBoundAll (effEdges nodes edges) sourceId
      (bfAfterPasses nodes edges sourceId).distances := by
  obtain ⟨hp0, hb0⟩ := @bfSt0_pack nodes edges sourceId hsrc
  obtain ⟨hp1, hb1⟩ := bfPasses_pack hw (nodes.length - 1) 0
    (bfSt0 nodes sourceId) hp0 hb0
  refine ⟨hp1, ?_⟩
  intro es v hch
  obtain ⟨es2, hc2, hw2, hlen2⟩ := chain_short hw hsrc hch
  have hlen3 : es2.length ≤ 0 + (nodes.length - 1) := by omega
  obtain ⟨dv, hdv, hdvle⟩ := hb1 es2 v hc2 hlen3
  exact ⟨dv, hdv, le_trans hdvle (num_le_num.2 hw2)⟩

/-- The final distance map is a relaxation fixpoint. -/
theorem bfAfterPasses_fix {nodes : List Node} {edges : List Edge}
    {sourceId : String} (hw : ∀ e0 ∈ edges, 0 ≤ e0.weight)
    (hsrc : nodes.any (fun n => n.id == sourceId) = true) :
    ∀ e ∈ toDEdges edges,
      noImp (bfAfterPasses nodes edges sourceId).distances e := by
  obtain ⟨hp, hall⟩ := bfAfterPasses_pack hw hsrc
  intro e he df dt hf hdfinf hdt
  have hdfn : df ≠ ninf := fun hh => hp.fin _ (hh ▸ hf)
  obtain ⟨qf, hqf⟩ : ∃ qf, df = num qf := by
    rcases enum_cases df with hh | hh | hh
    · exact absurd hh hdfn
    · exact absurd hh hdfinf
    · exact hh
  subst hqf
  obtain ⟨esf, hcf, hwf⟩ := hp.sound e.«from» qf hf
  have heff : e ∈ effEdges nodes edges := by
    refine effEdges_mem.2 ⟨he, ?_, ?_⟩
    · exact (hp.dom _).1 (by rw [hf]; rfl)
    · exact (hp.dom _).1 (by rw [hdt]; rfl)
  obtain ⟨dv, hdv, hdvle⟩ := hall (esf ++ [e]) e.«to»
    (Chain.append hcf (Chain.cons heff rfl (Chain.nil e.«to»)))
  rw [hdt] at hdv
  rw [← Option.some.inj hdv] at hdvle
  intro hlt
  rw [chainW_append, hwf, chainW_cons, chainW_nil, ← num_add] at hdvle
  have : num qf + num e.weight < num qf + num (e.weight + 0) :=
    lt_of_lt_of_le hlt hdvle
  rw [add_zero] at this
  exact lt_irrefl _ this

theorem bfDetectStep_fix {st0 : BFState} {acc : BFState × List String}
    {e : DEdge} (hd : acc.1.distances = st0.distances)
    (hni : noImp st0.distances e) : bfDetectStep acc e = acc := by
  obtain ⟨st, negs⟩ := acc
  simp only at hd
  simp only [bfDetectStep, hd]
  cases hf : getk st0.distances e.«from» with
  | none => rfl
  | some df =>
    dsimp only
    by_cases hdf : df = inf
    · rw [if_pos hdf]
    · rw [if_neg hdf]
      cases ht : getk st0.distances e.«to» with
      | none => rfl
      | some dt =>
        dsimp only
        rw [if_neg (hni df dt hf hdf ht)]

theorem bfDetect_fix {dedges : List DEdge} {st : BFState}
    (hfix : ∀ e ∈ dedges, noImp st.distances e) :
    bfDetect dedges st = (st, []) := by
  unfold bfDetect
  suffices h : ∀ (l : List DEdge) (acc : BFState × List String),
      acc.1.distances = st.distances → (∀ e ∈ l, noImp st.distances e) →
      l.foldl bfDetectStep acc = acc by
    exact h dedges (st, []) rfl hfix
  intro l
  induction l with
  | nil => exact fun acc _ _ => rfl
  | cons e l ih =>
    intro acc hd hl
    rw [List.foldl_cons, bfDetectStep_fix hd (hl e (List.mem_cons_self _ _))]
    exact ih acc hd (fun e0 he0 => hl e0 (List.mem_cons_of_mem _ he0))

/-- Under non-negative weights and a valid source the detection pass is
silent and the final state of `bellmanFord` keeps the after-passes maps. -/
theorem bfFinalState_eq {nodes : List Node} {edges : List Edge}
    {sourceId : String} (hw : ∀ e0 ∈ edges, 0 ≤ e0.weight)
    (hsrc : nodes.any (fun n => n.id == sourceId) = true) :
    (bfFinalState nodes edges sourceId).distances =
      (bfAfterPasses nodes edges sourceId).distances ∧
    (bfFinalState nodes edges sourceId).previous =
      (bfAfterPasses nodes edges sourceId).previous := by
  have hdet := bfDetect_fix (bfAfterPasses_fix hw hsrc)
  simp only [bfFinalState, hdet]
  constructor <;> rfl

/-! ## Priority-queue order and membership facts -/

theorem pqLE_trans : ∀ (a b c : PQItem), pqLE a b = true → pqLE b c = true →
    pqLE a c = true := by
  intro a b c h1 h2
  unfold pqLE at h1 h2 ⊢
  exact decide_eq_true (le_trans (of_decide_eq_true h1) (of_decide_eq_true h2))

theorem pqLE_total : ∀ (a b : PQItem), (pqLE a b || pqLE b a) = true := by
  intro a b
  unfold pqLE
  rcases le_total a.priority b.priority with h | h
  · rw [decide_eq_true h, Bool.true_or]
  · rw [decide_eq_true h, Bool.or_true]

theorem pqLE_le {a b : PQItem} (h : pqLE a b = true) :
    a.priority ≤ b.priority := of_decide_eq_true h

theorem pqAdd_sorted (items : List PQItem) (n : Node) (p : ENum) :
    (pqAdd items n p).Pairwise (fun a b => pqLE a b = true) :=
  List.sorted_mergeSort pqLE_trans pqLE_total _

theorem pqAdd_perm (items : List PQItem) (n : Node) (p : ENum) :
    (pqAdd items n p).Perm (items ++ [PQItem.mk n p]) :=
  List.mergeSort_perm _ _

theorem pqAdd_nil (n : Node) (p : ENum) :
    pqAdd [] n p = [PQItem.mk n p] :=
  List.perm_singleton.1 (List.mergeSort_perm _ _)

theorem pqHasNode_iff {items : List PQItem} {y : String} :
    pqHasNode items y = true ↔ ∃ it ∈ items, it.node.id = y := by
  unfold pqHasNode
  rw [List.any_eq_true]
  constructor
  · rintro ⟨it, hit, hb⟩
    exact ⟨it, hit, (beq_iff_eq).1 hb⟩
  · rintro ⟨it, hit, hb⟩
    exact ⟨it, hit, (beq_iff_eq).2 hb⟩

theorem pqSetFirst_ids (items : List PQItem) (y : String) (p : ENum) :
    (pqSetFirst items y p).map (fun it => it.node.id) =
      items.map (fun it => it.node.id) := by
  induction items with
  | nil => rfl
  | cons it rest ih =>
    unfold pqSetFirst
    by_cases hb : (it.node.id == y) = true
    · rw [if_pos hb]
      rfl
    · rw [if_neg hb, List.map_cons, List.map_cons, ih]

theorem pqChangePriority_ids_perm (items : List PQItem) (y : String)
    (p : ENum) :
    ((pqChangePriority items y p).map (fun it => it.node.id)).Perm
      (items.map (fun it => it.node.id)) := by
  unfold pqChangePriority
  by_cases hq : pqHasNode items y = true
  · rw [if_pos hq]
    have h1 := (List.mergeSort_perm (pqSetFirst items y p) pqLE).map
      (fun it => it.node.id)
    rw [pqSetFirst_ids] at h1
    exact h1
  · rw [if_neg hq]

theorem pqChangePriority_sorted {items : List PQItem}
    (hs : items.Pairwise (fun a b => pqLE a b = true)) (y : String)
    (p : ENum) :
    (pqChangePriority items y p).Pairwise (fun a b => pqLE a b = true) := by
  unfold pqChangePriority
  by_cases hq : pqHasNode items y = true
  · rw [if_pos hq]
    exact List.sorted_mergeSort pqLE_trans pqLE_total _
  · rw [if_neg hq]
    exact hs

theorem pqSetFirst_char {items : List PQItem} {y : String} {p : ENum}
    (hnd : (items.map (fun it => it.node.id)).Nodup) :
    ∀ it ∈ pqSetFirst items y p,
      (it ∈ items ∧ it.node.id ≠ y) ∨
      (it.node.id = y ∧ it.priority = p ∧
        ∃ it0 ∈ items, it.node = it0.node) := by
  induction items with
  | nil => intro it hit; cases hit
  | cons it0 rest ih =>
    intro it hit
    rw [List.map_cons, List.nodup_cons] at hnd
    unfold pqSetFirst at hit
    by_cases hb : (it0.node.id == y) = true
    · rw [if_pos hb] at hit
      rcases List.mem_cons.1 hit with h | h
      · subst h
        exact Or.inr ⟨(beq_iff_eq).1 hb, rfl,
          ⟨it0, List.mem_cons_self _ _, rfl⟩⟩
      · refine Or.inl ⟨List.mem_cons_of_mem _ h, ?_⟩
        intro hidy
        refine hnd.1 ?_
        rw [(beq_iff_eq).1 hb, ← hidy]
        exact List.mem_map.2 ⟨it, h, rfl⟩
    · rw [if_neg hb] at hit
      rcases List.mem_cons.1 hit with h | h
      · subst h
        exact Or.inl ⟨List.mem_cons_self _ _, fun hh => hb ((beq_iff_eq).2 hh)⟩
      · rcases ih hnd.2 it h with ⟨h1, h2⟩ | ⟨h1, h2, it1, hit1, h3⟩
        · exact Or.inl ⟨List.mem_cons_of_mem _ h1, h2⟩
        · exact Or.inr ⟨h1, h2, it1, List.mem_cons_of_mem _ hit1, h3⟩

theorem pqChangePriority_char {items : List PQItem} {y : String} {p : ENum}
    (hnd : (items.map (fun it => it.node.id)).Nodup) :
    ∀ it ∈ pqChangePriority items y p,
      (it ∈ items ∧ it.node.id ≠ y) ∨
      (it.node.id = y ∧ it.priority = p ∧
        ∃ it0 ∈ items, it.node = it0.node) := by
  intro it hit
  unfold pqChangePriority at hit
  by_cases hq : pqHasNode items y = true
  · rw [if_pos hq] at hit
    exact pqSetFirst_char hnd it
      ((List.mergeSort_perm _ _).mem_iff.1 hit)
  · rw [if_neg hq] at hit
    refine Or.inl ⟨hit, ?_⟩
    intro hh
    exact hq (pqHasNode_iff.2 ⟨it, hit, hh⟩)

theorem pqHasNode_iff_mem {items : List PQItem} {z : String} :
    pqHasNode items z = true ↔ z ∈ items.map (fun it => it.node.id) := by
  rw [pqHasNode_iff]
  constructor
  · rintro ⟨it, hit, hz⟩
    exact List.mem_map.2 ⟨it, hit, hz⟩
  · intro h
    obtain ⟨it, hit, hz⟩ := List.mem_map.1 h
    exact ⟨it, hit, hz⟩

theorem pqChangePriority_hasNode {items : List PQItem} {y : String}
    {p : ENum} {z : String} :
    pqHasNode (pqChangePriority items y p) z = true ↔
      pqHasNode items z = true := by
  rw [pqHasNode_iff_mem, pqHasNode_iff_mem]
  exact (pqChangePriority_ids_perm items y p).mem_iff

theorem pqAdd_hasNode {items : List PQItem} {n : Node} {p : ENum}
    {z : String} :
    pqHasNode (pqAdd items n p) z = true ↔
      (pqHasNode items z = true ∨ n.id = z) := by
  rw [pqHasNode_iff_mem, pqHasNode_iff_mem]
  rw [((pqAdd_perm items n p).map (fun it => it.node.id)).mem_iff]
  rw [List.map_append, List.mem_append, ← pqHasNode_iff_mem,
    List.map_singleton, List.mem_singleton]
  constructor
  · rintro (h | h)
    · exact Or.inl h
    · exact Or.inr h.symm
  · rintro (h | h)
    · exact Or.inl h
    · exact Or.inr h.symm

/-! ## The Dijkstra loop invariant -/

/-- The id-level rendering of one `Edge`. -/
def dE (e : Edge) : DEdge := DEdge.mk e.«from».id e.«to».id e.weight

theorem dE_mem {edges : List Edge} {e : Edge} (he : e ∈ edges) :
    dE e ∈ toDEdges edges := List.mem_map.2 ⟨e, he, rfl⟩

/-- The full running invariant of `dijkstra`'s loop (the edge-relaxation
closure `DRel` is threaded separately). -/
structure GInv (nodes : List Node) (edges : List Edge) (sourceId : String)
    (st : DState) : Prop where
  base : DInv nodes st
  qsorted : st.queue.Pairwise (fun a b => pqLE a b = true)
  qsync : ∀ it ∈ st.queue, getk st.distances it.node.id = some it.priority
  qnodup : (st.queue.map (fun it => it.node.id)).Nodup
  qunvis : ∀ it ∈ st.queue, it.node.id ∉ st.visitedList
  qcover : ∀ y q, nodes.any (fun n => n.id == y) = true →
      y ∉ st.visitedList → getk st.distances y = some (num q) →
      pqHasNode st.queue y = true
  srcq : sourceId ∈ st.visitedList ∨ pqHasNode st.queue sourceId = true
  sound : BFSound (effEdges nodes edges) sourceId st.distances
  fin : noNinf st.distances
  src_le : srcLE sourceId st.distances
  cvis : ∀ v ∈ st.visitedList, ∀ es,
      Chain (effEdges nodes edges) sourceId es v →
      ∀ dv, getk st.distances v = some dv → dv ≤ num (chainW es)

/-- Every visited vertex has all its outgoing edges relaxed. -/
def DRel (nodes : List Node) (edges : List Edge) (st : DState) : Prop :=
  ∀ u ∈ st.visitedList, ∀ e ∈ edges, e.«from».id = u →
    ∀ du dv, getk st.distances u = some du →
      getk st.distances e.«to».id = some dv → dv ≤ du + num e.weight

theorem DRel_step {nodes : List Node} {edges : List Edge} {st st' : DState}
    (hrel : DRel nodes edges st) (hvl : st'.visitedList = st.visitedList)
    (hge : mapGE st.distances st'.distances)
    (hvis : ∀ y ∈ st.visitedList, getk st'.distances y =
      getk st.distances y)
    (hdom : ∀ k, (getk st'.distances k).isSome = true →
      (getk st.distances k).isSome = true) :
    DRel nodes edges st' := by
  intro u hu e he hef du dv hdu hdv
  rw [hvl] at hu
  rw [hvis u hu] at hdu
  obtain ⟨dvo, hdvo⟩ := Option.isSome_iff_exists.1 (hdom _ (by rw [hdv]; rfl))
  exact le_trans (hge _ _ _ hdvo hdv) (hrel u hu e he hef du dvo hdu hdvo)

theorem dijkstraRelax_ginv {nodes : List Node} {edges : List Edge}
    {sourceId currentId : String} {st : DState} (e : Edge)
    (hw : ∀ e0 ∈ edges, 0 ≤ e0.weight)
    (hg : GInv nodes edges sourceId st) (hcv : currentId ∈ st.visitedList)
    (he : e ∈ edges) (hef : e.«from».id = currentId) :
    GInv nodes edges sourceId (dijkstraRelax nodes currentId st e) ∧
    (dijkstraRelax nodes currentId st e).visitedList = st.visitedList ∧
    mapGE st.distances (dijkstraRelax nodes currentId st e).distances ∧
    (∀ y ∈ st.visitedList,
      getk (dijkstraRelax nodes currentId st e).distances y =
        getk st.distances y) := by
  unfold dijkstraRelax
  by_cases hvis : (getk st.visitedVertices e.«to».id).getD false
  · rw [if_pos hvis]
    exact ⟨hg, rfl, mapGE_refl _, fun y _ => rfl⟩
  · rw [if_neg hvis]
    have hvisn : e.«to».id ∉ st.visitedList := fun hm =>
      hvis ((hg.base.visited_iff _).2 hm)
    cases hdn : getk st.distances e.«to».id with
    | none => exact ⟨hg, rfl, mapGE_refl _, fun y _ => rfl⟩
    | some dn =>
      dsimp only
      have hdnS : (getk st.distances e.«to».id).isSome = true := by
        rw [hdn]; rfl
      have hanyto : nodes.any (fun n => n.id == e.«to».id) = true :=
        (hg.base.dom_dist _).1 hdnS
      have hanycur : nodes.any (fun n => n.id == currentId) = true :=
        hg.base.vl_dom _ hcv
      cases hdc : getk st.distances currentId with
      | none =>
        exfalso
        have hS := (hg.base.dom_dist currentId).2 hanycur
        rw [hdc] at hS
        cases hS
      | some dc =>
        dsimp only
        have hdcn : dc ≠ ninf := fun hh => hg.fin _ (hh ▸ hdc)
        by_cases hlt : dc + num e.weight < dn
        · rw [if_pos hlt]
          dsimp only
          have hdcinf : dc ≠ inf := by
            intro hh
            rw [hh, inf_add_num] at hlt
            exact absurd hlt (not_lt.2 (enum_le_inf dn))
          obtain ⟨qc, hqc⟩ : ∃ q, dc = num q := by
            rcases enum_cases dc with hh | hh | hh
            · exact absurd hh hdcn
            · exact absurd hh hdcinf
            · exact hh
          subst hqc
          have hpS : (getk st.previousVertices e.«to».id).isSome = true := by
            rw [hg.base.dom_prev]
            exact hanyto
          obtain ⟨esc, hesc, hwesc⟩ := hg.sound currentId qc hdc
          have heff : dE e ∈ effEdges nodes edges := by
            refine effEdges_mem.2 ⟨dE_mem he, ?_, ?_⟩
            · show nodes.any (fun n => n.id == e.«from».id) = true
              rw [hef]
              exact hanycur
            · exact hanyto
          have hq0 : 0 ≤ qc := by
            rw [← hwesc]
            exact chainW_nonneg (effEdges_nonneg hw) hesc
          have hwq : 0 ≤ e.weight := hw e he
          have hchainTo : Chain (effEdges nodes edges) sourceId
              (esc ++ [dE e]) e.«to».id :=
            Chain.append hesc (Chain.cons heff hef (Chain.nil (dE e).«to»))
          have hval : num qc + num e.weight = num (qc + e.weight) :=
            num_add _ _
          have hD2to : getk (setk st.distances e.«to».id
              (num qc + num e.weight)) e.«to».id =
              some (num (qc + e.weight)) := by
            rw [getk_setk_self, hval]
          have hD2ne : ∀ x, x ≠ e.«to».id →
              getk (setk st.distances e.«to».id
                (num qc + num e.weight)) x = getk st.distances x := by
            intro x hx
            exact getk_setk_of_ne _ _ hx
          have hdomD2 : ∀ x, (getk (setk st.distances e.«to».id
              (num qc + num e.weight)) x).isSome = true ↔
              nodes.any (fun n => n.id == x) = true := by
            intro x
            rw [setk_present_domain _ hdnS x]
            exact hg.base.dom_dist x
          have hdomP2 : ∀ x, (getk (setk st.previousVertices e.«to».id
              (some currentId)) x).isSome = true ↔
              nodes.any (fun n => n.id == x) = true := by
            intro x
            rw [setk_present_domain _ hpS x]
            exact hg.base.dom_prev x
          have hrank : ∀ v u, getk (setk st.previousVertices e.«to».id
              (some currentId)) v = some (some u) →
              u ∈ st.visitedList ∧ (v ∈ st.visitedList →
                rkOf st.visitedList u < rkOf st.visitedList v) := by
            intro v u hvu
            by_cases hv : v = e.«to».id
            · subst hv
              rw [getk_setk_self] at hvu
              have hcu : currentId = u :=
                Option.some.inj (Option.some.inj hvu)
              subst hcu
              exact ⟨hcv, fun hm => absurd hm hvisn⟩
            · rw [getk_setk_of_ne _ _ hv] at hvu
              exact hg.base.prev_rank v u hvu
          have hsound2 : BFSound (effEdges nodes edges) sourceId
              (setk st.distances e.«to».id (num qc + num e.weight)) := by
            intro k q hk
            by_cases hke : k = e.«to».id
            · subst hke
              rw [hD2to] at hk
              have hqeq : q = qc + e.weight := by
                have := Option.some.inj hk
                unfold num at this
                exact_mod_cast (WithBot.coe_inj.1 this).symm
              refine ⟨esc ++ [dE e], hchainTo, ?_⟩
              have h1 : chainW [dE e] = e.weight := by
                rw [chainW_cons, chainW_nil]
                show e.weight + 0 = e.weight
                ring
              rw [chainW_append, hwesc, hqeq, h1]
            · rw [hD2ne k hke] at hk
              exact hg.sound k q hk
          have hfin2 : noNinf (setk st.distances e.«to».id
              (num qc + num e.weight)) := by
            intro k
            by_cases hke : k = e.«to».id
            · subst hke
              rw [hD2to]
              intro hh
              exact num_ne_ninf _ (Option.some.inj hh)
            · rw [hD2ne k hke]
              exact hg.fin k
          have hsrcle2 : srcLE sourceId (setk st.distances e.«to».id
              (num qc + num e.weight)) := by
            intro dv hdv
            by_cases hks : sourceId = e.«to».id
            · exfalso
              have hsv : getk st.distances sourceId = some dn := by
                rw [hks]; exact hdn
              have hdn0 : dn ≤ num 0 := hg.src_le dn hsv
              have hlt2 : num (qc + e.weight) < num 0 :=
                lt_of_lt_of_le (hval ▸ hlt) hdn0
              have := num_lt_num.1 hlt2
              linarith
            · rw [hD2ne sourceId (fun hh => hks hh)] at hdv
              exact hg.src_le dv hdv
          have hcvis2 : ∀ v ∈ st.visitedList, ∀ es,
              Chain (effEdges nodes edges) sourceId es v →
              ∀ dv, getk (setk st.distances e.«to».id
                (num qc + num e.weight)) v = some dv →
              dv ≤ num (chainW es) := by
            intro v hv es hch dv hdv
            have hvne : v ≠ e.«to».id := fun hh => hvisn (hh ▸ hv)
            rw [hD2ne v hvne] at hdv
            exact hg.cvis v hv es hch dv hdv
          have hge2 : mapGE st.distances (setk st.distances e.«to».id
              (num qc + num e.weight)) :=
            mapGE_setk_le (mapGE_refl _) hdn (le_of_lt hlt)
          have hdvis2 : ∀ y ∈ st.visitedList,
              getk (setk st.distances e.«to».id
                (num qc + num e.weight)) y = getk st.distances y := by
            intro y hy
            exact hD2ne y (fun hh => hvisn (hh ▸ hy))
          by_cases hq : pqHasNode st.queue e.«to».id
          · rw [if_pos hq]
            have hchar := pqChangePriority_char (y := e.«to».id)
              (p := num qc + num e.weight) hg.qnodup
            refine ⟨⟨?_, ?_, ?_, ?_, ?_, ?_, ?_, hsound2, hfin2, hsrcle2,
              hcvis2⟩, rfl, hge2, hdvis2⟩
            · refine DInv.mk ?_ hg.base.vl_nodup hg.base.visited_iff
                hdomP2 hdomD2 hg.base.vl_dom hrank
              intro it hit
              rcases hchar it hit with ⟨h1, _⟩ | ⟨_, _, it0, hit0, h3⟩
              · exact hg.base.queue_nodes it h1
              · rw [h3]
                exact hg.base.queue_nodes it0 hit0
            · exact pqChangePriority_sorted hg.qsorted _ _
            · intro it hit
              rcases hchar it hit with ⟨h1, h2⟩ | ⟨h1, h2, _, _, _⟩
              · rw [hD2ne _ h2]
                exact hg.qsync it h1
              · rw [h1, hD2to, h2, hval]
            · exact (pqChangePriority_ids_perm _ _ _).nodup_iff.2 hg.qnodup
            · intro it hit
              rcases hchar it hit with ⟨h1, _⟩ | ⟨h1, _, _, _, _⟩
              · exact hg.qunvis it h1
              · rw [h1]
                exact hvisn
            · intro y q hany hyv hyd
              rw [pqChangePriority_hasNode]
              by_cases hye : y = e.«to».id
              · rw [hye]
                exact hq
              · rw [hD2ne y hye] at hyd
                exact hg.qcover y q hany hyv hyd
            · rcases hg.srcq with h | h
              · exact Or.inl h
              · refine Or.inr ?_
                rw [pqChangePriority_hasNode]
                exact h
          · rw [if_neg hq]
            cases hfind : nodes.find? (fun n => n.id == e.«to».id) with
            | none =>
              exfalso
              have : (nodes.find? (fun n => n.id == e.«to».id)).isSome :=
                List.find?_isSome.2 (by
                  obtain ⟨n, hn, hb⟩ := List.any_eq_true.1 hanyto
                  exact ⟨n, hn, hb⟩)
              rw [hfind] at this
              cases this
            | some nb =>
              have hnbid : nb.id = e.«to».id := by
                have hp := List.find?_some hfind
                simpa using hp
              have hnbmem : nb ∈ nodes := List.mem_of_find?_eq_some hfind
              have hqf : pqHasNode st.queue e.«to».id = false :=
                Bool.not_eq_true _ ▸ (Bool.eq_false_iff.2 hq)
              refine ⟨⟨?_, ?_, ?_, ?_, ?_, ?_, ?_, hsound2, hfin2, hsrcle2,
                hcvis2⟩, rfl, hge2, hdvis2⟩
              · refine DInv.mk ?_ hg.base.vl_nodup hg.base.visited_iff
                  hdomP2 hdomD2 hg.base.vl_dom hrank
                intro it hit
                rcases pqAdd_mem hit with h1 | h1
                · exact hg.base.queue_nodes it h1
                · rw [h1]
                  exact hnbmem
              · exact pqAdd_sorted _ _ _
              · intro it hit
                rcases pqAdd_mem hit with h1 | h1
                · have hne : it.node.id ≠ e.«to».id := by
                    intro hh
                    rw [← hh] at hq
                    exact hq (pqHasNode_iff.2 ⟨it, h1, rfl⟩)
                  rw [hD2ne _ hne]
                  exact hg.qsync it h1
                · rw [h1]
                  show getk _ nb.id = some (num qc + num e.weight)
                  rw [hnbid, hD2to, hval]
              · have hperm := (pqAdd_perm st.queue nb
                  (num qc + num e.weight)).map (fun it => it.node.id)
                refine hperm.nodup_iff.2 ?_
                rw [List.map_append]
                refine List.Nodup.append hg.qnodup ?_ ?_
                · exact List.nodup_singleton _
                · intro x hx hx2
                  rw [List.map_singleton, List.mem_singleton] at hx2
                  have : x = e.«to».id := by rw [hx2]; exact hnbid
                  rw [this] at hx
                  exact hq (pqHasNode_iff_mem.2 hx)
              · intro it hit
                rcases pqAdd_mem hit with h1 | h1
                · exact hg.qunvis it h1
                · rw [h1]
                  show nb.id ∉ st.visitedList
                  rw [hnbid]
                  exact hvisn
              · intro y q hany hyv hyd
                rw [pqAdd_hasNode]
                by_cases hye : y = e.«to».id
                · right
                  rw [hnbid, hye]
                · left
                  rw [hD2ne y hye] at hyd
                  exact hg.qcover y q hany hyv hyd
              · rcases hg.srcq with h | h
                · exact Or.inl h
                · refine Or.inr (pqAdd_hasNode.2 (Or.inl h))
        · rw [if_neg hlt]
          by_cases hq : pqHasNode st.queue e.«to».id
          · rw [if_pos hq]
            exact ⟨hg, rfl, mapGE_refl _, fun y _ => rfl⟩
          · rw [if_neg hq]
            cases hfind : nodes.find? (fun n => n.id == e.«to».id) with
            | none => exact ⟨hg, rfl, mapGE_refl _, fun y _ => rfl⟩
            | some nb =>
              have hnbid : nb.id = e.«to».id := by
                have hp := List.find?_some hfind
                simpa using hp
              have hnbmem : nb ∈ nodes := List.mem_of_find?_eq_some hfind
              refine ⟨⟨?_, ?_, ?_, ?_, ?_, ?_, ?_, hg.sound, hg.fin,
                hg.src_le, hg.cvis⟩, rfl, mapGE_refl _, fun y _ => rfl⟩
              · refine DInv.mk ?_ hg.base.vl_nodup hg.base.visited_iff
                  hg.base.dom_prev hg.base.dom_dist hg.base.vl_dom
                  hg.base.prev_rank
                intro it hit
                rcases pqAdd_mem hit with h1 | h1
                · exact hg.base.queue_nodes it h1
                · rw [h1]
                  exact hnbmem
              · exact pqAdd_sorted _ _ _
              · intro it hit
                rcases pqAdd_mem hit with h1 | h1
                · exact hg.qsync it h1
                · rw [h1]
                  show getk st.distances nb.id = some dn
                  rw [hnbid]
                  exact hdn
              · have hperm := (pqAdd_perm st.queue nb dn).map
                  (fun it => it.node.id)
                refine hperm.nodup_iff.2 ?_
                rw [List.map_append]
                refine List.Nodup.append hg.qnodup ?_ ?_
                · exact List.nodup_singleton _
                · intro x hx hx2
                  rw [List.map_singleton, List.mem_singleton] at hx2
                  have : x = e.«to».id := by rw [hx2]; exact hnbid
                  rw [this] at hx
                  exact hq (pqHasNode_iff_mem.2 hx)
              · intro it hit
                rcases pqAdd_mem hit with h1 | h1
                · exact hg.qunvis it h1
                · rw [h1]
                  show nb.id ∉ st.visitedList
                  rw [hnbid]
                  exact hvisn
              · intro y q hany hyv hyd
                rw [pqAdd_hasNode]
                by_cases hye : y = e.«to».id
                · right
                  rw [hnbid, hye]
                · left
                  exact hg.qcover y q hany hyv hyd
              · rcases hg.srcq with h | h
                · exact Or.inl h
                · exact Or.inr (pqAdd_hasNode.2 (Or.inl h))

theorem dijkstraFold_ginv {nodes : List Node} {edges : List Edge}
    {sourceId currentId : String} (hw : ∀ e0 ∈ edges, 0 ≤ e0.weight) :
    ∀ (l : List Edge) (st : DState),
    (∀ e ∈ l, e ∈ edges ∧ e.«from».id = currentId) →
    GInv nodes edges sourceId st → currentId ∈ st.visitedList →
    GInv nodes edges sourceId
      (l.foldl (dijkstraRelax nodes currentId) st) ∧
    (l.foldl (dijkstraRelax nodes currentId) st).visitedList =
      st.visitedList ∧
    mapGE st.distances
      (l.foldl (dijkstraRelax nodes currentId) st).distances ∧
    (∀ y ∈ st.visitedList,
      getk (l.foldl (dijkstraRelax nodes currentId) st).distances y =
        getk st.distances y) := by
  intro l
  induction l with
  | nil => exact fun st _ hg _ => ⟨hg, rfl, mapGE_refl _, fun y _ => rfl⟩
  | cons e l ih =>
    intro st hl hg hcv
    obtain ⟨hg1, hvl1, hge1, hvis1⟩ := dijkstraRelax_ginv e hw hg hcv
      (hl e (List.mem_cons_self _ _)).1 (hl e (List.mem_cons_self _ _)).2
    have hcv1 : currentId ∈ (dijkstraRelax nodes currentId st e).visitedList
      := by
      rw [hvl1]
      exact hcv
    obtain ⟨hg2, hvl2, hge2, hvis2⟩ := ih (dijkstraRelax nodes currentId st e)
      (fun e0 he0 => hl e0 (List.mem_cons_of_mem _ he0)) hg1 hcv1
    rw [List.foldl_cons]
    refine ⟨hg2, hvl2.trans hvl1, ?_, ?_⟩
    · refine mapGE_trans hge1 hge2 ?_
      intro k hk
      rw [(hg1.base.dom_dist k)]
      rw [(hg2.base.dom_dist k)] at hk
      exact hk
    · intro y hy
      have hy1 : y ∈ (dijkstraRelax nodes currentId st e).visitedList := by
        rw [hvl1]
        exact hy
      rw [hvis2 y hy1, hvis1 y hy]

theorem dijkstraRelax_bound {nodes : List Node} {edges : List Edge}
    {sourceId currentId : String} {st : DState} (e : Edge)
    (hw : ∀ e0 ∈ edges, 0 ≤ e0.weight)
    (hg : GInv nodes edges sourceId st) (hcv : currentId ∈ st.visitedList)
    (he : e ∈ edges) (hef : e.«from».id = currentId) :
    ∀ du dv, getk (dijkstraRelax nodes currentId st e).distances currentId =
      some du →
    getk (dijkstraRelax nodes currentId st e).distances e.«to».id =
      some dv → dv ≤ du + num e.weight := by
  have hanycur : nodes.any (fun n => n.id == currentId) = true :=
    hg.base.vl_dom _ hcv
  have heffgen : ∀ qc, getk st.distances currentId = some (num qc) →
      (getk st.distances e.«to».id).isSome = true →
      dE e ∈ effEdges nodes edges := by
    intro qc hdc htS
    refine effEdges_mem.2 ⟨dE_mem he, ?_, ?_⟩
    · show nodes.any (fun n => n.id == e.«from».id) = true
      rw [hef]
      exact hanycur
    · exact (hg.base.dom_dist _).1 htS
  unfold dijkstraRelax
  by_cases hvis : (getk st.visitedVertices e.«to».id).getD false
  · rw [if_pos hvis]
    have hvism : e.«to».id ∈ st.visitedList := (hg.base.visited_iff _).1 hvis
    intro du dv hdu hdv
    rcases enum_cases du with hh | hh | hh
    · exact absurd hh (fun hhh => hg.fin _ (hhh ▸ hdu))
    · rw [hh, inf_add_num]
      exact enum_le_inf dv
    · obtain ⟨qc, hqc⟩ := hh
      subst hqc
      obtain ⟨esc, hesc, hwesc⟩ := hg.sound currentId qc hdu
      have heff : dE e ∈ effEdges nodes edges :=
        heffgen qc hdu (by rw [hdv]; rfl)
      have hch : Chain (effEdges nodes edges) sourceId (esc ++ [dE e])
          e.«to».id :=
        Chain.append hesc (Chain.cons heff hef (Chain.nil (dE e).«to»))
      have hb := hg.cvis _ hvism _ hch dv hdv
      refine le_trans hb ?_
      have h1 : chainW [dE e] = e.weight := by
        rw [chainW_cons, chainW_nil]
        show e.weight + 0 = e.weight
        ring
      rw [chainW_append, hwesc, h1, ← num_add]
  · rw [if_neg hvis]
    have hvisn : e.«to».id ∉ st.visitedList := fun hm =>
      hvis ((hg.base.visited_iff _).2 hm)
    cases hdn : getk st.distances e.«to».id with
    | none =>
      intro du dv hdu hdv
      rw [hdn] at hdv
      cases hdv
    | some dn =>
      dsimp only
      cases hdc : getk st.distances currentId with
      | none =>
        exfalso
        have hS := (hg.base.dom_dist currentId).2 hanycur
        rw [hdc] at hS
        cases hS
      | some dc =>
        dsimp only
        have hcurne : currentId ≠ e.«to».id := fun hh =>
          hvisn (hh ▸ hcv)
        by_cases hlt : dc + num e.weight < dn
        · rw [if_pos hlt]
          dsimp only
          intro du dv hdu hdv
          rw [getk_setk_of_ne _ _ hcurne, hdc] at hdu
          rw [getk_setk_self] at hdv
          rw [← Option.some.inj hdu, ← Option.some.inj hdv]
        · rw [if_neg hlt]
          have hgoal : ∀ du dv, getk st.distances currentId = some du →
              getk st.distances e.«to».id = some dv →
              dv ≤ du + num e.weight := by
            intro du dv hdu hdv
            rw [hdc] at hdu
            rw [hdn] at hdv
            rw [← Option.some.inj hdu, ← Option.some.inj hdv]
            exact not_lt.1 hlt
          by_cases hq : pqHasNode st.queue e.«to».id
          · rw [if_pos hq]
            exact hgoal
          · rw [if_neg hq]
            cases hfind : nodes.find? (fun n => n.id == e.«to».id) with
            | none => exact hgoal
            | some nb => exact hgoal

theorem dijkstraFold_relaxed {nodes : List Node} {edges : List Edge}
    {sourceId currentId : String} {st : DState} {l : List Edge}
    (hw : ∀ e0 ∈ edges, 0 ≤ e0.weight)
    (hl : ∀ e ∈ l, e ∈ edges ∧ e.«from».id = currentId)
    (hg : GInv nodes edges sourceId st) (hcv : currentId ∈ st.visitedList) :
    ∀ e ∈ l, ∀ du dv,
    getk (l.foldl (dijkstraRelax nodes currentId) st).distances currentId =
      some du →
    getk (l.foldl (dijkstraRelax nodes currentId) st).distances
      e.«to».id = some dv → dv ≤ du + num e.weight := by
  intro e hel du dv hdu hdv
  obtain ⟨l1, l2, hsplit⟩ := List.append_of_mem hel
  have hl1 : ∀ e0 ∈ l1, e0 ∈ edges ∧ e0.«from».id = currentId := by
    intro e0 he0
    refine hl e0 ?_
    rw [hsplit]
    exact List.mem_append_left _ he0
  have hl2 : ∀ e0 ∈ l2, e0 ∈ edges ∧ e0.«from».id = currentId := by
    intro e0 he0
    refine hl e0 ?_
    rw [hsplit]
    exact List.mem_append_right _ (List.mem_cons_of_mem _ he0)
  rw [hsplit, List.foldl_append, List.foldl_cons] at hdu hdv
  obtain ⟨hg1, hvl1, hge1, hvis1⟩ := dijkstraFold_ginv hw l1 st hl1 hg hcv
  set st1 := l1.foldl (dijkstraRelax nodes currentId) st with hst1
  have hcv1 : currentId ∈ st1.visitedList := by
    rw [hvl1]
    exact hcv
  have hee := hl e hel
  obtain ⟨hg2, hvl2, hge2, hvis2⟩ :=
    dijkstraRelax_ginv e hw hg1 hcv1 hee.1 hee.2
  set st2 := dijkstraRelax nodes currentId st1 e with hst2
  have hcv2 : currentId ∈ st2.visitedList := by
    rw [hvl2]
    exact hcv1
  have hbound := dijkstraRelax_bound e hw hg1 hcv1 hee.1 hee.2
  obtain ⟨hg3, hvl3, hge3, hvis3⟩ := dijkstraFold_ginv hw l2 st2 hl2 hg2 hcv2
  have hdu2 : getk st2.distances currentId = some du := by
    rw [← hvis3 currentId hcv2]
    exact hdu
  have htoS : (getk st2.distances e.«to».id).isSome = true := by
    rw [(hg2.base.dom_dist _)]
    rw [← (hg3.base.dom_dist _)]
    rw [hdv]
    rfl
  obtain ⟨dv2, hdv2⟩ := Option.isSome_iff_exists.1 htoS
  have hdvle : dv ≤ dv2 := hge3 _ _ _ hdv2 hdv
  exact le_trans hdvle (hbound du dv2 hdu2 hdv2)

theorem walk_first_unvis {nodes : List Node} {edges : List Edge}
    {sourceId : String} {st : DState}
    (hw : ∀ e0 ∈ edges, 0 ≤ e0.weight)
    (hg : GInv nodes edges sourceId st) (hrel : DRel nodes edges st) :
    ∀ (es : List DEdge) (a v : String),
    Chain (effEdges nodes edges) a es v →
    a ∈ st.visitedList → v ∉ st.visitedList →
    ∀ qa, getk st.distances a = some (num qa) →
    ∃ y q, y ∉ st.visitedList ∧ nodes.any (fun n => n.id == y) = true ∧
      getk st.distances y = some (num q) ∧ q ≤ qa + chainW es := by
  intro es
  induction es with
  | nil =>
    intro a v hch hav hvv qa hqa
    cases hch
    exact absurd hav hvv
  | cons ed tl ih =>
    intro a v hch hav hvv qa hqa
    cases hch with
    | cons hed hfrom hrest =>
      obtain ⟨hmemT, hanyF, hanyT⟩ := effEdges_mem.1 hed
      obtain ⟨e0, he0, heq⟩ := List.mem_map.1 hmemT
      have hf0 : e0.«from».id = a := by
        rw [← hfrom, ← heq]
      have ht0 : e0.«to».id = ed.«to» := by
        rw [← heq]
      have hw0 : e0.weight = ed.weight := by
        rw [← heq]
      have htS : (getk st.distances ed.«to»).isSome = true :=
        (hg.base.dom_dist _).2 hanyT
      obtain ⟨dt, hdt⟩ := Option.isSome_iff_exists.1 htS
      have hdt2 : getk st.distances e0.«to».id = some dt := by
        rw [ht0]
        exact hdt
      have hb := hrel a hav e0 he0 hf0 (num qa) dt hqa hdt2
      rw [hw0, num_add] at hb
      obtain ⟨qt, hqt, hqtle⟩ : ∃ p, dt = num p ∧ p ≤ qa + ed.weight := by
        rcases le_num_cases hb with hh | hh
        · exact absurd (hh ▸ hdt) (hg.fin _)
        · exact hh
      subst hqt
      have htlW : 0 ≤ chainW tl :=
        chainW_nonneg (effEdges_nonneg hw) hrest
      by_cases hyv : ed.«to» ∈ st.visitedList
      · obtain ⟨y, q, h1, h2, h3, h4⟩ := ih ed.«to» v hrest hyv hvv qt hdt
        refine ⟨y, q, h1, h2, h3, ?_⟩
        rw [chainW_cons]
        linarith
      · refine ⟨ed.«to», qt, hyv, hanyT, hdt, ?_⟩
        rw [chainW_cons]
        linarith

theorem queue_head_min {st : DState} {item : PQItem} {rest : List PQItem}
    (hs : st.queue.Pairwise (fun a b => pqLE a b = true))
    (hqe : st.queue = item :: rest) {it : PQItem} (hit : it ∈ st.queue) :
    item.priority ≤ it.priority := by
  rw [hqe] at hs hit
  rcases List.mem_cons.1 hit with h | h
  · rw [h]
  · exact pqLE_le ((List.pairwise_cons.1 hs).1 it h)

theorem dijkstra_greedy {nodes : List Node} {edges : List Edge}
    {sourceId : String} {st : DState}
    (hw : ∀ e0 ∈ edges, 0 ≤ e0.weight)
    (hg : GInv nodes edges sourceId st) (hrel : DRel nodes edges st)
    {item : PQItem} {rest : List PQItem} (hqe : st.queue = item :: rest)
    (hiv : item.node.id ∉ st.visitedList) :
    ∀ es, Chain (effEdges nodes edges) sourceId es item.node.id →
      item.priority ≤ num (chainW es) := by
  intro es hch
  have hW0 : 0 ≤ chainW es := chainW_nonneg (effEdges_nonneg hw) hch
  rcases hg.srcq with hsv | hsq
  · have hanysrc := hg.base.vl_dom _ hsv
    have hsS := (hg.base.dom_dist sourceId).2 hanysrc
    obtain ⟨ds, hds⟩ := Option.isSome_iff_exists.1 hsS
    have hds0 : ds ≤ num 0 := hg.src_le ds hds
    obtain ⟨qs, hqs, hqs0⟩ : ∃ p, ds = num p ∧ p ≤ 0 := by
      rcases le_num_cases hds0 with hh | hh
      · exact absurd (hh ▸ hds) (hg.fin _)
      · exact hh
    subst hqs
    obtain ⟨y, q, hyv, hyany, hyd, hqle⟩ :=
      walk_first_unvis hw hg hrel es sourceId item.node.id hch hsv hiv qs hds
    have hhn := hg.qcover y q hyany hyv hyd
    obtain ⟨ity, hity, hityid⟩ := pqHasNode_iff.1 hhn
    have hmin := queue_head_min hg.qsorted hqe hity
    have hsync := hg.qsync ity hity
    rw [hityid, hyd] at hsync
    have hityp : ity.priority = num q := (Option.some.inj hsync).symm
    rw [hityp] at hmin
    refine le_trans hmin (num_le_num.2 ?_)
    linarith
  · obtain ⟨its, hits, hitsid⟩ := pqHasNode_iff.1 hsq
    have hmin := queue_head_min hg.qsorted hqe hits
    have hsync := hg.qsync its hits
    rw [hitsid] at hsync
    have h0 := hg.src_le its.priority hsync
    exact le_trans hmin (le_trans h0 (num_le_num.2 hW0))

theorem dijkstraLoop_ginv {nodes : List Node} {edges : List Edge}
    {sourceId : String} (hw : ∀ e0 ∈ edges, 0 ≤ e0.weight) :
    ∀ (fuel : Nat) (st : DState),
    GInv nodes edges sourceId st → DRel nodes edges st →
    GInv nodes edges sourceId (dijkstraLoop nodes edges fuel st) ∧
    DRel nodes edges (dijkstraLoop nodes edges fuel st) := by
  intro fuel
  induction fuel with
  | zero => exact fun st hg hrel => ⟨hg, hrel⟩
  | succ fuel ih =>
    intro st hg hrel
    rw [dijkstraLoop]
    cases hqe : st.queue with
    | nil => exact ⟨hg, hrel⟩
    | cons item rest =>
      dsimp only
      have hpcons : (item :: rest).Pairwise (fun a b => pqLE a b = true) := by
        rw [← hqe]
        exact hg.qsorted
      have hndcons : ((item :: rest).map (fun it => it.node.id)).Nodup := by
        rw [← hqe]
        exact hg.qnodup
      have hrest_sorted : rest.Pairwise (fun a b => pqLE a b = true) :=
        (List.pairwise_cons.1 hpcons).2
      have hrest_nodup : (rest.map (fun it => it.node.id)).Nodup := by
        rw [List.map_cons, List.nodup_cons] at hndcons
        exact hndcons.2
      have hid_notin : item.node.id ∉ rest.map (fun it => it.node.id) := by
        rw [List.map_cons, List.nodup_cons] at hndcons
        exact hndcons.1
      have hmemq : ∀ it ∈ rest, it ∈ st.queue := by
        intro it hit
        rw [hqe]
        exact List.mem_cons_of_mem _ hit
      have hitemq : item ∈ st.queue := by
        rw [hqe]
        exact List.mem_cons_self _ _
      by_cases hv : (getk st.visitedVertices item.node.id).getD false
      · rw [if_pos hv]
        have hvm : item.node.id ∈ st.visitedList :=
          (hg.base.visited_iff _).1 hv
        refine ih _ ⟨?_, hrest_sorted, ?_, hrest_nodup, ?_, ?_, ?_,
          hg.sound, hg.fin, hg.src_le, hg.cvis⟩ hrel
        · refine DInv.mk ?_ hg.base.vl_nodup hg.base.visited_iff
            hg.base.dom_prev hg.base.dom_dist hg.base.vl_dom
            hg.base.prev_rank
          exact fun it hit => hg.base.queue_nodes it (hmemq it hit)
        · exact fun it hit => hg.qsync it (hmemq it hit)
        · exact fun it hit => hg.qunvis it (hmemq it hit)
        · intro y q hany hyv hyd
          have hhn := hg.qcover y q hany hyv hyd
          obtain ⟨it, hit, hitid⟩ := pqHasNode_iff.1 hhn
          rw [hqe] at hit
          rcases List.mem_cons.1 hit with h | h
          · exfalso
            rw [h] at hitid
            rw [hitid] at hvm
            exact hyv hvm
          · exact pqHasNode_iff.2 ⟨it, h, hitid⟩
        · rcases hg.srcq with h | h
          · exact Or.inl h
          · obtain ⟨it, hit, hitid⟩ := pqHasNode_iff.1 h
            rw [hqe] at hit
            rcases List.mem_cons.1 hit with hh | hh
            · refine Or.inl ?_
              rw [hh] at hitid
              rw [← hitid]
              exact hvm
            · exact Or.inr (pqHasNode_iff.2 ⟨it, hh, hitid⟩)
      · rw [if_neg hv]
        have hiv : item.node.id ∉ st.visitedList := fun hm =>
          hv ((hg.base.visited_iff _).2 hm)
        have hgreedy := dijkstra_greedy hw hg hrel hqe hiv
        have hanycid : nodes.any (fun n => n.id == item.node.id) = true := by
          refine List.any_eq_true.2 ⟨item.node, hg.base.queue_nodes item
            hitemq, by simp⟩
        have hdisj : st.visitedList.Disjoint [item.node.id] := by
          intro a ha hb
          rw [List.mem_singleton] at hb
          exact hiv (hb ▸ ha)
        have hg2 : GInv nodes edges sourceId
            { steps := st.steps ++
                [{ type := .visit, currentNode := some item.node.id,
                   distances := st.distances,
                   visited := st.visitedList ++ [item.node.id],
                   previous := st.previousVertices }],
              distances := st.distances,
              visitedVertices := setk st.visitedVertices item.node.id true,
              previousVertices := st.previousVertices,
              queue := rest,
              visitedList := st.visitedList ++ [item.node.id] } := by
          refine ⟨?_, hrest_sorted, ?_, hrest_nodup, ?_, ?_, ?_, hg.sound,
            hg.fin, hg.src_le, ?_⟩
          · refine DInv.mk ?_ ?_ ?_ hg.base.dom_prev hg.base.dom_dist ?_ ?_
            · exact fun it hit => hg.base.queue_nodes it (hmemq it hit)
            · exact hg.base.vl_nodup.append (List.nodup_singleton _) hdisj
            · intro x
              by_cases hx : x = item.node.id
              · subst hx
                rw [getk_setk_self]
                simp
              · rw [getk_setk_of_ne _ _ hx, hg.base.visited_iff x]
                constructor
                · exact fun hm => List.mem_append_left _ hm
                · intro hm
                  rcases List.mem_append.1 hm with hm | hm
                  · exact hm
                  · exact absurd (List.mem_singleton.1 hm) hx
            · intro x hx
              rcases List.mem_append.1 hx with hx | hx
              · exact hg.base.vl_dom x hx
              · rw [List.mem_singleton.1 hx]
                exact hanycid
            · intro v u hvu
              obtain ⟨hu_vl, hlt⟩ := hg.base.prev_rank v u hvu
              refine ⟨List.mem_append_left _ hu_vl, ?_⟩
              intro hv_vl
              rcases List.mem_append.1 hv_vl with hvv | hvv
              · rw [rkOf_append_of_mem hu_vl, rkOf_append_of_mem hvv]
                exact hlt hvv
              · rw [List.mem_singleton.1 hvv, rkOf_append_of_mem hu_vl,
                  rkOf_append_self hiv]
                exact rkOf_lt_length hu_vl
          · exact fun it hit => hg.qsync it (hmemq it hit)
          · intro it hit
            intro hm
            rcases List.mem_append.1 hm with hm | hm
            · exact hg.qunvis it (hmemq it hit) hm
            · refine hid_notin ?_
              rw [← List.mem_singleton.1 hm]
              exact List.mem_map.2 ⟨it, hit, rfl⟩
          · intro y q hany hyv hyd
            have hyv0 : y ∉ st.visitedList := fun hm =>
              hyv (List.mem_append_left _ hm)
            have hyne : y ≠ item.node.id := fun hm =>
              hyv (List.mem_append_right _ (List.mem_singleton.2 hm))
            have hhn := hg.qcover y q hany hyv0 hyd
            obtain ⟨it, hit, hitid⟩ := pqHasNode_iff.1 hhn
            rw [hqe] at hit
            rcases List.mem_cons.1 hit with h | h
            · exfalso
              rw [h] at hitid
              exact hyne hitid.symm
            · exact pqHasNode_iff.2 ⟨it, h, hitid⟩
          · rcases hg.srcq with h | h
            · exact Or.inl (List.mem_append_left _ h)
            · obtain ⟨it, hit, hitid⟩ := pqHasNode_iff.1 h
              rw [hqe] at hit
              rcases List.mem_cons.1 hit with hh | hh
              · refine Or.inl ?_
                rw [hh] at hitid
                rw [← hitid]
                exact List.mem_append_right _ (List.mem_singleton.2 rfl)
              · exact Or.inr (pqHasNode_iff.2 ⟨it, hh, hitid⟩)
          · intro v hvm es hch dv hdv
            rcases List.mem_append.1 hvm with hvm | hvm
            · exact hg.cvis v hvm es hch dv hdv
            · have hveq : v = item.node.id := List.mem_singleton.1 hvm
              subst hveq
              dsimp only at hdv
              have hsync := hg.qsync item hitemq
              rw [hsync] at hdv
              rw [← Option.some.inj hdv]
              exact hgreedy es hch
        have hcv2 : item.node.id ∈ (st.visitedList ++ [item.node.id]) :=
          List.mem_append_right _ (List.mem_singleton.2 rfl)
        have hout : ∀ e ∈ edges.filter
            (fun e => e.«from».id == item.node.id),
            e ∈ edges ∧ e.«from».id = item.node.id := by
          intro e he
          obtain ⟨h1, h2⟩ := List.mem_filter.1 he
          exact ⟨h1, (beq_iff_eq).1 h2⟩
        obtain ⟨hg3, hvl3, hge3, hvis3⟩ := dijkstraFold_ginv hw
          (edges.filter (fun e => e.«from».id == item.node.id)) _ hout
          hg2 hcv2
        refine ih _ hg3 ?_
        intro u hu e he hef du dv hdu hdv
        rw [hvl3] at hu
        rcases List.mem_append.1 hu with hu0 | hu0
        · have hdu2 : getk st.distances u = some du := by
            rw [hvis3 u (List.mem_append_left _ hu0)] at hdu
            exact hdu
          have htoS : (getk st.distances e.«to».id).isSome = true := by
            rw [(hg.base.dom_dist _)]
            rw [← (hg3.base.dom_dist _)]
            rw [hdv]
            rfl
          obtain ⟨dvo, hdvo⟩ := Option.isSome_iff_exists.1 htoS
          have hdvle : dv ≤ dvo := hge3 _ _ _ hdvo hdv
          exact le_trans hdvle (hrel u hu0 e he hef du dvo hdu2 hdvo)
        · have hu1 : u = item.node.id := List.mem_singleton.1 hu0
          subst hu1
          have hemem : e ∈ edges.filter
              (fun e0 => e0.«from».id == item.node.id) :=
            List.mem_filter.2 ⟨he, (beq_iff_eq).2 hef⟩
          exact dijkstraFold_relaxed hw hout hg2 hcv2 e hemem du dv hdu hdv

theorem dijkstraSt0_ginv {nodes : List Node} {edges : List Edge}
    {sourceId : String} {sourceNode : Node}
    (hfind : nodes.find? (fun n => n.id == sourceId) = some sourceNode) :
    GInv nodes edges sourceId (dijkstraSt0 nodes sourceId sourceNode) ∧
    DRel nodes edges (dijkstraSt0 nodes sourceId sourceNode) := by
  have hsrc : nodes.any (fun n => n.id == sourceId) = true := by
    refine List.any_eq_true.2 ⟨sourceNode, List.mem_of_find?_eq_some hfind, ?_⟩
    have hp := List.find?_some hfind
    simpa using hp
  have hsid : sourceNode.id = sourceId := by
    have hp := List.find?_some hfind
    simpa using hp
  have hdget : ∀ k, getk (dijkstraSt0 nodes sourceId sourceNode).distances k =
      if nodes.any (fun n => n.id == k) then
        some (if k == sourceId then num 0 else inf)
      else none := by
    intro k
    simp only [dijkstraSt0]
    exact dijkstraInitDistances_getk nodes sourceId k hsrc
  have hs0 : getk (dijkstraSt0 nodes sourceId sourceNode).distances
      sourceId = some (num 0) := by
    rw [hdget, hsrc]
    simp
  have hqueue : (dijkstraSt0 nodes sourceId sourceNode).queue =
      [PQItem.mk sourceNode ((getk (dijkstraInitDistances nodes sourceId)
        sourceId).getD (num 0))] := by
    simp only [dijkstraSt0]
    exact pqAdd_nil _ _
  have hprio : ((getk (dijkstraInitDistances nodes sourceId)
      sourceId).getD (num 0)) = num 0 := by
    rw [dijkstraInitDistances_getk nodes sourceId sourceId hsrc, hsrc]
    simp
  refine ⟨⟨dijkstraSt0_inv nodes sourceId sourceNode hfind, ?_, ?_, ?_, ?_,
    ?_, ?_, ?_, ?_, ?_, ?_⟩, ?_⟩
  · simp only [dijkstraSt0]
    exact pqAdd_sorted _ _ _
  · intro it hit
    rw [hqueue] at hit
    rw [List.mem_singleton.1 hit]
    show getk _ sourceNode.id = some _
    rw [hsid, hs0, hprio]
  · rw [hqueue]
    exact List.nodup_singleton _
  · intro it hit
    simp only [dijkstraSt0]
    exact List.not_mem_nil _
  · intro y q hany hyv hyd
    rw [hdget, hany] at hyd
    by_cases hys : (y == sourceId) = true
    · have hyeq : y = sourceId := (beq_iff_eq).1 hys
      rw [hqueue]
      refine pqHasNode_iff.2 ⟨_, List.mem_singleton.2 rfl, ?_⟩
      show sourceNode.id = y
      rw [hsid, hyeq]
    · rw [if_pos rfl] at hyd
      rw [if_neg hys] at hyd
      exact absurd (Option.some.inj hyd).symm (num_ne_inf q)
  · refine Or.inr ?_
    rw [hqueue]
    refine pqHasNode_iff.2 ⟨_, List.mem_singleton.2 rfl, ?_⟩
    exact hsid
  · intro k q hk
    rw [hdget] at hk
    by_cases hany : nodes.any (fun n => n.id == k) = true
    · rw [if_pos hany] at hk
      by_cases hks : (k == sourceId) = true
      · rw [if_pos hks] at hk
        have hkeq : k = sourceId := (beq_iff_eq).1 hks
        subst hkeq
        have hq : q = 0 := by
          have := Option.some.inj hk
          unfold num at this
          exact_mod_cast (WithBot.coe_inj.1 this).symm
        subst hq
        exact ⟨[], Chain.nil k, chainW_nil⟩
      · rw [if_neg hks] at hk
        exact absurd (Option.some.inj hk).symm (num_ne_inf q)
    · rw [if_neg hany] at hk
      cases hk
  · intro k
    rw [hdget]
    by_cases hany : nodes.any (fun n => n.id == k) = true
    · rw [if_pos hany]
      by_cases hks : (k == sourceId) = true <;>
        simp only [hks, if_true, if_false]
      · intro hh
        exact num_ne_ninf 0 (Option.some.inj hh)
      · intro hh
        have hcon : inf = ninf := Option.some.inj hh
        unfold inf ninf at hcon
        exact (WithBot.coe_ne_bot) hcon
    · rw [if_neg hany]
      intro hh
      cases hh
  · intro dv hdv
    rw [hs0] at hdv
    rw [← Option.some.inj hdv]
  · intro v hv
    simp only [dijkstraSt0] at hv
    exact absurd hv (List.not_mem_nil v)
  · intro u hu
    simp only [dijkstraSt0] at hu
    exact absurd hu (List.not_mem_nil u)

theorem dijkstraRelax_qlen (nodes : List Node) (currentId : String)
    (st : DState) (e : Edge) :
    (dijkstraRelax nodes currentId st e).queue.length ≤
      st.queue.length + 1 := by
  unfold dijkstraRelax
  by_cases hvis : (getk st.visitedVertices e.«to».id).getD false
  · rw [if_pos hvis]
    omega
  · rw [if_neg hvis]
    cases hdn : getk st.distances e.«to».id with
    | none =>
            dsimp only
            omega
    | some dn =>
      dsimp only
      cases hdc : getk st.distances currentId with
      | none =>
        dsimp only
        by_cases hq : pqHasNode st.queue e.«to».id
        · rw [if_pos hq]
          omega
        · rw [if_neg hq]
          cases hfind : nodes.find? (fun n => n.id == e.«to».id) with
          | none =>
            dsimp only
            omega
          | some nb =>
            dsimp only
            have := (pqAdd_perm st.queue nb dn).length_eq
            simp only [List.length_append, List.length_singleton] at this
            simp only [this]
            omega
      | some dc =>
        dsimp only
        by_cases hlt : dc + num e.weight < dn
        · rw [if_pos hlt]
          dsimp only
          by_cases hq : pqHasNode st.queue e.«to».id
          · rw [if_pos hq]
            have h1 := (List.mergeSort_perm (pqSetFirst st.queue e.«to».id
              (dc + num e.weight)) pqLE).length_eq
            have h2 : (pqSetFirst st.queue e.«to».id
                (dc + num e.weight)).length = st.queue.length := by
              have h3 := congrArg List.length
                (pqSetFirst_ids st.queue e.«to».id (dc + num e.weight))
              simpa using h3
            show (pqChangePriority st.queue e.«to».id
              (dc + num e.weight)).length ≤ st.queue.length + 1
            unfold pqChangePriority
            rw [if_pos hq]
            omega
          · rw [if_neg hq]
            cases hfind : nodes.find? (fun n => n.id == e.«to».id) with
            | none =>
            dsimp only
            omega
            | some nb =>
              dsimp only
              have := (pqAdd_perm st.queue nb (dc + num e.weight)).length_eq
              simp only [List.length_append, List.length_singleton] at this
              simp only [this]
              omega
        · rw [if_neg hlt]
          by_cases hq : pqHasNode st.queue e.«to».id
          · rw [if_pos hq]
            omega
          · rw [if_neg hq]
            cases hfind : nodes.find? (fun n => n.id == e.«to».id) with
            | none =>
            dsimp only
            omega
            | some nb =>
              dsimp only
              have := (pqAdd_perm st.queue nb dn).length_eq
              simp only [List.length_append, List.length_singleton] at this
              simp only [this]
              omega

theorem dijkstraFold_qlen (nodes : List Node) (currentId : String) :
    ∀ (l : List Edge) (st : DState),
    (l.foldl (dijkstraRelax nodes currentId) st).queue.length ≤
      st.queue.length + l.length := by
  intro l
  induction l with
  | nil => exact fun st => le_refl _
  | cons e l ih =>
    intro st
    rw [List.foldl_cons]
    have h1 := ih (dijkstraRelax nodes currentId st e)
    have h2 := dijkstraRelax_qlen nodes currentId st e
    simp only [List.length_cons]
    omega

/-- The loop potential: queue size plus `(m+1)` per unvisited vertex id. -/
def dPhi (nodes : List Node) (edges : List Edge) (st : DState) : Nat :=
  st.queue.length + ((nodes.map Node.id).dedup.filter
    (fun x => !(st.visitedList.contains x))).length * (edges.length + 1)

theorem dijkstraLoop_drain (nodes : List Node) (edges : List Edge) :
    ∀ (fuel : Nat) (st : DState), DInv nodes st →
    dPhi nodes edges st ≤ fuel →
    (dijkstraLoop nodes edges fuel st).queue = [] := by
  intro fuel
  induction fuel with
  | zero =>
    intro st _ hphi
    have hq : st.queue.length = 0 := by
      unfold dPhi at hphi
      omega
    exact List.eq_nil_of_length_eq_zero hq
  | succ fuel ih =>
    intro st h hphi
    rw [dijkstraLoop]
    cases hqe : st.queue with
    | nil => exact hqe
    | cons item rest =>
      dsimp only
      have hrest : ∀ it ∈ rest, it.node ∈ nodes := by
        intro it hit
        refine h.queue_nodes it ?_
        rw [hqe]
        exact List.mem_cons_of_mem _ hit
      by_cases hv : (getk st.visitedVertices item.node.id).getD false
      · rw [if_pos hv]
        refine ih _ (DInv.mk hrest h.vl_nodup h.visited_iff h.dom_prev
          h.dom_dist h.vl_dom h.prev_rank) ?_
        have hlen : st.queue.length = rest.length + 1 := by
          rw [hqe]
          rfl
        unfold dPhi at hphi ⊢
        simp only at hphi ⊢
        omega
      · rw [if_neg hv]
        have hcid_dom : nodes.any (fun n => n.id == item.node.id) = true := by
          refine List.any_eq_true.2 ⟨item.node, ?_, by simp⟩
          refine h.queue_nodes item ?_
          rw [hqe]
          exact List.mem_cons_self _ _
        have hcnot : item.node.id ∉ st.visitedList := by
          intro hm
          exact hv ((h.visited_iff _).2 hm)
        have hdisj : st.visitedList.Disjoint [item.node.id] := by
          intro a ha hb
          rw [List.mem_singleton] at hb
          exact hcnot (hb ▸ ha)
        have h2 : DInv nodes
            { steps := st.steps ++
                [{ type := .visit, currentNode := some item.node.id,
                   distances := st.distances,
                   visited := st.visitedList ++ [item.node.id],
                   previous := st.previousVertices }],
              distances := st.distances,
              visitedVertices := setk st.visitedVertices item.node.id true,
              previousVertices := st.previousVertices,
              queue := rest,
              visitedList := st.visitedList ++ [item.node.id] } := by
          refine DInv.mk hrest ?_ ?_ h.dom_prev h.dom_dist ?_ ?_
          · exact h.vl_nodup.append (List.nodup_singleton _) hdisj
          · intro x
            by_cases hx : x = item.node.id
            · subst hx
              rw [getk_setk_self]
              simp
            · rw [getk_setk_of_ne _ _ hx, h.visited_iff x]
              constructor
              · exact fun hm => List.mem_append_left _ hm
              · intro hm
                rcases List.mem_append.1 hm with hm | hm
                · exact hm
                · exact absurd (List.mem_singleton.1 hm) hx
          · intro x hx
            rcases List.mem_append.1 hx with hx | hx
            · exact h.vl_dom x hx
            · rw [List.mem_singleton.1 hx]
              exact hcid_dom
          · intro v u hvu
            obtain ⟨hu_vl, hlt⟩ := h.prev_rank v u hvu
            refine ⟨List.mem_append_left _ hu_vl, ?_⟩
            intro hv_vl
            rcases List.mem_append.1 hv_vl with hvv | hvv
            · rw [rkOf_append_of_mem hu_vl, rkOf_append_of_mem hvv]
              exact hlt hvv
            · rw [List.mem_singleton.1 hvv, rkOf_append_of_mem hu_vl,
                rkOf_append_self hcnot]
              exact rkOf_lt_length hu_vl
        have hfold := foldl_preserve
          (fun s : DState => DInv nodes s ∧
            s.visitedList = st.visitedList ++ [item.node.id])
          (dijkstraRelax nodes item.node.id)
          (edges.filter (fun e => e.«from».id == item.node.id))
          _ ⟨h2, rfl⟩ ?_
        · refine ih _ hfold.1 ?_
          set st3 := (edges.filter
            (fun e => e.«from».id == item.node.id)).foldl
            (dijkstraRelax nodes item.node.id)
            { steps := st.steps ++
                [{ type := .visit, currentNode := some item.node.id,
                   distances := st.distances,
                   visited := st.visitedList ++ [item.node.id],
                   previous := st.previousVertices }],
              distances := st.distances,
              visitedVertices := setk st.visitedVertices item.node.id true,
              previousVertices := st.previousVertices,
              queue := rest,
              visitedList := st.visitedList ++ [item.node.id] } with hst3
          have hq3 : st3.queue.length ≤ rest.length + edges.length := by
            have h1 := dijkstraFold_qlen nodes item.node.id
              (edges.filter (fun e => e.«from».id == item.node.id))
              { steps := st.steps ++
                  [{ type := .visit, currentNode := some item.node.id,
                     distances := st.distances,
                     visited := st.visitedList ++ [item.node.id],
                     previous := st.previousVertices }],
                distances := st.distances,
                visitedVertices := setk st.visitedVertices item.node.id true,
                previousVertices := st.previousVertices,
                queue := rest,
                visitedList := st.visitedList ++ [item.node.id] }
            rw [← hst3] at h1
            have h2l : (edges.filter
                (fun e => e.«from».id == item.node.id)).length ≤
                edges.length := List.length_filter_le _ _
            simp only at h1
            omega
          have hvl3 : st3.visitedList = st.visitedList ++ [item.node.id] :=
            hfold.2
          have hU : ((nodes.map Node.id).dedup.filter
              (fun x => !((st.visitedList ++
                [item.node.id]).contains x))).length + 1 ≤
              ((nodes.map Node.id).dedup.filter
              (fun x => !(st.visitedList.contains x))).length := by
            set T := (nodes.map Node.id).dedup with hT
            set p1 : String → Bool := fun x =>
              !(st.visitedList.contains x) with hp1
            set p2 : String → Bool := fun x =>
              !((st.visitedList ++ [item.node.id]).contains x) with hp2
            have himp : ∀ a, p2 a = true → p1 a = true := by
              intro a ha
              rw [hp2, bnotContains_iff] at ha
              rw [hp1, bnotContains_iff]
              intro hmem
              exact ha (List.mem_append_left _ hmem)
            have hfilter : T.filter p2 = (T.filter p1).filter p2 := by
              rw [List.filter_filter]
              refine (List.filter_congr ?_).symm
              intro a _
              cases hpa : p2 a with
              | true => simp [himp a hpa]
              | false => simp
            have hcur : item.node.id ∈ T := by
              rw [hT]
              refine List.mem_dedup.2 ?_
              obtain ⟨n, hn, hb⟩ := List.any_eq_true.1 hcid_dom
              refine List.mem_map.2 ⟨n, hn, ?_⟩
              exact (beq_iff_eq).1 hb
            have hmemf : item.node.id ∈ T.filter p1 := by
              refine List.mem_filter.2 ⟨hcur, ?_⟩
              rw [hp1, bnotContains_iff]
              exact hcnot
            have hnp2 : ¬ p2 item.node.id = true := by
              rw [hp2, bnotContains_iff]
              simp only [not_not]
              exact List.mem_append_right _ (List.mem_singleton.2 rfl)
            have hlt : (T.filter p2).length < (T.filter p1).length := by
              rw [hfilter]
              exact List.length_filter_lt_length_iff_exists.2
                ⟨item.node.id, hmemf, hnp2⟩
            omega
          have hlen : st.queue.length = rest.length + 1 := by
            rw [hqe]
            rfl
          unfold dPhi at hphi ⊢
          rw [hvl3]
          have hmul := Nat.mul_le_mul_right (edges.length + 1) hU
          rw [Nat.add_mul, Nat.one_mul] at hmul
          omega
        · intro acc e hacc
          obtain ⟨hi, hveq⟩ := hacc
          have hc : item.node.id ∈ acc.visitedList := by
            rw [hveq]
            exact List.mem_append_right _ (List.mem_singleton.2 rfl)
          obtain ⟨hi2, hveq2⟩ := dijkstraRelax_inv e hi hc
          exact ⟨hi2, hveq2.trans hveq⟩

theorem dijkstraFinal_char {nodes : List Node} {edges : List Edge}
    {sourceId : String} {sourceNode : Node}
    (hw : ∀ e0 ∈ edges, 0 ≤ e0.weight)
    (hfind : nodes.find? (fun n => n.id == sourceId) = some sourceNode) :
    GInv nodes edges sourceId
      (dijkstraFinalState nodes edges sourceId sourceNode) ∧
    DRel nodes edges (dijkstraFinalState nodes edges sourceId sourceNode) ∧
    (dijkstraFinalState nodes edges sourceId sourceNode).queue = [] := by
  obtain ⟨hg0, hrel0⟩ := @dijkstraSt0_ginv nodes edges sourceId
    sourceNode hfind
  obtain ⟨hgf, hrelf⟩ := dijkstraLoop_ginv hw
    (dijkstraFuel nodes edges) _ hg0 hrel0
  refine ⟨hgf, hrelf, ?_⟩
  refine dijkstraLoop_drain nodes edges _ _ hg0.base ?_
  have hq0 : (dijkstraSt0 nodes sourceId sourceNode).queue.length = 1 := by
    simp only [dijkstraSt0]
    rw [pqAdd_nil]
    rfl
  have hfilter : ((nodes.map Node.id).dedup.filter (fun x =>
      !((dijkstraSt0 nodes sourceId sourceNode).visitedList.contains x)))
      = (nodes.map Node.id).dedup := by
    refine List.filter_eq_self.2 ?_
    intro a _
    rfl
  have hU : ((nodes.map Node.id).dedup.filter (fun x =>
      !((dijkstraSt0 nodes sourceId sourceNode).visitedList.contains
        x))).length ≤ nodes.length := by
    rw [hfilter]
    have h1 := (List.dedup_sublist (nodes.map Node.id)).length_le
    have h2 := List.length_map nodes Node.id
    omega
  unfold dPhi dijkstraFuel
  have hmul := Nat.mul_le_mul_right (edges.length + 1) hU
  have hsucc : (nodes.length + 1) * (edges.length + 1) =
      nodes.length * (edges.length + 1) + (edges.length + 1) := by
    rw [Nat.succ_mul]
  omega

theorem dijkstraFinal_complete {nodes : List Node} {edges : List Edge}
    {sourceId : String} {sourceNode : Node}
    (hw : ∀ e0 ∈ edges, 0 ≤ e0.weight)
    (hfind : nodes.find? (fun n => n.id == sourceId) = some sourceNode) :
    chainBoundAll (effEdges nodes edges) sourceId
      (dijkstraFinalState nodes edges sourceId sourceNode).distances := by
  obtain ⟨hg, hrel, hqnil⟩ := dijkstraFinal_char hw hfind
  have hsrcvl : sourceId ∈
      (dijkstraFinalState nodes edges sourceId sourceNode).visitedList := by
    rcases hg.srcq with h | h
    · exact h
    · exfalso
      rw [hqnil] at h
      cases h
  intro es v hch
  by_cases hvvl : v ∈
      (dijkstraFinalState nodes edges sourceId sourceNode).visitedList
  · have hany : nodes.any (fun n => n.id == v) = true :=
      hg.base.vl_dom _ hvvl
    obtain ⟨dv, hdv⟩ := Option.isSome_iff_exists.1
      ((hg.base.dom_dist v).2 hany)
    exact ⟨dv, hdv, hg.cvis v hvvl es hch dv hdv⟩
  · exfalso
    have hanysrc := hg.base.vl_dom _ hsrcvl
    obtain ⟨ds, hds⟩ := Option.isSome_iff_exists.1
      ((hg.base.dom_dist sourceId).2 hanysrc)
    have hds0 : ds ≤ num 0 := hg.src_le ds hds
    obtain ⟨qs, hqs, _⟩ : ∃ p, ds = num p ∧ p ≤ 0 := by
      rcases le_num_cases hds0 with hh | hh
      · exact absurd (hh ▸ hds) (hg.fin _)
      · exact hh
    subst hqs
    obtain ⟨y, q, hyv, hyany, hyd, _⟩ :=
      walk_first_unvis hw hg hrel es sourceId v hch hsrcvl hvvl qs hds
    have hhn := hg.qcover y q hyany hyv hyd
    rw [hqnil] at hhn
    cases hhn

/-! ## Pointwise and structural equality of the two final maps -/

theorem char_le {nodes : List Node} {edges : List Edge} {sourceId : String}
    {d1 d2 : List (String × ENum)} {k : String} {dv1 dv2 : ENum}
    (hsound2 : BFSound (effEdges nodes edges) sourceId d2)
    (hall1 : chainBoundAll (effEdges nodes edges) sourceId d1)
    (hfin2 : noNinf d2)
    (h1 : getk d1 k = some dv1) (h2 : getk d2 k = some dv2) :
    dv1 ≤ dv2 := by
  rcases enum_cases dv2 with hh | hh | ⟨q2, hh⟩
  · exact absurd (hh ▸ h2) (hfin2 _)
  · rw [hh]
    exact enum_le_inf dv1
  · subst hh
    obtain ⟨es, hch, hwes⟩ := hsound2 k q2 h2
    obtain ⟨dv1b, hdv1b, hle⟩ := hall1 es k hch
    rw [h1] at hdv1b
    rw [← Option.some.inj hdv1b, hwes] at hle
    exact hle

theorem maps_eq_of_char {nodes : List Node} {edges : List Edge}
    {sourceId : String} {d1 d2 : List (String × ENum)}
    (hdom1 : ∀ k, (getk d1 k).isSome = true ↔
      nodes.any (fun n => n.id == k) = true)
    (hdom2 : ∀ k, (getk d2 k).isSome = true ↔
      nodes.any (fun n => n.id == k) = true)
    (hfin1 : noNinf d1) (hfin2 : noNinf d2)
    (hsound1 : BFSound (effEdges nodes edges) sourceId d1)
    (hsound2 : BFSound (effEdges nodes edges) sourceId d2)
    (hall1 : chainBoundAll (effEdges nodes edges) sourceId d1)
    (hall2 : chainBoundAll (effEdges nodes edges) sourceId d2) :
    ∀ k, getk d1 k = getk d2 k := by
  intro k
  by_cases hany : nodes.any (fun n => n.id == k) = true
  · obtain ⟨dv1, hdv1⟩ := Option.isSome_iff_exists.1 ((hdom1 k).2 hany)
    obtain ⟨dv2, hdv2⟩ := Option.isSome_iff_exists.1 ((hdom2 k).2 hany)
    rw [hdv1, hdv2]
    congr 1
    exact le_antisymm (char_le hsound2 hall1 hfin2 hdv1 hdv2)
      (char_le hsound1 hall2 hfin1 hdv2 hdv1)
  · have h1 : getk d1 k = none := by
      cases hg : getk d1 k with
      | none => rfl
      | some v =>
        exfalso
        refine hany ((hdom1 k).1 ?_)
        rw [hg]
        rfl
    have h2 : getk d2 k = none := by
      cases hg : getk d2 k with
      | none => rfl
      | some v =>
        exfalso
        refine hany ((hdom2 k).1 ?_)
        rw [hg]
        rfl
    rw [h1, h2]

/-- Association lists with identical duplicate-free key rows and identical
lookups are identical. -/
theorem assoc_ext {α : Type} : ∀ (m1 m2 : List (String × α)),
    m1.map Prod.fst = m2.map Prod.fst → (m1.map Prod.fst).Nodup →
    (∀ k, getk m1 k = getk m2 k) → m1 = m2 := by
  intro m1
  induction m1 with
  | nil =>
    intro m2 hkeys _ _
    cases m2 with
    | nil => rfl
    | cons p t => cases hkeys
  | cons p t ih =>
    intro m2 hkeys hnd hget
    cases m2 with
    | nil => cases hkeys
    | cons p2 t2 =>
      rw [List.map_cons, List.map_cons] at hkeys
      have hk : p.1 = p2.1 := by
        have := congrArg (fun l => l.headI) hkeys
        simpa using this
      have htk : t.map Prod.fst = t2.map Prod.fst := by
        have := congrArg List.tail hkeys
        simpa using this
      rw [List.map_cons, List.nodup_cons] at hnd
      have hv : p.2 = p2.2 := by
        have hh := hget p.1
        rw [getk_cons, getk_cons, if_pos rfl, if_pos hk.symm] at hh
        exact Option.some.inj hh
      have htget : ∀ k, getk t k = getk t2 k := by
        intro k
        by_cases hkp : k = p.1
        · have hn1 : getk t k = none := by
            cases hgt : getk t k with
            | none => rfl
            | some v =>
              exfalso
              refine hnd.1 ((getk_isSome_iff_mem_keys t p.1).1 ?_)
              rw [hkp] at hgt
              rw [hgt]
              rfl
          have hn2 : getk t2 k = none := by
            cases hgt : getk t2 k with
            | none => rfl
            | some v =>
              exfalso
              have hmem := (getk_isSome_iff_mem_keys t2 p.1).1 (by
                rw [hkp] at hgt
                rw [hgt]
                rfl)
              rw [← htk] at hmem
              exact hnd.1 hmem
          rw [hn1, hn2]
        · have hh := hget k
          rw [getk_cons, getk_cons, if_neg (fun he => hkp he.symm),
            if_neg (fun he => hkp (by rw [← he, hk]))] at hh
          exact hh
      have hteq := ih t2 htk hnd.2 htget
      have hpeq : p = p2 := Prod.ext hk hv
      rw [hpeq, hteq]

theorem any_fst {α : Type} (m : List (String × α)) (k : String) :
    m.any (fun p => p.1 == k) = (m.map Prod.fst).any (fun x => x == k) := by
  induction m with
  | nil => rfl
  | cons p t ih => rw [List.any_cons, List.map_cons, List.any_cons, ih]

theorem setk_keys_congr {α β : Type} {m : List (String × α)}
    {m' : List (String × β)} (h : m.map Prod.fst = m'.map Prod.fst)
    (k : String) (v : α) (v' : β) :
    (setk m k v).map Prod.fst = (setk m' k v').map Prod.fst := by
  rw [keys_setk, keys_setk, any_fst, any_fst, h]

theorem initFold_keys_congr {α β : Type} (g : String → α) (g' : String → β) :
    ∀ (nodes : List Node) (m : List (String × α))
    (m' : List (String × β)), m.map Prod.fst = m'.map Prod.fst →
    (nodes.foldl (fun acc n => setk acc n.id (g n.id)) m).map Prod.fst =
    (nodes.foldl (fun acc n => setk acc n.id (g' n.id)) m').map Prod.fst := by
  intro ns
  induction ns with
  | nil => exact fun m m' h => h
  | cons n ns ih =>
    intro m m' h
    rw [List.foldl_cons, List.foldl_cons]
    exact ih _ _ (setk_keys_congr h n.id _ _)

theorem setk_keys_nodup {α : Type} {m : List (String × α)}
    (h : (m.map Prod.fst).Nodup) (k : String) (v : α) :
    ((setk m k v).map Prod.fst).Nodup := by
  rw [keys_setk]
  by_cases ha : m.any (fun p => p.1 == k) = true
  · rw [if_pos ha]
    exact h
  · rw [if_neg ha]
    refine List.Nodup.append h (List.nodup_singleton _) ?_
    intro x hx hx2
    rw [List.mem_singleton] at hx2
    subst hx2
    refine ha ?_
    rw [any_fst]
    exact List.any_eq_true.2 ⟨x, hx, (beq_iff_eq).2 rfl⟩

theorem initFold_keys_nodup {α : Type} (g : String → α) :
    ∀ (ns : List Node) (m : List (String × α)),
    (m.map Prod.fst).Nodup →
    ((ns.foldl (fun acc n => setk acc n.id (g n.id)) m).map Prod.fst).Nodup
    := by
  intro ns
  induction ns with
  | nil => exact fun m h => h
  | cons n ns ih =>
    intro m h
    rw [List.foldl_cons]
    exact ih _ (setk_keys_nodup h n.id _)

theorem setk_keys_present {α : Type} {m : List (String × α)} {k : String}
    (h : (getk m k).isSome = true) (v : α) :
    (setk m k v).map Prod.fst = m.map Prod.fst := by
  rw [keys_setk, if_pos]
  rw [← getk_isSome_iff_any]
  exact h

theorem dijkstraRelax_keys (nodes : List Node) (currentId : String)
    (st : DState) (e : Edge) :
    (dijkstraRelax nodes currentId st e).distances.map Prod.fst =
      st.distances.map Prod.fst := by
  unfold dijkstraRelax
  by_cases hvis : (getk st.visitedVertices e.«to».id).getD false
  · rw [if_pos hvis]
  · rw [if_neg hvis]
    cases hdn : getk st.distances e.«to».id with
    | none => rfl
    | some dn =>
      dsimp only
      cases hdc : getk st.distances currentId with
      | none =>
        dsimp only
        by_cases hq : pqHasNode st.queue e.«to».id
        · rw [if_pos hq]
        · rw [if_neg hq]
          cases hfind : nodes.find? (fun n => n.id == e.«to».id) with
          | none => rfl
          | some nb => rfl
      | some dc =>
        dsimp only
        by_cases hlt : dc + num e.weight < dn
        · rw [if_pos hlt]
          dsimp only
          refine setk_keys_present ?_ _
          rw [hdn]
          rfl
        · rw [if_neg hlt]
          by_cases hq : pqHasNode st.queue e.«to».id
          · rw [if_pos hq]
          · rw [if_neg hq]
            cases hfind : nodes.find? (fun n => n.id == e.«to».id) with
            | none => rfl
            | some nb => rfl

theorem dijkstraFold_keys (nodes : List Node) (currentId : String) :
    ∀ (l : List Edge) (st : DState),
    (l.foldl (dijkstraRelax nodes currentId) st).distances.map Prod.fst =
      st.distances.map Prod.fst := by
  intro l
  induction l with
  | nil => exact fun st => rfl
  | cons e l ih =>
    intro st
    rw [List.foldl_cons, ih, dijkstraRelax_keys]

theorem dijkstraLoop_keys (nodes : List Node) (edges : List Edge) :
    ∀ (fuel : Nat) (st : DState),
    (dijkstraLoop nodes edges fuel st).distances.map Prod.fst =
      st.distances.map Prod.fst := by
  intro fuel
  induction fuel with
  | zero => exact fun st => rfl
  | succ fuel ih =>
    intro st
    rw [dijkstraLoop]
    cases hqe : st.queue with
    | nil => rfl
    | cons item rest =>
      dsimp only
      by_cases hv : (getk st.visitedVertices item.node.id).getD false
      · rw [if_pos hv, ih]
      · rw [if_neg hv, ih, dijkstraFold_keys]

theorem bfRelaxEdge_keys (acc : BFState × Bool) (e : DEdge) :
    (bfRelaxEdge acc e).1.distances.map Prod.fst =
      acc.1.distances.map Prod.fst := by
  obtain ⟨st, b⟩ := acc
  simp only [bfRelaxEdge]
  cases hf : getk st.distances e.«from» with
  | none => rfl
  | some df =>
    dsimp only
    by_cases hdf : df = inf
    · rw [if_pos hdf]
    · rw [if_neg hdf]
      cases ht : getk st.distances e.«to» with
      | none => rfl
      | some dt =>
        dsimp only
        by_cases hlt : df + num e.weight < dt
        · rw [if_pos hlt]
          dsimp only
          refine setk_keys_present ?_ _
          rw [ht]
          rfl
        · rw [if_neg hlt]

theorem bfFold_keys : ∀ (l : List DEdge) (acc : BFState × Bool),
    (l.foldl bfRelaxEdge acc).1.distances.map Prod.fst =
      acc.1.distances.map Prod.fst := by
  intro l
  induction l with
  | nil => exact fun acc => rfl
  | cons e l ih =>
    intro acc
    rw [List.foldl_cons, ih, bfRelaxEdge_keys]

theorem bfPasses_keys (dedges : List DEdge) : ∀ (k : Nat) (st : BFState),
    (bfPasses dedges k st).distances.map Prod.fst =
      st.distances.map Prod.fst := by
  intro k
  induction k with
  | zero => exact fun st => rfl
  | succ k ih =>
    intro st
    rw [bfPasses]
    by_cases hu : (bfPass dedges st).2
    · rw [if_pos hu, ih]
      unfold bfPass
      exact bfFold_keys _ _
    · rw [if_neg hu]
      show (bfPass dedges st).1.distances.map Prod.fst = _
      unfold bfPass
      exact bfFold_keys _ _

theorem dijkstra_finalDistances {nodes : List Node} {edges : List Edge}
    {sourceId : String} {sourceNode : Node}
    (hfind : nodes.find? (fun n => n.id == sourceId) = some sourceNode) :
    (dijkstra nodes edges sourceId).finalDistances =
      (dijkstraFinalState nodes edges sourceId sourceNode).distances := by
  unfold dijkstra
  rw [hfind]

theorem bf_finalDistances (nodes : List Node) (edges : List Edge)
    (sourceId : String) :
    (bellmanFord nodes edges sourceId).finalDistances =
      (bfFinalState nodes edges sourceId).distances := rfl

theorem dij_keys {nodes : List Node} {edges : List Edge}
    {sourceId : String} {sourceNode : Node}
    (hsrc : nodes.any (fun n => n.id == sourceId) = true) :
    (dijkstraFinalState nodes edges sourceId
      sourceNode).distances.map Prod.fst =
    (nodes.foldl (fun m n => setk m n.id inf)
      ([] : List (String × ENum))).map Prod.fst := by
  unfold dijkstraFinalState
  rw [dijkstraLoop_keys]
  show (dijkstraInitDistances nodes sourceId).map Prod.fst = _
  unfold dijkstraInitDistances
  refine setk_keys_present ?_ _
  have h := getk_initFold nodes (fun _ => inf)
    ([] : List (String × ENum)) sourceId
  simp only [getk_nil] at h
  rw [h, hsrc]
  rfl

theorem bf_keys (nodes : List Node) (edges : List Edge)
    (sourceId : String) :
    (bfAfterPasses nodes edges sourceId).distances.map Prod.fst =
    (nodes.foldl (fun m n => setk m n.id inf)
      ([] : List (String × ENum))).map Prod.fst := by
  unfold bfAfterPasses
  rw [bfPasses_keys]
  show (bfInitDistances nodes sourceId).map Prod.fst = _
  have h := initFold_keys_congr
    (fun s => if s == sourceId then num 0 else inf) (fun _ => inf)
    nodes ([] : List (String × ENum)) ([] : List (String × ENum)) rfl
  exact h

/-- Claim C1 theorem (amended): For a graph with non-negative edge weights whose source id occurs
among the vertices, `dijkstra` and `bellmanFord` produce identical final
distance maps (equal as association lists: same keys in the same order with
the same values). -/
theorem claim_C1_theorem (nodes : List Node) (edges : List Edge)
    (sourceId : String) (sourceNode : Node)
    (hw : ∀ e0 ∈ edges, 0 ≤ e0.weight)
    (hfind : nodes.find? (fun n => n.id == sourceId) = some sourceNode) :
    (dijkstra nodes edges sourceId).finalDistances =
      (bellmanFord nodes edges sourceId).finalDistances := by
  have hsrc : nodes.any (fun n => n.id == sourceId) = true := by
    refine List.any_eq_true.2 ⟨sourceNode, List.mem_of_find?_eq_some hfind, ?_⟩
    have hp := List.find?_some hfind
    simpa using hp
  rw [dijkstra_finalDistances hfind, bf_finalDistances,
    (bfFinalState_eq hw hsrc).1]
  obtain ⟨hgf, hrelf, hqnil⟩ := dijkstraFinal_char hw hfind
  have hallD := dijkstraFinal_complete hw hfind
  obtain ⟨hpB, hallB⟩ := bfAfterPasses_pack hw hsrc
  refine assoc_ext _ _ ?_ ?_ ?_
  · rw [dij_keys hsrc, bf_keys]
  · rw [dij_keys hsrc]
    exact initFold_keys_nodup (fun _ => inf) nodes [] List.nodup_nil
  · exact maps_eq_of_char hgf.base.dom_dist hpB.dom hgf.fin hpB.fin
      hgf.sound hpB.sound hallD hallB

/-- Counterexample to the unconditional claim: with a source id that does not
occur among the vertices (and trivially non-negative weights), `dijkstra`
returns an empty distance map while `bellmanFord` maps every vertex to
`Infinity`. -/
theorem claim_C1_counterexample :
    (∀ e0 ∈ ([] : List Edge), 0 ≤ e0.weight) ∧
    (dijkstra [nodeA] [] "Z").finalDistances = [] ∧
    (bellmanFord [nodeA] [] "Z").finalDistances = [("A", inf)] ∧
    (dijkstra [nodeA] [] "Z").finalDistances ≠
      (bellmanFord [nodeA] [] "Z").finalDistances := by
  refine ⟨fun e0 he0 => absurd he0 (List.not_mem_nil e0), ?_, ?_, ?_⟩
  · with_unfolding_all rfl
  · with_unfolding_all rfl
  · with_unfolding_all decide

/-- Witness for C1 on the graph `A→B (weight 1)` with source `A`. -/
theorem claim_C1_witness :
    ((∀ e0 ∈ [edgeAB1], 0 ≤ e0.weight) ∧
      [nodeA, nodeB].find? (fun n => n.id == "A") = some nodeA) ∧
    (dijkstra [nodeA, nodeB] [edgeAB1] "A").finalDistances =
      (bellmanFord [nodeA, nodeB] [edgeAB1] "A").finalDistances :=
  ⟨⟨by
      intro e0 he0
      rw [List.mem_singleton.1 he0]
      show (0 : ℚ) ≤ 1
      with_unfolding_all decide,
    by decide⟩,
   claim_C1_theorem [nodeA, nodeB] [edgeAB1] "A" nodeA
     (by
       intro e0 he0
       rw [List.mem_singleton.1 he0]
       show (0 : ℚ) ≤ 1
       with_unfolding_all decide)
     (by decide)⟩

/-! ## The source vertex: distance 0 and singleton path (claim C5) -/

theorem walkD_src {prev : List (String × Option String)} {sourceId : String}
    (hs : getk prev sourceId = some none) :
    walkD prev (wFuel prev) (some sourceId) [] = some [sourceId] := by
  show walkD prev (prev.length + 2) (some sourceId) [] = some [sourceId]
  rw [walkD, hs]
  dsimp only
  rw [walkD]

theorem walkBF_src {prev : List (String × Option String)}
    {sourceId : String} (hs : getk prev sourceId = some none) :
    walkBF prev (wFuel prev) (some sourceId) [] [] = some [sourceId] := by
  show walkBF prev (prev.length + 2) (some sourceId) [] [] = some [sourceId]
  rw [walkBF, if_neg (List.not_mem_nil sourceId), hs]
  rfl

theorem fold_path_getk {f : List (String × List String) → Node →
      List (String × List String)} {sourceId : String}
    {val : List String}
    (ha : ∀ acc n, n.id = sourceId → f acc n = setk acc sourceId val)
    (hb : ∀ acc n, n.id ≠ sourceId →
      getk (f acc n) sourceId = getk acc sourceId) :
    ∀ (ns : List Node) (acc : List (String × List String)),
    ((∃ n ∈ ns, n.id = sourceId) ∨ getk acc sourceId = some val) →
    getk (ns.foldl f acc) sourceId = some val := by
  intro ns
  induction ns with
  | nil =>
    intro acc h
    rcases h with ⟨n, hn, _⟩ | h
    · exact absurd hn (List.not_mem_nil n)
    · exact h
  | cons n ns ih =>
    intro acc h
    rw [List.foldl_cons]
    by_cases hn : n.id = sourceId
    · refine ih _ (Or.inr ?_)
      rw [ha acc n hn, getk_setk_self]
    · rcases h with ⟨n0, hn0, hid0⟩ | h
      · rcases List.mem_cons.1 hn0 with hh | hh
        · exact absurd (hh ▸ hid0) hn
        · exact ih _ (Or.inl ⟨n0, hh, hid0⟩)
      · refine ih _ (Or.inr ?_)
        rw [hb acc n hn]
        exact h

/-- The source-vertex invariant of `dijkstra`'s loop, once the source has
been visited. -/
def SrcP (sourceId : String) (st : DState) : Prop :=
  sourceId ∈ st.visitedList ∧
  getk st.distances sourceId = some (num 0) ∧
  getk st.previousVertices sourceId = some (none : Option String)

theorem dijkstraRelax_srcp {nodes : List Node} {currentId : String}
    {st : DState} (e : Edge) (h : DInv nodes st)
    (hs : SrcP sourceId st) :
    SrcP sourceId (dijkstraRelax nodes currentId st e) := by
  obtain ⟨hsv, hsd, hsp⟩ := hs
  unfold dijkstraRelax
  by_cases hvis : (getk st.visitedVertices e.«to».id).getD false
  · rw [if_pos hvis]
    exact ⟨hsv, hsd, hsp⟩
  · rw [if_neg hvis]
    have htne : e.«to».id ≠ sourceId := by
      intro hh
      refine hvis ?_
      rw [hh]
      exact (h.visited_iff sourceId).2 hsv
    cases hdn : getk st.distances e.«to».id with
    | none => exact ⟨hsv, hsd, hsp⟩
    | some dn =>
      dsimp only
      cases hdc : getk st.distances currentId with
      | none =>
        dsimp only
        by_cases hq : pqHasNode st.queue e.«to».id
        · rw [if_pos hq]
          exact ⟨hsv, hsd, hsp⟩
        · rw [if_neg hq]
          cases hfind : nodes.find? (fun n => n.id == e.«to».id) with
          | none => exact ⟨hsv, hsd, hsp⟩
          | some nb => exact ⟨hsv, hsd, hsp⟩
      | some dc =>
        dsimp only
        by_cases hlt : dc + num e.weight < dn
        · rw [if_pos hlt]
          refine ⟨hsv, ?_, ?_⟩
          · show getk (setk st.distances e.«to».id (dc + num e.weight))
              sourceId = some (num 0)
            rw [getk_setk_of_ne _ _ (fun hh => htne hh.symm)]
            exact hsd
          · show getk (setk st.previousVertices e.«to».id (some currentId))
              sourceId = some (none : Option String)
            rw [getk_setk_of_ne _ _ (fun hh => htne hh.symm)]
            exact hsp
        · rw [if_neg hlt]
          by_cases hq : pqHasNode st.queue e.«to».id
          · rw [if_pos hq]
            exact ⟨hsv, hsd, hsp⟩
          · rw [if_neg hq]
            cases hfind : nodes.find? (fun n => n.id == e.«to».id) with
            | none => exact ⟨hsv, hsd, hsp⟩
            | some nb => exact ⟨hsv, hsd, hsp⟩

theorem dijkstraLoop_srcp {nodes : List Node} {edges : List Edge}
    {sourceId : String} :
    ∀ (fuel : Nat) (st : DState), DInv nodes st → SrcP sourceId st →
    SrcP sourceId (dijkstraLoop nodes edges fuel st) := by
  intro fuel
  induction fuel with
  | zero => exact fun st _ hs => hs
  | succ fuel ih =>
    intro st h hs
    rw [dijkstraLoop]
    cases hqe : st.queue with
    | nil => exact hs
    | cons item rest =>
      dsimp only
      have hrest : ∀ it ∈ rest, it.node ∈ nodes := by
        intro it hit
        refine h.queue_nodes it ?_
        rw [hqe]
        exact List.mem_cons_of_mem _ hit
      by_cases hv : (getk st.visitedVertices item.node.id).getD false
      · rw [if_pos hv]
        exact ih _ (DInv.mk hrest h.vl_nodup h.visited_iff h.dom_prev
          h.dom_dist h.vl_dom h.prev_rank) hs
      · rw [if_neg hv]
        have hcid_dom : nodes.any (fun n => n.id == item.node.id) = true := by
          refine List.any_eq_true.2 ⟨item.node, ?_, by simp⟩
          refine h.queue_nodes item ?_
          rw [hqe]
          exact List.mem_cons_self _ _
        have hcnot : item.node.id ∉ st.visitedList := by
          intro hm
          exact hv ((h.visited_iff _).2 hm)
        have hdisj : st.visitedList.Disjoint [item.node.id] := by
          intro a ha hb
          rw [List.mem_singleton] at hb
          exact hcnot (hb ▸ ha)
        have h2 : DInv nodes
            { steps := st.steps ++
                [{ type := .visit, currentNode := some item.node.id,
                   distances := st.distances,
                   visited := st.visitedList ++ [item.node.id],
                   previous := st.previousVertices }],
              distances := st.distances,
              visitedVertices := setk st.visitedVertices item.node.id true,
              previousVertices := st.previousVertices,
              queue := rest,
              visitedList := st.visitedList ++ [item.node.id] } := by
          refine DInv.mk hrest ?_ ?_ h.dom_prev h.dom_dist ?_ ?_
          · exact h.vl_nodup.append (List.nodup_singleton _) hdisj
          · intro x
            by_cases hx : x = item.node.id
            · subst hx
              rw [getk_setk_self]
              simp
            · rw [getk_setk_of_ne _ _ hx, h.visited_iff x]
              constructor
              · exact fun hm => List.mem_append_left _ hm
              · intro hm
                rcases List.mem_append.1 hm with hm | hm
                · exact hm
                · exact absurd (List.mem_singleton.1 hm) hx
          · intro x hx
            rcases List.mem_append.1 hx with hx | hx
            · exact h.vl_dom x hx
            · rw [List.mem_singleton.1 hx]
              exact hcid_dom
          · intro v u hvu
            obtain ⟨hu_vl, hlt⟩ := h.prev_rank v u hvu
            refine ⟨List.mem_append_left _ hu_vl, ?_⟩
            intro hv_vl
            rcases List.mem_append.1 hv_vl with hvv | hvv
            · rw [rkOf_append_of_mem hu_vl, rkOf_append_of_mem hvv]
              exact hlt hvv
            · rw [List.mem_singleton.1 hvv, rkOf_append_of_mem hu_vl,
                rkOf_append_self hcnot]
              exact rkOf_lt_length hu_vl
        have hs2 : SrcP sourceId
            { steps := st.steps ++
                [{ type := .visit, currentNode := some item.node.id,
                   distances := st.distances,
                   visited := st.visitedList ++ [item.node.id],
                   previous := st.previousVertices }],
              distances := st.distances,
              visitedVertices := setk st.visitedVertices item.node.id true,
              previousVertices := st.previousVertices,
              queue := rest,
              visitedList := st.visitedList ++ [item.node.id] } :=
          ⟨List.mem_append_left _ hs.1, hs.2.1, hs.2.2⟩
        have hfold := foldl_preserve
          (fun s : DState => (DInv nodes s ∧
            s.visitedList = st.visitedList ++ [item.node.id]) ∧
            SrcP sourceId s)
          (dijkstraRelax nodes item.node.id)
          (edges.filter (fun e => e.«from».id == item.node.id))
          _ ⟨⟨h2, rfl⟩, hs2⟩ ?_
        · exact ih _ hfold.1.1 hfold.2
        · intro acc e hacc
          obtain ⟨⟨hi, hveq⟩, hsrcp⟩ := hacc
          have hc : item.node.id ∈ acc.visitedList := by
            rw [hveq]
            exact List.mem_append_right _ (List.mem_singleton.2 rfl)
          obtain ⟨hi2, hveq2⟩ := dijkstraRelax_inv e hi hc
          exact ⟨⟨hi2, hveq2.trans hveq⟩, dijkstraRelax_srcp e hi hsrcp⟩

theorem dijkstraVisit_inv {nodes : List Node} {st : DState} {cid : String}
    (h : DInv nodes st) (hq2 : ∀ it ∈ (q2 : List PQItem), it.node ∈ nodes)
    (hdom : nodes.any (fun n => n.id == cid) = true)
    (hcnot : cid ∉ st.visitedList) (stps : List Step) :
    DInv nodes
      { steps := stps,
        distances := st.distances,
        visitedVertices := setk st.visitedVertices cid true,
        previousVertices := st.previousVertices,
        queue := q2,
        visitedList := st.visitedList ++ [cid] } := by
  have hdisj : st.visitedList.Disjoint [cid] := by
    intro a ha hb
    rw [List.mem_singleton] at hb
    exact hcnot (hb ▸ ha)
  refine DInv.mk hq2 ?_ ?_ h.dom_prev h.dom_dist ?_ ?_
  · exact h.vl_nodup.append (List.nodup_singleton _) hdisj
  · intro x
    by_cases hx : x = cid
    · subst hx
      rw [getk_setk_self]
      simp
    · rw [getk_setk_of_ne _ _ hx, h.visited_iff x]
      constructor
      · exact fun hm => List.mem_append_left _ hm
      · intro hm
        rcases List.mem_append.1 hm with hm | hm
        · exact hm
        · exact absurd (List.mem_singleton.1 hm) hx
  · intro x hx
    rcases List.mem_append.1 hx with hx | hx
    · exact h.vl_dom x hx
    · rw [List.mem_singleton.1 hx]
      exact hdom
  · intro v u hvu
    obtain ⟨hu_vl, hlt⟩ := h.prev_rank v u hvu
    refine ⟨List.mem_append_left _ hu_vl, ?_⟩
    intro hv_vl
    rcases List.mem_append.1 hv_vl with hvv | hvv
    · rw [rkOf_append_of_mem hu_vl, rkOf_append_of_mem hvv]
      exact hlt hvv
    · rw [List.mem_singleton.1 hvv, rkOf_append_of_mem hu_vl,
        rkOf_append_self hcnot]
      exact rkOf_lt_length hu_vl

theorem dijkstraFinal_srcp {nodes : List Node} {edges : List Edge}
    {sourceId : String} {sourceNode : Node}
    (hfind : nodes.find? (fun n => n.id == sourceId) = some sourceNode) :
    SrcP sourceId (dijkstraFinalState nodes edges sourceId sourceNode) := by
  have hsrc : nodes.any (fun n => n.id == sourceId) = true := by
    refine List.any_eq_true.2 ⟨sourceNode, List.mem_of_find?_eq_some hfind, ?_⟩
    have hp := List.find?_some hfind
    simpa using hp
  have hsid : sourceNode.id = sourceId := by
    have hp := List.find?_some hfind
    simpa using hp
  have hs0d : getk (dijkstraSt0 nodes sourceId sourceNode).distances
      sourceId = some (num 0) := by
    simp only [dijkstraSt0]
    rw [dijkstraInitDistances_getk nodes sourceId sourceId hsrc, hsrc]
    simp
  have hs0p : getk (dijkstraSt0 nodes sourceId sourceNode).previousVertices
      sourceId = some (none : Option String) := by
    simp only [dijkstraSt0]
    rw [initPrevious_getk, if_pos hsrc]
  have hqueue : (dijkstraSt0 nodes sourceId sourceNode).queue =
      [PQItem.mk sourceNode ((getk (dijkstraInitDistances nodes sourceId)
        sourceId).getD (num 0))] := by
    simp only [dijkstraSt0]
    exact pqAdd_nil _ _
  have hv : (getk (dijkstraSt0 nodes sourceId
      sourceNode).visitedVertices sourceNode.id).getD false = false := by
    simp only [dijkstraSt0]
    rw [initVisited_getk]
    rw [hsid, hsrc]
    rfl
  have hst0inv := dijkstraSt0_inv nodes sourceId sourceNode hfind
  obtain ⟨fuel, hfuel⟩ : ∃ f, dijkstraFuel nodes edges = f + 1 := by
    have hpos : 0 < dijkstraFuel nodes edges := by
      unfold dijkstraFuel
      exact Nat.mul_pos (Nat.succ_pos _) (Nat.succ_pos _)
    exact ⟨dijkstraFuel nodes edges - 1, by omega⟩
  unfold dijkstraFinalState
  rw [hfuel, dijkstraLoop, hqueue]
  dsimp only
  rw [hv]
  simp only [Bool.false_eq_true, if_false]
  set st2 : DState :=
    { steps := (dijkstraSt0 nodes sourceId sourceNode).steps ++
        [{ type := .visit, currentNode := some sourceNode.id,
           distances := (dijkstraSt0 nodes sourceId sourceNode).distances,
           visited := (dijkstraSt0 nodes sourceId
             sourceNode).visitedList ++ [sourceNode.id],
           previous := (dijkstraSt0 nodes sourceId
             sourceNode).previousVertices }],
      distances := (dijkstraSt0 nodes sourceId sourceNode).distances,
      visitedVertices := setk (dijkstraSt0 nodes sourceId
        sourceNode).visitedVertices sourceNode.id true,
      previousVertices := (dijkstraSt0 nodes sourceId
        sourceNode).previousVertices,
      queue := [],
      visitedList := (dijkstraSt0 nodes sourceId
        sourceNode).visitedList ++ [sourceNode.id] } with hst2
  have hinv2 : DInv nodes st2 := by
    rw [hst2]
    refine dijkstraVisit_inv hst0inv ?_ ?_ ?_ _
    · intro it hit
      cases hit
    · rw [hsid]
      exact hsrc
    · simp only [dijkstraSt0]
      exact List.not_mem_nil _
  have hsrcp2 : SrcP sourceId st2 := by
    refine ⟨?_, hs0d, hs0p⟩
    rw [hst2]
    show sourceId ∈ (dijkstraSt0 nodes sourceId sourceNode).visitedList ++
      [sourceNode.id]
    rw [hsid]
    exact List.mem_append_right _ (List.mem_singleton.2 rfl)
  have hfold := foldl_preserve
    (fun s : DState => DInv nodes s ∧ SrcP sourceId s)
    (dijkstraRelax nodes sourceNode.id)
    (edges.filter (fun e => e.«from».id == sourceNode.id))
    st2 ⟨hinv2, hsrcp2⟩ ?_
  · exact dijkstraLoop_srcp fuel _ hfold.1 hfold.2
  · intro acc e hacc
    exact ⟨(dijkstraRelax_inv e hacc.1 (by
        rw [hsid]
        exact hacc.2.1)).1,
      dijkstraRelax_srcp e hacc.1 hacc.2⟩

theorem bf_src_zero {nodes : List Node} {edges : List Edge}
    {sourceId : String} (hw : ∀ e0 ∈ edges, 0 ≤ e0.weight)
    (hsrc : nodes.any (fun n => n.id == sourceId) = true) :
    getk (bfFinalState nodes edges sourceId).distances sourceId =
      some (num 0) ∧
    getk (bfFinalState nodes edges sourceId).previous sourceId =
      some (none : Option String) := by
  obtain ⟨hp, hall⟩ := bfAfterPasses_pack hw hsrc
  obtain ⟨hd, hpv⟩ := bfFinalState_eq hw hsrc
  rw [hd, hpv]
  refine ⟨?_, hp.prev_src⟩
  obtain ⟨dv, hdv, hdvle⟩ := hall [] sourceId (Chain.nil sourceId)
  rw [chainW_nil] at hdvle
  obtain ⟨q, hq, hqle⟩ : ∃ p, dv = num p ∧ p ≤ 0 := by
    rcases le_num_cases hdvle with hh | hh
    · exact absurd (hh ▸ hdv) (hp.fin _)
    · exact hh
  subst hq
  obtain ⟨es, hch, hwes⟩ := hp.sound sourceId q hdv
  have hq0 : 0 ≤ q := by
    rw [← hwes]
    exact chainW_nonneg (effEdges_nonneg hw) hch
  have hqeq : q = 0 := le_antisymm hqle hq0
  rw [hqeq] at hdv
  exact hdv

theorem bfPathStep_src {st3 : BFState} {sourceId : String}
    (hd : getk st3.distances sourceId = some (num 0))
    (hp : getk st3.previous sourceId = some (none : Option String)) :
    ∀ acc n, n.id = sourceId →
      bfPathStep st3 sourceId acc n = setk acc sourceId [sourceId] := by
  intro acc n hn
  unfold bfPathStep
  rw [hn, hd]
  dsimp only
  rw [if_neg (by
    rintro (hh | hh)
    · exact num_ne_ninf 0 hh
    · exact num_ne_inf 0 hh)]
  rw [walkBF_src hp]
  dsimp only
  rw [if_pos ⟨List.cons_ne_nil _ _, rfl⟩]

theorem bfPathStep_other (st3 : BFState) (sourceId : String) :
    ∀ acc n, n.id ≠ sourceId →
      getk (bfPathStep st3 sourceId acc n) sourceId =
        getk acc sourceId := by
  intro acc n hn
  unfold bfPathStep
  cases hdv : getk st3.distances n.id with
  | none => rfl
  | some dv =>
    dsimp only
    by_cases hii : dv = ninf ∨ dv = inf
    · rw [if_pos hii]
    · rw [if_neg hii]
      cases hwk : walkBF st3.previous (wFuel st3.previous)
          (some n.id) [] [] with
      | none => rfl
      | some path =>
        dsimp only
        by_cases hcond : path ≠ [] ∧ path.head? = some sourceId
        · rw [if_pos hcond]
          exact getk_setk_of_ne _ _ (fun hh => hn hh.symm)
        · rw [if_neg hcond]

theorem dijkstraPathStep_src {prev : List (String × Option String)}
    {sourceId : String}
    (hp : getk prev sourceId = some (none : Option String)) :
    ∀ acc n, n.id = sourceId →
      dijkstraPathStep prev sourceId acc n = setk acc sourceId [sourceId]
    := by
  intro acc n hn
  unfold dijkstraPathStep
  rw [hn, walkD_src hp]
  dsimp only
  rw [if_pos (show ([sourceId].head? = some sourceId) from rfl)]

theorem dijkstraPathStep_other (prev : List (String × Option String))
    (sourceId : String) :
    ∀ acc n, n.id ≠ sourceId →
      getk (dijkstraPathStep prev sourceId acc n) sourceId =
        getk acc sourceId := by
  intro acc n hn
  unfold dijkstraPathStep
  cases hwk : walkD prev (wFuel prev) (some n.id) [] with
  | none => rfl
  | some path =>
    dsimp only
    by_cases hcond : path.head? = some sourceId
    · rw [if_pos hcond]
      exact getk_setk_of_ne _ _ (fun hh => hn hh.symm)
    · rw [if_neg hcond]

/-! ## The first-vertex row of `floydWarshall` (claim C5) -/

theorem mshape_row {α : Type} {n : Nat} {m : List (List α)}
    (h : MShape n m) {i : Nat} (hi : i < n) : (m.getD i []).length = n := by
  obtain ⟨h1, h2⟩ := h
  have hlt : i < m.length := by omega
  rw [List.getD_eq_getElem _ _ hlt]
  exact h2 _ (List.getElem_mem hlt)

theorem mget_oob {n : Nat} {m : List (List ENum)} (h : MShape n m)
    {i j : Nat} (hij : n ≤ i ∨ n ≤ j) : mget m inf i j = inf := by
  by_cases hi : i < n
  · have hj : n ≤ j := by
      rcases hij with hh | hh
      · omega
      · exact hh
    have hlen : (m.getD i []).length ≤ j := by
      rw [mshape_row h hi]
      omega
    unfold mget
    rw [List.getD_eq_getElem?_getD (m.getD i []) j inf,
      List.getElem?_eq_none hlen]
    rfl
  · have hge : m.length ≤ i := by
      rw [h.1]
      omega
    have hrow0 : m.getD i [] = [] := by
      rw [List.getD_eq_getElem?_getD m i [], List.getElem?_eq_none hge]
      rfl
    unfold mget
    rw [hrow0]
    rfl

theorem mget_mset_cases {α : Type} (m : List (List α)) (d : α)
    (i j i' j' : Nat) (v : α) :
    mget (mset m i' j' v) d i j = v ∨
    mget (mset m i' j' v) d i j = mget m d i j := by
  by_cases hne : i ≠ i' ∨ j ≠ j'
  · exact Or.inr (mget_mset_ne m d v hne)
  · push_neg at hne
    obtain ⟨hi, hj⟩ := hne
    subst hi
    subst hj
    by_cases hib : i < m.length
    · by_cases hjb : j < (m.getD i []).length
      · exact Or.inl (mget_mset_self m d v hib hjb)
      · refine Or.inr ?_
        unfold mget mset
        rw [getD_set_self _ _ _ _ hib, List.set_eq_of_length_le (by omega)]
    · refine Or.inr ?_
      unfold mset
      rw [List.set_eq_of_length_le (by omega)]

theorem diagFold_cell {n : Nat} :
    ∀ (l : List Nat) (m : List (List ENum)), MShape n m →
    ∀ {i j : Nat}, i < n → j < n →
    mget (l.foldl (fun acc x => mset acc x x (num 0)) m) inf i j =
      if i = j ∧ i ∈ l then num 0 else mget m inf i j := by
  intro l
  induction l with
  | nil =>
    intro m _ i j _ _
    simp
  | cons a l ih =>
    intro m hsh i j hi hj
    rw [List.foldl_cons, ih _ (mshape_mset a a _ hsh) hi hj]
    by_cases hij : i = j ∧ i ∈ a :: l
    · rw [if_pos hij]
      rcases List.mem_cons.1 hij.2 with hh | hh
      · by_cases hl : i ∈ l
        · rw [if_pos ⟨hij.1, hl⟩]
        · rw [if_neg (fun hc => hl hc.2)]
          subst hh
          have hjeq : j = i := hij.1.symm
          subst hjeq
          refine mget_mset_self m inf (num 0) ?_ ?_
          · rw [hsh.1]
            exact hi
          · rw [mshape_row hsh hi]
            exact hi
      · rw [if_pos ⟨hij.1, hh⟩]
    · rw [if_neg hij]
      have hcond : ¬(i = j ∧ i ∈ l) := fun hc =>
        hij ⟨hc.1, List.mem_cons_of_mem _ hc.2⟩
      rw [if_neg hcond]
      refine mget_mset_ne m inf (num 0) ?_
      by_cases hia : i = a
      · refine Or.inr ?_
        intro hja
        exact hij ⟨by rw [hia, hja], by rw [hia]; exact List.mem_cons_self _ _⟩
      · exact Or.inl hia

theorem fwDistBase_cell {n i j : Nat} (hi : i < n) (hj : j < n) :
    mget (fwDistBase n) inf i j = if i = j then num 0 else inf := by
  unfold fwDistBase
  rw [diagFold_cell _ _ (mshape_replicate n inf) hi hj]
  have hbase : mget (List.replicate n (List.replicate n inf)) inf i j =
      inf := by
    have h1 : (List.replicate n (List.replicate n inf)).getD i [] =
        List.replicate n inf := by
      rw [List.getD_eq_getElem _ _ (by simpa using hi)]
      exact List.getElem_replicate _ _
    unfold mget
    rw [h1, List.getD_eq_getElem _ _ (by simpa using hj)]
    exact List.getElem_replicate _ _
  rw [hbase]
  by_cases hij : i = j
  · rw [if_pos hij, if_pos ⟨hij, List.mem_range.2 hi⟩]
  · rw [if_neg hij, if_neg (fun hc => hij hc.1)]

theorem indexOf?_zero_iff {x a : String} {t : List String} :
    (x :: t).indexOf? a = some 0 ↔ x = a := by
  constructor
  · intro h
    obtain ⟨-, h2⟩ := indexOf?_spec h
    simpa using h2
  · intro h
    show List.findIdx? (fun y => y == a) (x :: t) = some 0
    rw [List.findIdx?_cons, if_pos ((beq_iff_eq).2 h)]

theorem fwInit_foldl_none2 (nodeIds : List String) :
    ∀ (es : List Edge),
    es.foldl (fwInitStep nodeIds) none = none := by
  intro es
  induction es with
  | nil => rfl
  | cons e es ih =>
    rw [List.foldl_cons]
    exact ih

theorem fwInitEdges_cell_none {nodeIds : List String} {i j : Nat} :
    ∀ (edges : List Edge) (d0 : List (List ENum))
    (nx0 : List (List (Option Nat)))
    (res : List (List ENum) × List (List (Option Nat))),
    fwInitEdges nodeIds edges d0 nx0 = some res →
    (∀ e ∈ edges, ¬(nodeIds.indexOf? e.«from».id = some i ∧
      nodeIds.indexOf? e.«to».id = some j)) →
    mget res.1 inf i j = mget d0 inf i j := by
  intro edges
  induction edges with
  | nil =>
    intro d0 nx0 res hres _
    have : (d0, nx0) = res := Option.some.inj hres
    rw [← this]
  | cons e es ih =>
    intro d0 nx0 res hres hno
    unfold fwInitEdges at hres
    rw [List.foldl_cons] at hres
    show mget res.1 inf i j = mget d0 inf i j
    cases hfi : nodeIds.indexOf? e.«from».id with
    | none =>
      rw [show fwInitStep nodeIds (some (d0, nx0)) e = none by
        unfold fwInitStep
        rw [hfi]] at hres
      rw [fwInit_foldl_none2] at hres
      cases hres
    | some i' =>
      cases hti : nodeIds.indexOf? e.«to».id with
      | none =>
        rw [show fwInitStep nodeIds (some (d0, nx0)) e = some (d0, nx0) by
          unfold fwInitStep
          rw [hfi, hti]] at hres
        exact ih d0 nx0 res hres
          (fun e0 he0 => hno e0 (List.mem_cons_of_mem _ he0))
      | some j' =>
        rw [show fwInitStep nodeIds (some (d0, nx0)) e =
            some (mset d0 i' j' (num e.weight), mset nx0 i' j' (some j')) by
          unfold fwInitStep
          rw [hfi, hti]] at hres
        have hne : i ≠ i' ∨ j ≠ j' := by
          by_contra hc
          push_neg at hc
          refine hno e (List.mem_cons_self _ _) ?_
          rw [hc.1, hc.2]
          exact ⟨hfi, hti⟩
        have := ih _ _ res hres
          (fun e0 he0 => hno e0 (List.mem_cons_of_mem _ he0))
        rw [this, mget_mset_ne _ _ _ hne]

theorem not_num_le_ninf (q : ℚ) : ¬(num q ≤ ninf) := by
  intro h
  have h2 : num q = ninf := le_antisymm h bot_le
  exact num_ne_ninf q h2

theorem num_add_inf (q : ℚ) : num q + inf = inf := by
  unfold inf num
  norm_cast

theorem inf_add_inf : inf + inf = inf := by
  unfold inf
  norm_cast

theorem enum_add_nonneg {a b : ENum} (ha : num 0 ≤ a) (hb : num 0 ≤ b) :
    num 0 ≤ a + b := by
  rcases enum_cases a with h | h | ⟨qa, h⟩
  · exact absurd (h ▸ ha) (not_num_le_ninf 0)
  · subst h
    rcases enum_cases b with h2 | h2 | ⟨qb, h2⟩
    · exact absurd (h2 ▸ hb) (not_num_le_ninf 0)
    · rw [h2, inf_add_inf]
      exact enum_le_inf _
    · rw [h2, inf_add_num]
      exact enum_le_inf _
  · subst h
    rcases enum_cases b with h2 | h2 | ⟨qb, h2⟩
    · exact absurd (h2 ▸ hb) (not_num_le_ninf 0)
    · rw [h2, num_add_inf]
      exact enum_le_inf _
    · rw [h2, num_add]
      rw [h2] at hb
      rw [num_le_num] at ha hb ⊢
      linarith

theorem foldl_preserve_mem {α β : Type} (P : α → Prop) (f : α → β → α) :
    ∀ (l : List β) (a : α), P a →
    (∀ acc x, x ∈ l → P acc → P (f acc x)) → P (l.foldl f a) := by
  intro l
  induction l with
  | nil => exact fun a h _ => h
  | cons x l ih =>
    intro a h step
    rw [List.foldl_cons]
    exact ih _ (step a x (List.mem_cons_self _ _) h)
      (fun acc y hy hacc => step acc y (List.mem_cons_of_mem _ hy) hacc)

/-- The Floyd–Warshall loop invariant under non-negative weights: square
shape, all entries at least `0`, and an exact `0` in the top-left cell. -/
def FWQ (n : Nat) (st : FWState) : Prop :=
  MShape n st.dist ∧ (∀ i j, num 0 ≤ mget st.dist inf i j) ∧
  mget st.dist inf 0 0 = num 0

theorem fwInner_q {n : Nat} (nodeIds : List String) (k i j : Nat)
    (hi : i < n) (hj : j < n) {st : FWState} (h : FWQ n st) :
    FWQ n (fwInner nodeIds k i st j) := by
  obtain ⟨hsh, hnn, h00⟩ := h
  unfold fwInner
  by_cases hc : mget st.dist inf i k + mget st.dist inf k j <
      mget st.dist inf i j
  · rw [if_pos hc]
    have hvnn : num 0 ≤ mget st.dist inf i k + mget st.dist inf k j :=
      enum_add_nonneg (hnn i k) (hnn k j)
    have hne00 : i ≠ 0 ∨ j ≠ 0 := by
      by_contra hcc
      push_neg at hcc
      obtain ⟨hi0, hj0⟩ := hcc
      subst hi0
      subst hj0
      rw [h00] at hc
      exact absurd hc (not_lt.2 hvnn)
    refine ⟨mshape_mset i j _ hsh, ?_, ?_⟩
    · intro i' j'
      rcases mget_mset_cases st.dist inf i' j' i j
        (mget st.dist inf i k + mget st.dist inf k j) with hh | hh
      · rw [hh]
        exact hvnn
      · rw [hh]
        exact hnn i' j'
    · show mget (mset st.dist i j _) inf 0 0 = num 0
      rw [mget_mset_ne _ _ _ (by
        rcases hne00 with hh | hh
        · exact Or.inl (fun he => hh he.symm)
        · exact Or.inr (fun he => hh he.symm))]
      exact h00
  · rw [if_neg hc]
    exact ⟨hsh, hnn, h00⟩

theorem fwLoop_q {n : Nat} (nodeIds : List String) {st : FWState}
    (h : FWQ n st) : FWQ n (fwLoop nodeIds n st) := by
  unfold fwLoop
  refine foldl_preserve _ _ _ _ h (fun acc k hacc => ?_)
  unfold fwKStep
  refine foldl_preserve_mem _ _ _ _ hacc (fun acc2 i hi hacc2 => ?_)
  unfold fwJLoop
  refine foldl_preserve_mem _ _ _ _ hacc2 (fun acc3 j hj hacc3 => ?_)
  exact fwInner_q nodeIds k i j (List.mem_range.1 hi) (List.mem_range.1 hj)
    hacc3

theorem enumFold_preserve (dist : List (List ENum)) (key : String) :
    ∀ (l : List (Nat × Node)) (acc : List (String × ENum)),
    (∀ p ∈ l, p.2.id ≠ key) →
    getk (l.foldl (fwFinalStep dist) acc) key = getk acc key := by
  intro l
  induction l with
  | nil => exact fun acc _ => rfl
  | cons p l ih =>
    intro acc hl
    rw [List.foldl_cons, ih _ (fun p0 hp0 => hl p0 (List.mem_cons_of_mem _
      hp0))]
    unfold fwFinalStep
    exact getk_setk_of_ne _ _ (fun hh =>
      hl p (List.mem_cons_self _ _) hh.symm)

theorem enumFold_first {dist : List (List ENum)} {first : Node}
    {rest : List Node} (hdup : ∀ nd ∈ rest, nd.id ≠ first.id) :
    getk ((first :: rest).enum.foldl (fwFinalStep dist) []) first.id =
      some (mget dist inf 0 0) := by
  rw [List.enum_cons, List.foldl_cons]
  rw [enumFold_preserve dist first.id _ _ ?_]
  · show getk (setk [] first.id (mget dist inf 0 0)) first.id = _
    rw [getk_setk_self]
  · intro p hp
    refine hdup p.2 ?_
    have := List.enumFrom_map_snd 1 rest
    rw [← this]
    exact List.mem_map.2 ⟨p, hp, rfl⟩

theorem fwDistBase_nonneg (n : Nat) :
    ∀ i j, num 0 ≤ mget (fwDistBase n) inf i j := by
  intro i j
  by_cases hi : i < n
  · by_cases hj : j < n
    · rw [fwDistBase_cell hi hj]
      by_cases hij : i = j
      · rw [if_pos hij]
      · rw [if_neg hij]
        exact enum_le_inf _
    · rw [mget_oob (mshape_fwDistBase n) (Or.inr (by omega))]
      exact enum_le_inf _
  · rw [mget_oob (mshape_fwDistBase n) (Or.inl (by omega))]
    exact enum_le_inf _

theorem fwInitEdges_nonneg {nodeIds : List String} :
    ∀ (edges : List Edge) (d0 : List (List ENum))
    (nx0 : List (List (Option Nat)))
    (res : List (List ENum) × List (List (Option Nat))),
    fwInitEdges nodeIds edges d0 nx0 = some res →
    (∀ e ∈ edges, 0 ≤ e.weight) →
    (∀ i j, num 0 ≤ mget d0 inf i j) →
    ∀ i j, num 0 ≤ mget res.1 inf i j := by
  intro edges
  induction edges with
  | nil =>
    intro d0 nx0 res hres _ h0
    have : (d0, nx0) = res := Option.some.inj hres
    rw [← this]
    exact h0
  | cons e es ih =>
    intro d0 nx0 res hres hw h0
    unfold fwInitEdges at hres
    rw [List.foldl_cons] at hres
    cases hfi : nodeIds.indexOf? e.«from».id with
    | none =>
      rw [show fwInitStep nodeIds (some (d0, nx0)) e = none by
        unfold fwInitStep
        rw [hfi]] at hres
      rw [fwInit_foldl_none2] at hres
      cases hres
    | some i' =>
      cases hti : nodeIds.indexOf? e.«to».id with
      | none =>
        rw [show fwInitStep nodeIds (some (d0, nx0)) e = some (d0, nx0) by
          unfold fwInitStep
          rw [hfi, hti]] at hres
        exact ih d0 nx0 res hres
          (fun e0 he0 => hw e0 (List.mem_cons_of_mem _ he0)) h0
      | some j' =>
        rw [show fwInitStep nodeIds (some (d0, nx0)) e =
            some (mset d0 i' j' (num e.weight), mset nx0 i' j' (some j')) by
          unfold fwInitStep
          rw [hfi, hti]] at hres
        refine ih _ _ res hres
          (fun e0 he0 => hw e0 (List.mem_cons_of_mem _ he0)) ?_
        intro i j
        rcases mget_mset_cases d0 inf i j i' j' (num e.weight) with hh | hh
        · rw [hh, num_le_num]
          exact hw e (List.mem_cons_self _ _)
        · rw [hh]
          exact h0 i j

theorem fw_first {first : Node} {rest : List Node} {edges : List Edge}
    (hw : ∀ e0 ∈ edges, 0 ≤ e0.weight)
    (hself : ∀ e ∈ edges,
      ¬(e.«from».id = first.id ∧ e.«to».id = first.id))
    (hdup : ∀ nd ∈ rest, nd.id ≠ first.id) :
    ∀ res, floydWarshall (first :: rest) edges = some res →
      getk res.finalDistances first.id = some (num 0) ∧
      getk res.shortestPaths first.id = some [first.id, first.id] := by
  intro res hres
  cases hmat : fwMatrices (first :: rest) edges with
  | none =>
    unfold floydWarshall at hres
    rw [hmat] at hres
    cases hres
  | some dn =>
    rw [floydWarshall_some hmat] at hres
    have hres2 := (Option.some.inj hres).symm
    subst hres2
    have hn : (first :: rest).length = rest.length + 1 := rfl
    have hnpos : 0 < (first :: rest).length := by
      rw [hn]
      omega
    have hshape : MShape (first :: rest).length dn.1 := by
      refine mshape_fwInitEdges hmat ?_
      have h1 := mshape_fwDistBase (first :: rest).length
      simpa using h1
    have hmat2 : fwInitEdges ((first :: rest).map (fun nd => nd.id)) edges
        (fwDistBase (first :: rest).length)
        (List.replicate (first :: rest).length
          (List.replicate (first :: rest).length none)) = some dn := hmat
    have h00init : mget dn.1 inf 0 0 = num 0 := by
      rw [fwInitEdges_cell_none edges _ _ dn hmat2 ?_]
      · rw [fwDistBase_cell hnpos hnpos, if_pos rfl]
      · intro e he hc
        have hids : (first :: rest).map (fun nd => nd.id) =
            first.id :: rest.map (fun nd => nd.id) := rfl
        rw [hids] at hc
        refine hself e he ⟨?_, ?_⟩
        · exact (indexOf?_zero_iff.1 hc.1).symm
        · exact (indexOf?_zero_iff.1 hc.2).symm
    have hnn : ∀ i j, num 0 ≤ mget dn.1 inf i j :=
      fwInitEdges_nonneg edges _ _ dn hmat2 hw
        (fwDistBase_nonneg (first :: rest).length)
    have hq0 : FWQ (first :: rest).length (fwSt0 (first :: rest) dn) :=
      ⟨hshape, hnn, h00init⟩
    have hqF := fwLoop_q ((first :: rest).map (fun nd => nd.id)) hq0
    have h00F : mget (fwFinalSt (first :: rest) dn).dist inf 0 0 = num 0 :=
      hqF.2.2
    constructor
    · show getk (if (first :: rest).length > 0 then
        (first :: rest).enum.foldl
          (fwFinalStep (fwFinalSt (first :: rest) dn).dist) []
        else []) first.id = some (num 0)
      rw [if_pos hnpos, enumFold_first hdup, h00F]
    · show getk (if (first :: rest).length > 0 then
        (first :: rest).foldl
          (fwPathStep ((first :: rest).map (fun nd => nd.id))) []
        else []) first.id = some [first.id, first.id]
      rw [if_pos hnpos]
      refine fold_path_getk ?_ ?_ (first :: rest) []
        (Or.inl ⟨first, List.mem_cons_self _ _, rfl⟩)
      · intro acc nd hnd
        unfold fwPathStep
        rw [hnd]
        rfl
      · intro acc nd hnd
        unfold fwPathStep
        exact getk_setk_of_ne _ _ (fun hh => hnd hh.symm)

theorem dijkstra_shortestPaths {nodes : List Node} {edges : List Edge}
    {sourceId : String} {sourceNode : Node}
    (hfind : nodes.find? (fun n => n.id == sourceId) = some sourceNode) :
    (dijkstra nodes edges sourceId).shortestPaths =
      nodes.foldl (dijkstraPathStep
        (dijkstraFinalState nodes edges sourceId
          sourceNode).previousVertices sourceId) [] := by
  unfold dijkstra
  rw [hfind]

/-- Claim C5 theorem (corrected), with each algorithm's guarantee under
its own hypotheses: over any graph whose source id occurs among the
vertices, `dijkstra` gives the source distance `0` and the one-element
path for arbitrary weights; `bellmanFord` does the same as soon as the
weights are non-negative; `floydWarshall` (whose reference vertex is the
first of the list) gives the reference vertex distance `0` when weights
are non-negative, no edge is a self-loop on the first vertex's id, and
the first vertex's id is not repeated — but its reconstructed path is the
two-element sequence `[first, first]`, not `[first]`. -/
theorem claim_C5_theorem (first : Node) (rest : List Node)
    (edges : List Edge) (sourceId : String) (sourceNode : Node)
    (hfind : (first :: rest).find? (fun n => n.id == sourceId) =
      some sourceNode) :
    (getk (dijkstra (first :: rest) edges sourceId).finalDistances
        sourceId = some (num 0) ∧
      getk (dijkstra (first :: rest) edges sourceId).shortestPaths
        sourceId = some [sourceId]) ∧
    ((∀ e0 ∈ edges, 0 ≤ e0.weight) →
      getk (bellmanFord (first :: rest) edges sourceId).finalDistances
        sourceId = some (num 0) ∧
      getk (bellmanFord (first :: rest) edges sourceId).shortestPaths
        sourceId = some [sourceId]) ∧
    ((∀ e0 ∈ edges, 0 ≤ e0.weight) →
      (∀ e ∈ edges, ¬(e.«from».id = first.id ∧ e.«to».id = first.id)) →
      (∀ nd ∈ rest, nd.id ≠ first.id) →
      ∀ res, floydWarshall (first :: rest) edges = some res →
        getk res.finalDistances first.id = some (num 0) ∧
        getk res.shortestPaths first.id = some [first.id, first.id]) := by
  have hsrc : (first :: rest).any (fun n => n.id == sourceId) = true := by
    refine List.any_eq_true.2 ⟨sourceNode, List.mem_of_find?_eq_some hfind,
      ?_⟩
    have hp := List.find?_some hfind
    simpa using hp
  have hsid : sourceNode.id = sourceId := by
    have hp := List.find?_some hfind
    simpa using hp
  have hsrcp := @dijkstraFinal_srcp (first :: rest) edges sourceId
    sourceNode hfind
  refine ⟨⟨?_, ?_⟩, fun hw => ⟨?_, ?_⟩,
    fun hw hself hdup => fw_first hw hself hdup⟩
  · rw [dijkstra_finalDistances hfind]
    exact hsrcp.2.1
  · rw [dijkstra_shortestPaths hfind]
    refine fold_path_getk (dijkstraPathStep_src hsrcp.2.2)
      (dijkstraPathStep_other _ _) _ []
      (Or.inl ⟨sourceNode, List.mem_of_find?_eq_some hfind, hsid⟩)
  · rw [bf_finalDistances]
    exact (bf_src_zero hw hsrc).1
  · show getk ((first :: rest).foldl (bfPathStep
      (bfFinalState (first :: rest) edges sourceId) sourceId) [])
      sourceId = some [sourceId]
    obtain ⟨hd0, hp0⟩ := bf_src_zero hw hsrc
    refine fold_path_getk (bfPathStep_src hd0 hp0)
      (bfPathStep_other _ _) _ []
      (Or.inl ⟨sourceNode, List.mem_of_find?_eq_some hfind, hsid⟩)

/-- The negative-cycle-through-the-source graph for the C5 counterexample. -/
def c5edges : List Edge := [⟨nodeA, nodeB, 1⟩, ⟨nodeB, nodeA, -3⟩]

/-- Counterexample to the original C5: `floydWarshall` reconstructs the
reference vertex's path as the two-element `[A, A]`, not `[A]`, and a
negative cycle through the source makes `bellmanFord` report `-Infinity`
rather than `0` for the source itself. -/
theorem claim_C5_counterexample :
    (floydWarshall [nodeA] []).map
      (fun r => getk r.shortestPaths "A") = some (some ["A", "A"]) ∧
    some ["A", "A"] ≠ some ["A"] ∧
    getk (bellmanFord [nodeA, nodeB] c5edges "A").finalDistances "A" =
      some ninf ∧
    some ninf ≠ some (num 0) := by
  refine ⟨by with_unfolding_all rfl, by decide, ?_, ?_⟩
  · with_unfolding_all rfl
  · intro hh
    exact num_ne_ninf 0 (Option.some.inj hh).symm

/-- Witness for C5 on the two-vertex graph `A→B (weight 1)`. -/
theorem claim_C5_witness :
    ([nodeA, nodeB].find? (fun n => n.id == "A") = some nodeA) ∧
    ((getk (dijkstra [nodeA, nodeB] [edgeAB1] "A").finalDistances "A" =
        some (num 0) ∧
      getk (dijkstra [nodeA, nodeB] [edgeAB1] "A").shortestPaths "A" =
        some ["A"]) ∧
    ((∀ e0 ∈ [edgeAB1], 0 ≤ e0.weight) →
      getk (bellmanFord [nodeA, nodeB] [edgeAB1] "A").finalDistances "A" =
        some (num 0) ∧
      getk (bellmanFord [nodeA, nodeB] [edgeAB1] "A").shortestPaths "A" =
        some ["A"]) ∧
    ((∀ e0 ∈ [edgeAB1], 0 ≤ e0.weight) →
      (∀ e ∈ [edgeAB1],
        ¬(e.«from».id = nodeA.id ∧ e.«to».id = nodeA.id)) →
      (∀ nd ∈ [nodeB], nd.id ≠ nodeA.id) →
      ∀ res, floydWarshall [nodeA, nodeB] [edgeAB1] = some res →
        getk res.finalDistances nodeA.id = some (num 0) ∧
        getk res.shortestPaths nodeA.id = some [nodeA.id, nodeA.id])) :=
  ⟨by decide,
   claim_C5_theorem nodeA [nodeB] [edgeAB1] "A" nodeA (by decide)⟩


/-! ## C6: index-level walks over the Floyd–Warshall matrices -/

/-- An index-level edge read off a distance matrix: a finite cell. -/
structure NEdge where
  a : Nat
  b : Nat
  w : ℚ
deriving Repr, DecidableEq

/-- The total weight of an index walk. -/
def nchainW (es : List NEdge) : ℚ := (es.map NEdge.w).sum

/-- Walks between matrix indices over a list of index edges. -/
inductive NChain (E : List NEdge) : Nat → List NEdge → Nat → Prop
  | nil (a : Nat) : NChain E a [] a
  | cons {a b : Nat} {e : NEdge} {es : List NEdge} (he : e ∈ E)
      (hfrom : e.a = a) (hrest : NChain E e.b es b) :
      NChain E a (e :: es) b

theorem nchainW_nil : nchainW [] = 0 := rfl

theorem nchainW_cons (e : NEdge) (es : List NEdge) :
    nchainW (e :: es) = e.w + nchainW es := by
  unfold nchainW
  rw [List.map_cons, List.sum_cons]

theorem nchainW_append (l1 l2 : List NEdge) :
    nchainW (l1 ++ l2) = nchainW l1 + nchainW l2 := by
  unfold nchainW
  rw [List.map_append, List.sum_append]

theorem nchain_append {E : List NEdge} {a c b : Nat}
    {l1 l2 : List NEdge} (h1 : NChain E a l1 c) (h2 : NChain E c l2 b) :
    NChain E a (l1 ++ l2) b := by
  induction h1 with
  | nil => exact h2
  | cons he hfrom hrest ih => exact NChain.cons he hfrom (ih h2)

theorem nchain_split {E : List NEdge} {a b : Nat} {l1 l2 : List NEdge}
    (h : NChain E a (l1 ++ l2) b) :
    ∃ c, NChain E a l1 c ∧ NChain E c l2 b := by
  induction l1 generalizing a with
  | nil => exact ⟨a, NChain.nil a, h⟩
  | cons e l1 ih =>
    cases h with
    | cons he hfrom hrest =>
      obtain ⟨c, hc1, hc2⟩ := ih hrest
      exact ⟨c, NChain.cons he hfrom hc1, hc2⟩

theorem nchainW_nonneg {E : List NEdge} (hw : ∀ e ∈ E, 0 ≤ e.w) :
    ∀ {a b : Nat} {es : List NEdge}, NChain E a es b → 0 ≤ nchainW es := by
  intro a b es h
  induction h with
  | nil => exact le_of_eq nchainW_nil.symm
  | cons he hfrom hrest ih =>
    rw [nchainW_cons]
    have := hw _ he
    linarith

/-- Extract the finite value of a JS number, if any. -/
def toQ (v : ENum) : Option ℚ :=
  match v with
  | some (some q) => some q
  | _ => none

theorem num_inj {a b : ℚ} (h : num a = num b) : a = b := by
  unfold num at h
  exact_mod_cast h

theorem toQ_num (q : ℚ) : toQ (num q) = some q := rfl

theorem toQ_inf : toQ inf = none := rfl

theorem toQ_ninf : toQ ninf = none := rfl

theorem toQ_eq_some {v : ENum} {q : ℚ} : toQ v = some q ↔ v = num q := by
  rcases enum_cases v with h | h | ⟨p, h⟩ <;> subst h
  · rw [toQ_ninf]
    constructor
    · intro h
      cases h
    · intro h
      exact absurd h.symm (num_ne_ninf q)
  · rw [toQ_inf]
    constructor
    · intro h
      cases h
    · intro h
      exact absurd h.symm (num_ne_inf q)
  · rw [toQ_num]
    constructor
    · intro h
      rw [Option.some.inj h]
    · intro h
      rw [num_inj h]

/-- The index edges read off a matrix: every in-range finite cell. -/
def medges (d : List (List ENum)) (n : Nat) : List NEdge :=
  (List.range n).flatMap (fun i =>
    (List.range n).filterMap (fun j =>
      (toQ (mget d inf i j)).map (fun q => NEdge.mk i j q)))

theorem medges_mem {d : List (List ENum)} {n : Nat} {e : NEdge} :
    e ∈ medges d n ↔
      e.a < n ∧ e.b < n ∧ mget d inf e.a e.b = num e.w := by
  unfold medges
  rw [List.mem_flatMap]
  constructor
  · rintro ⟨i, hi, hmem⟩
    obtain ⟨j, hj, hsome⟩ := List.mem_filterMap.1 hmem
    obtain ⟨q, hq, heq⟩ := Option.map_eq_some'.1 hsome
    have ha : e.a = i := by rw [← heq]
    have hb : e.b = j := by rw [← heq]
    have hw : e.w = q := by rw [← heq]
    refine ⟨ha ▸ List.mem_range.1 hi, hb ▸ List.mem_range.1 hj, ?_⟩
    rw [ha, hb, hw]
    exact toQ_eq_some.1 hq
  · rintro ⟨ha, hb, hcell⟩
    refine ⟨e.a, List.mem_range.2 ha, List.mem_filterMap.2
      ⟨e.b, List.mem_range.2 hb, ?_⟩⟩
    rw [toQ_eq_some.2 hcell]
    rfl

theorem add_eq_num {x y : ENum} {q : ℚ} (h : x + y = num q) :
    ∃ qa qb, x = num qa ∧ y = num qb ∧ q = qa + qb := by
  rcases enum_cases x with hx | hx | ⟨qa, hx⟩
  · rw [hx] at h
    rw [show (ninf + y : ENum) = ninf from WithBot.bot_add y] at h
    exact absurd h.symm (num_ne_ninf q)
  · rw [hx] at h
    rcases enum_cases y with hy | hy | ⟨qb, hy⟩
    · rw [hy] at h
      rw [show (inf + ninf : ENum) = ninf from WithBot.add_bot inf] at h
      exact absurd h.symm (num_ne_ninf q)
    · rw [hy, inf_add_inf] at h
      exact absurd h.symm (num_ne_inf q)
    · rw [hy, inf_add_num] at h
      exact absurd h.symm (num_ne_inf q)
  · rcases enum_cases y with hy | hy | ⟨qb, hy⟩
    · rw [hx, hy] at h
      rw [show (num qa + ninf : ENum) = ninf from WithBot.add_bot _] at h
      exact absurd h.symm (num_ne_ninf q)
    · rw [hx, hy, num_add_inf] at h
      exact absurd h.symm (num_ne_inf q)
    · rw [hx, hy, num_add] at h
      exact ⟨qa, qb, hx, hy, (num_inj h).symm⟩

theorem add_le_add_enum {a b c d : ENum} (h1 : a ≤ b) (h2 : c ≤ d) :
    a + c ≤ b + d := add_le_add h1 h2

/-- Every later matrix of the triple loop refines the earlier one
pointwise: entries only decrease. -/
def matGE (d d' : List (List ENum)) : Prop :=
  ∀ i j, mget d' inf i j ≤ mget d inf i j

theorem matGE_refl (d : List (List ENum)) : matGE d d :=
  fun _ _ => le_refl _

theorem matGE_trans {d1 d2 d3 : List (List ENum)} (h1 : matGE d1 d2)
    (h2 : matGE d2 d3) : matGE d1 d3 :=
  fun i j => le_trans (h2 i j) (h1 i j)

theorem fwInner_ge (nodeIds : List String) (k i : Nat) (st : FWState)
    (j : Nat) : matGE st.dist (fwInner nodeIds k i st j).dist := by
  unfold fwInner
  by_cases hc : mget st.dist inf i k + mget st.dist inf k j <
      mget st.dist inf i j
  · rw [if_pos hc]
    intro i' j'
    by_cases hij : i' = i ∧ j' = j
    · obtain ⟨h1, h2⟩ := hij
      subst h1
      subst h2
      rcases mget_mset_cases st.dist inf i' j' i' j'
        (mget st.dist inf i' k + mget st.dist inf k j') with hh | hh
      · rw [hh]
        exact le_of_lt hc
      · rw [hh]
    · have hne : i' ≠ i ∨ j' ≠ j := by
        by_contra hcc
        push_neg at hcc
        exact hij hcc
      rw [show mget (mset st.dist i j _) inf i' j' = mget st.dist inf i' j'
        from mget_mset_ne _ _ _ hne]
  · rw [if_neg hc]
    exact matGE_refl _

theorem foldl_fw_ge {β : Type} (f : FWState → β → FWState)
    (hf : ∀ st x, matGE st.dist (f st x).dist) :
    ∀ (l : List β) (st : FWState), matGE st.dist (l.foldl f st).dist := by
  intro l
  induction l with
  | nil => exact fun st => matGE_refl _
  | cons x xs ih =>
    intro st
    rw [List.foldl_cons]
    exact matGE_trans (hf st x) (ih (f st x))

theorem fwJLoop_ge (nodeIds : List String) (n k : Nat) (st : FWState)
    (i : Nat) : matGE st.dist (fwJLoop nodeIds n k st i).dist := by
  unfold fwJLoop
  exact foldl_fw_ge _ (fun st2 j => fwInner_ge nodeIds k i st2 j) _ _

theorem fwKStep_ge (nodeIds : List String) (n : Nat) (st : FWState)
    (k : Nat) : matGE st.dist (fwKStep nodeIds n st k).dist := by
  unfold fwKStep
  exact foldl_fw_ge _ (fun st2 i => fwJLoop_ge nodeIds n k st2 i) _ _

theorem fwLoop_ge (nodeIds : List String) (n : Nat) (st : FWState) :
    matGE st.dist (fwLoop nodeIds n st).dist := by
  unfold fwLoop
  exact foldl_fw_ge _ (fun st2 k => fwKStep_ge nodeIds n st2 k) _ _

theorem fwInner_mshape {n : Nat} (nodeIds : List String) (k i : Nat)
    {st : FWState} (h : MShape n st.dist) (j : Nat) :
    MShape n (fwInner nodeIds k i st j).dist := by
  unfold fwInner
  by_cases hc : mget st.dist inf i k + mget st.dist inf k j <
      mget st.dist inf i j
  · rw [if_pos hc]
    exact mshape_mset i j _ h
  · rw [if_neg hc]
    exact h

theorem fwJLoop_mshape {n : Nat} (nodeIds : List String) (m k : Nat)
    {st : FWState} (h : MShape n st.dist) (i : Nat) :
    MShape n (fwJLoop nodeIds m k st i).dist := by
  unfold fwJLoop
  exact foldl_preserve (fun st2 : FWState => MShape n st2.dist) _ _ _ h
    (fun acc j hacc => fwInner_mshape nodeIds k i hacc j)

theorem fwKStep_mshape {n : Nat} (nodeIds : List String) (m : Nat)
    {st : FWState} (h : MShape n st.dist) (k : Nat) :
    MShape n (fwKStep nodeIds m st k).dist := by
  unfold fwKStep
  exact foldl_preserve (fun st2 : FWState => MShape n st2.dist) _ _ _ h
    (fun acc i hacc => fwJLoop_mshape nodeIds m k hacc i)

/-- The soundness invariant of the triple loop: the matrix is square,
has no `-Infinity` entry, and every finite entry is the weight of some
index walk over the initial matrix's edges. -/
def SInv (E : List NEdge) (n : Nat) (st : FWState) : Prop :=
  MShape n st.dist ∧
  (∀ i j, mget st.dist inf i j ≠ ninf) ∧
  (∀ i j q, mget st.dist inf i j = num q →
    ∃ es, NChain E i es j ∧ nchainW es = q)

theorem inf_ne_ninf : (inf : ENum) ≠ ninf := by
  unfold inf ninf
  exact WithBot.coe_ne_bot

theorem add_ne_ninf {x y : ENum} (hx : x ≠ ninf) (hy : y ≠ ninf) :
    x + y ≠ ninf := by
  rcases enum_cases x with h | h | ⟨qa, h⟩
  · exact absurd h hx
  · subst h
    rcases enum_cases y with h2 | h2 | ⟨qb, h2⟩
    · exact absurd h2 hy
    · rw [h2, inf_add_inf]
      exact inf_ne_ninf
    · rw [h2, inf_add_num]
      exact inf_ne_ninf
  · subst h
    rcases enum_cases y with h2 | h2 | ⟨qb, h2⟩
    · exact absurd h2 hy
    · rw [h2, num_add_inf]
      exact inf_ne_ninf
    · rw [h2, num_add]
      exact num_ne_ninf _

theorem fwInner_sinv {E : List NEdge} {n : Nat} (nodeIds : List String)
    (k i : Nat) {st : FWState} (h : SInv E n st) (j : Nat) :
    SInv E n (fwInner nodeIds k i st j) := by
  obtain ⟨hsh, hnn, hsnd⟩ := h
  unfold fwInner
  by_cases hc : mget st.dist inf i k + mget st.dist inf k j <
      mget st.dist inf i j
  · rw [if_pos hc]
    refine ⟨mshape_mset i j _ hsh, ?_, ?_⟩
    · intro i' j'
      by_cases hij : i' = i ∧ j' = j
      · obtain ⟨h1, h2⟩ := hij
        subst h1
        subst h2
        rcases mget_mset_cases st.dist inf i' j' i' j'
          (mget st.dist inf i' k + mget st.dist inf k j') with hh | hh
        · rw [hh]
          exact add_ne_ninf (hnn i' k) (hnn k j')
        · rw [hh]
          exact hnn i' j'
      · have hne : i' ≠ i ∨ j' ≠ j := by
          by_contra hcc
          push_neg at hcc
          exact hij hcc
        rw [show mget (mset st.dist i j _) inf i' j' =
          mget st.dist inf i' j' from mget_mset_ne _ _ _ hne]
        exact hnn i' j'
    · intro i' j' q hq
      by_cases hij : i' = i ∧ j' = j
      · obtain ⟨h1, h2⟩ := hij
        subst h1
        subst h2
        rcases mget_mset_cases st.dist inf i' j' i' j'
          (mget st.dist inf i' k + mget st.dist inf k j') with hh | hh
        · rw [hh] at hq
          obtain ⟨qa, qb, hxa, hxb, hsum⟩ := add_eq_num hq
          obtain ⟨es1, hc1, hw1⟩ := hsnd i' k qa hxa
          obtain ⟨es2, hc2, hw2⟩ := hsnd k j' qb hxb
          refine ⟨es1 ++ es2, nchain_append hc1 hc2, ?_⟩
          rw [nchainW_append, hw1, hw2, hsum]
        · rw [hh] at hq
          exact hsnd i' j' q hq
      · have hne : i' ≠ i ∨ j' ≠ j := by
          by_contra hcc
          push_neg at hcc
          exact hij hcc
        rw [show mget (mset st.dist i j _) inf i' j' =
          mget st.dist inf i' j' from mget_mset_ne _ _ _ hne] at hq
        exact hsnd i' j' q hq
  · rw [if_neg hc]
    exact ⟨hsh, hnn, hsnd⟩

theorem fwLoop_sinv {E : List NEdge} {n m : Nat} (nodeIds : List String)
    {st : FWState} (h : SInv E n st) :
    SInv E n (fwLoop nodeIds m st) := by
  unfold fwLoop
  refine foldl_preserve _ _ _ _ h (fun acc k hacc => ?_)
  unfold fwKStep
  refine foldl_preserve _ _ _ _ hacc (fun acc2 i hacc2 => ?_)
  unfold fwJLoop
  exact foldl_preserve _ _ _ _ hacc2
    (fun acc3 j hacc3 => fwInner_sinv nodeIds k i hacc3 j)

theorem nchain_first {E : List NEdge} {i j : Nat} {e : NEdge}
    {es : List NEdge} (h : NChain E i (e :: es) j) :
    e ∈ E ∧ e.a = i ∧ NChain E e.b es j := by
  cases h with
  | cons he hfrom hrest => exact ⟨he, hfrom, hrest⟩

theorem nchain_nil_eq {E : List NEdge} {i j : Nat}
    (h : NChain E i [] j) : i = j := by
  cases h
  rfl

theorem nchain_single {E : List NEdge} {i j : Nat} {e : NEdge}
    (h : NChain E i [e] j) : e ∈ E ∧ e.a = i ∧ e.b = j := by
  obtain ⟨he, ha, hrest⟩ := nchain_first h
  exact ⟨he, ha, nchain_nil_eq hrest⟩

theorem nchain_bounds {d : List (List ENum)} {n : Nat} {i j : Nat}
    {es : List NEdge} (h : NChain (medges d n) i es j) (hne : es ≠ []) :
    i < n ∧ j < n := by
  induction h with
  | nil => exact absurd rfl hne
  | cons he hfrom hrest ih =>
    obtain ⟨ha, hb, -⟩ := medges_mem.1 he
    refine ⟨hfrom ▸ ha, ?_⟩
    rename_i a b e es2
    by_cases h2 : es2 = []
    · rw [h2] at hrest
      exact (nchain_nil_eq hrest) ▸ hb
    · exact (ih h2).2

theorem map_dropLast_eq {α β : Type} (f : α → β) :
    ∀ (l : List α), (l.map f).dropLast = l.dropLast.map f := by
  intro l
  induction l with
  | nil => rfl
  | cons x xs ih =>
    cases xs with
    | nil => rfl
    | cons y ys =>
      show f x :: ((y :: ys).map f).dropLast =
        f x :: ((y :: ys).dropLast).map f
      rw [ih]

/-- The triple loop truncated after the first `K` values of `k`. -/
def fwPartial (nodeIds : List String) (n : Nat) (st : FWState) (K : Nat) :
    FWState :=
  (List.range K).foldl (fwKStep nodeIds n) st

theorem fwPartial_zero (nodeIds : List String) (n : Nat) (st : FWState) :
    fwPartial nodeIds n st 0 = st := rfl

theorem fwPartial_succ (nodeIds : List String) (n : Nat) (st : FWState)
    (K : Nat) : fwPartial nodeIds n st (K + 1) =
      fwKStep nodeIds n (fwPartial nodeIds n st K) K := by
  unfold fwPartial
  rw [List.range_succ, List.foldl_append, List.foldl_cons, List.foldl_nil]

theorem fwLoop_trunc_eq (nodeIds : List String) (n : Nat) (st : FWState) :
    fwLoop nodeIds n st = fwPartial nodeIds n st n := rfl

theorem fwPartial_mshape {n : Nat} (nodeIds : List String) (m : Nat)
    {st : FWState} (h : MShape n st.dist) (K : Nat) :
    MShape n (fwPartial nodeIds m st K).dist := by
  unfold fwPartial
  exact foldl_preserve (fun a : FWState => MShape n a.dist) _ _ _ h
    (fun acc x hacc => fwKStep_mshape nodeIds m hacc x)

/-- One round of the outer loop relaxes every in-range cell through the
current intermediate vertex `k`, despite the in-place update. -/
theorem fwKStep_relax {n : Nat} (nodeIds : List String) (k : Nat)
    {st : FWState} (hsh : MShape n st.dist) {i j : Nat}
    (hi : i < n) (hj : j < n) :
    mget (fwKStep nodeIds n st k).dist inf i j ≤
      mget st.dist inf i k + mget st.dist inf k j := by
  obtain ⟨s, t, hst⟩ := List.append_of_mem (List.mem_range.2 hi)
  unfold fwKStep
  rw [hst, List.foldl_append, List.foldl_cons]
  set st1 := s.foldl (fwJLoop nodeIds n k) st with hst1
  have hge1 : matGE st.dist st1.dist :=
    foldl_fw_ge _ (fun a y => fwJLoop_ge nodeIds n k a y) s st
  have hsh1 : MShape n st1.dist :=
    foldl_preserve (fun a : FWState => MShape n a.dist) _ _ _ hsh
      (fun acc x hacc => fwJLoop_mshape nodeIds n k hacc x)
  obtain ⟨s2, t2, hst2⟩ := List.append_of_mem (List.mem_range.2 hj)
  rw [show fwJLoop nodeIds n k st1 i =
    (List.range n).foldl (fwInner nodeIds k i) st1 from rfl]
  rw [hst2, List.foldl_append, List.foldl_cons]
  set stA := s2.foldl (fwInner nodeIds k i) st1 with hstA
  have hge2 : matGE st1.dist stA.dist :=
    foldl_fw_ge _ (fun a y => fwInner_ge nodeIds k i a y) s2 st1
  have hshA : MShape n stA.dist :=
    foldl_preserve (fun a : FWState => MShape n a.dist) _ _ _ hsh1
      (fun acc x hacc => fwInner_mshape nodeIds k i hacc x)
  have hkey : mget (fwInner nodeIds k i stA j).dist inf i j ≤
      mget stA.dist inf i k + mget stA.dist inf k j := by
    unfold fwInner
    by_cases hc : mget stA.dist inf i k + mget stA.dist inf k j <
        mget stA.dist inf i j
    · rw [if_pos hc]
      show mget (mset stA.dist i j
        (mget stA.dist inf i k + mget stA.dist inf k j)) inf i j ≤
          mget stA.dist inf i k + mget stA.dist inf k j
      have hilt : i < stA.dist.length := by
        rw [hshA.1]
        exact hi
      have hjlt : j < (stA.dist.getD i []).length := by
        rw [mshape_row hshA hi]
        exact hj
      rw [mget_mset_self _ _ _ hilt hjlt]
    · rw [if_neg hc]
      exact not_lt.1 hc
  have hgeB : matGE (fwInner nodeIds k i stA j).dist
      (t2.foldl (fwInner nodeIds k i) (fwInner nodeIds k i stA j)).dist :=
    foldl_fw_ge _ (fun a y => fwInner_ge nodeIds k i a y) t2 _
  have hgeC : matGE
      (t2.foldl (fwInner nodeIds k i) (fwInner nodeIds k i stA j)).dist
      (t.foldl (fwJLoop nodeIds n k)
        (t2.foldl (fwInner nodeIds k i) (fwInner nodeIds k i stA j))).dist :=
    foldl_fw_ge _ (fun a y => fwJLoop_ge nodeIds n k a y) t _
  refine le_trans (hgeC i j) (le_trans (hgeB i j) (le_trans hkey ?_))
  exact add_le_add_enum
    (le_trans (hge2 i k) (hge1 i k))
    (le_trans (hge2 k j) (hge1 k j))

/-- After the first `K` rounds of the outer loop, every cell is bounded by
the weight of any walk between its indices whose intermediate vertices are
distinct and smaller than `K`. -/
theorem fw_dp {n : Nat} (nodeIds : List String) {st0 : FWState}
    (hsh : MShape n st0.dist) (K : Nat) : K ≤ n →
    ∀ {i j : Nat} {es : List NEdge},
    NChain (medges st0.dist n) i es j → es ≠ [] →
    ((es.map NEdge.b).dropLast).Nodup →
    (∀ x ∈ (es.map NEdge.b).dropLast, x < K) →
    mget (fwPartial nodeIds n st0 K).dist inf i j ≤ num (nchainW es) := by
  induction K with
  | zero =>
    intro _ i j es hch hne hnd hlt
    have hmids : (es.map NEdge.b).dropLast = [] := by
      rcases hml : (es.map NEdge.b).dropLast with _ | ⟨x, xs⟩
      · rfl
      · exact absurd (hlt x (by rw [hml]; exact List.mem_cons_self _ _))
          (Nat.not_lt_zero x)
    have hlen : es.length = 1 := by
      have h1 : (es.map NEdge.b).length = es.length := List.length_map _ _
      have h2 : ((es.map NEdge.b).dropLast).length =
          (es.map NEdge.b).length - 1 := List.length_dropLast _
      rw [hmids] at h2
      have h3 : es.length ≠ 0 :=
        fun hh => hne (List.eq_nil_of_length_eq_zero hh)
      simp only [List.length_nil] at h2
      omega
    obtain ⟨e, hes⟩ := List.length_eq_one.1 hlen
    subst hes
    obtain ⟨he, ha, hb⟩ := nchain_single hch
    obtain ⟨-, -, hcell⟩ := medges_mem.1 he
    have hw1 : nchainW [e] = e.w := by
      rw [nchainW_cons, nchainW_nil, add_zero]
    rw [show fwPartial nodeIds n st0 0 = st0 from rfl, hw1, ← ha, ← hb,
      hcell]
  | succ K ih =>
    intro hK i j es hch hne hnd hlt
    have hKn : K ≤ n := Nat.le_of_succ_le hK
    rw [fwPartial_succ]
    by_cases hKm : K ∈ (es.map NEdge.b).dropLast
    · rw [map_dropLast_eq] at hKm hnd hlt
      obtain ⟨e, hemem, heb⟩ := List.mem_map.1 hKm
      obtain ⟨u, v, huv⟩ := List.append_of_mem hemem
      have hlast := List.dropLast_append_getLast hne
      set glast := es.getLast hne with hgl
      have hes : es = (u ++ [e]) ++ (v ++ [glast]) := by
        rw [← hlast, huv]
        simp [List.append_assoc]
      have hmdec : es.dropLast.map NEdge.b =
          u.map NEdge.b ++ K :: v.map NEdge.b := by
        rw [huv, List.map_append, List.map_cons, heb]
      rw [hmdec] at hnd hlt
      obtain ⟨hndu, hndKB, hdisj⟩ := List.nodup_append.1 hnd
      have hKA : K ∉ u.map NEdge.b :=
        fun hKA => hdisj hKA (List.mem_cons_self _ _)
      have hKB : K ∉ v.map NEdge.b := (List.nodup_cons.1 hndKB).1
      have hndv : (v.map NEdge.b).Nodup := (List.nodup_cons.1 hndKB).2
      have hd1 : ((u ++ [e]).map NEdge.b).dropLast = u.map NEdge.b := by
        rw [List.map_append]
        show (u.map NEdge.b ++ [e.b]).dropLast = u.map NEdge.b
        exact List.dropLast_concat
      have hd2 : ((v ++ [glast]).map NEdge.b).dropLast = v.map NEdge.b := by
        rw [List.map_append]
        show (v.map NEdge.b ++ [glast.b]).dropLast = v.map NEdge.b
        exact List.dropLast_concat
      have hch' := hch
      rw [hes] at hch'
      obtain ⟨c, hch1, hch2⟩ := nchain_split hch'
      obtain ⟨c0, hchu, hche⟩ := nchain_split hch1
      obtain ⟨-, -, hcb⟩ := nchain_single hche
      have hcK : c = K := by rw [← hcb, heb]
      rw [hcK] at hch1 hch2
      have hne1 : (u ++ [e]) ≠ [] := by simp
      have hne2 : (v ++ [glast]) ≠ [] := by simp
      have hlt1 : ∀ x ∈ ((u ++ [e]).map NEdge.b).dropLast, x < K := by
        rw [hd1]
        intro x hx
        have hx2 := hlt x (List.mem_append_left _ hx)
        have hxK : x ≠ K := fun hh => hKA (hh ▸ hx)
        omega
      have hlt2 : ∀ x ∈ ((v ++ [glast]).map NEdge.b).dropLast, x < K := by
        rw [hd2]
        intro x hx
        have hx2 := hlt x (List.mem_append_right _
          (List.mem_cons_of_mem _ hx))
        have hxK : x ≠ K := fun hh => hKB (hh ▸ hx)
        omega
      have hnd1 : (((u ++ [e]).map NEdge.b).dropLast).Nodup := by
        rw [hd1]
        exact hndu
      have hnd2 : (((v ++ [glast]).map NEdge.b).dropLast).Nodup := by
        rw [hd2]
        exact hndv
      have hb1 := ih hKn hch1 hne1 hnd1 hlt1
      have hb2 := ih hKn hch2 hne2 hnd2 hlt2
      obtain ⟨hin, hKn2⟩ := nchain_bounds hch1 hne1
      obtain ⟨-, hjn⟩ := nchain_bounds hch2 hne2
      have hshK : MShape n (fwPartial nodeIds n st0 K).dist :=
        fwPartial_mshape nodeIds n hsh K
      have hrel := fwKStep_relax nodeIds K hshK hin hjn
      refine le_trans hrel ?_
      have hsum := add_le_add_enum hb1 hb2
      rw [num_add] at hsum
      rw [hes, nchainW_append]
      exact hsum
    · have hlt' : ∀ x ∈ (es.map NEdge.b).dropLast, x < K := by
        intro x hx
        have hx2 := hlt x hx
        have hxK : x ≠ K := fun hh => hKm (hh ▸ hx)
        omega
      have hb := ih hKn hch hne hnd hlt'
      exact le_trans ((fwKStep_ge nodeIds n _ K) i j) hb

theorem nchain_verts_lt {d : List (List ENum)} {n : Nat} {i j : Nat}
    {es : List NEdge} (h : NChain (medges d n) i es j) :
    ∀ x ∈ es.map NEdge.b, x < n := by
  induction h with
  | nil =>
    intro x hx
    cases hx
  | cons he hfrom hrest ih =>
    intro x hx
    rw [List.map_cons] at hx
    rcases List.mem_cons.1 hx with hx | hx
    · exact hx ▸ (medges_mem.1 he).2.1
    · exact ih x hx

/-- Every cell written by the edge initialization holds a finite value, so
any pointwise property true of the base matrix and of all finite values
survives it. -/
theorem fwInitEdges_cellPred {nodeIds : List String} (P : ENum → Prop)
    (hP : ∀ q : ℚ, P (num q)) :
    ∀ (edges : List Edge) (d0 : List (List ENum))
    (nx0 : List (List (Option Nat)))
    (res : List (List ENum) × List (List (Option Nat))),
    fwInitEdges nodeIds edges d0 nx0 = some res →
    (∀ i j, P (mget d0 inf i j)) →
    ∀ i j, P (mget res.1 inf i j) := by
  intro edges
  induction edges with
  | nil =>
    intro d0 nx0 res hres h0
    have : (d0, nx0) = res := Option.some.inj hres
    rw [← this]
    exact h0
  | cons e es ih =>
    intro d0 nx0 res hres h0
    unfold fwInitEdges at hres
    rw [List.foldl_cons] at hres
    cases hfi : nodeIds.indexOf? e.«from».id with
    | none =>
      rw [show fwInitStep nodeIds (some (d0, nx0)) e = none by
        unfold fwInitStep
        rw [hfi]] at hres
      rw [fwInit_foldl_none2] at hres
      cases hres
    | some i' =>
      cases hti : nodeIds.indexOf? e.«to».id with
      | none =>
        rw [show fwInitStep nodeIds (some (d0, nx0)) e = some (d0, nx0) by
          unfold fwInitStep
          rw [hfi, hti]] at hres
        exact ih d0 nx0 res hres h0
      | some j' =>
        rw [show fwInitStep nodeIds (some (d0, nx0)) e =
            some (mset d0 i' j' (num e.weight), mset nx0 i' j' (some j')) by
          unfold fwInitStep
          rw [hfi, hti]] at hres
        refine ih _ _ res hres ?_
        intro i j
        rcases mget_mset_cases d0 inf i j i' j' (num e.weight) with hh | hh
        · rw [hh]
          exact hP e.weight
        · rw [hh]
          exact h0 i j

theorem fw_res_mshape {nodes : List Node} {edges : List Edge}
    {res : List (List ENum) × List (List (Option Nat))}
    (hmat : fwMatrices nodes edges = some res) :
    MShape nodes.length res.1 := by
  have hmat' : fwInitEdges (nodes.map (fun nd => nd.id)) edges
      (fwDistBase nodes.length)
      (List.replicate nodes.length (List.replicate nodes.length none)) =
      some res := hmat
  exact mshape_fwInitEdges hmat' (mshape_fwDistBase nodes.length)

theorem fw_res_noNinf {nodes : List Node} {edges : List Edge}
    {res : List (List ENum) × List (List (Option Nat))}
    (hmat : fwMatrices nodes edges = some res) :
    ∀ i j, mget res.1 inf i j ≠ ninf := by
  have hmat' : fwInitEdges (nodes.map (fun nd => nd.id)) edges
      (fwDistBase nodes.length)
      (List.replicate nodes.length (List.replicate nodes.length none)) =
      some res := hmat
  refine fwInitEdges_cellPred (fun v => v ≠ ninf)
    (fun q => num_ne_ninf q) edges _ _ res hmat' ?_
  intro i j hcell
  exact not_num_le_ninf 0 (hcell ▸ fwDistBase_nonneg nodes.length i j)

theorem fw_st0_sinv {nodes : List Node} {edges : List Edge}
    {res : List (List ENum) × List (List (Option Nat))}
    (hmat : fwMatrices nodes edges = some res) :
    SInv (medges res.1 nodes.length) nodes.length (fwSt0 nodes res) := by
  refine ⟨fw_res_mshape hmat, fw_res_noNinf hmat, ?_⟩
  intro i j q hcell
  have hin : i < nodes.length ∧ j < nodes.length := by
    by_contra hc
    push_neg at hc
    have hoob : nodes.length ≤ i ∨ nodes.length ≤ j := by
      by_cases hi : i < nodes.length
      · exact Or.inr (hc hi)
      · exact Or.inl (Nat.le_of_not_lt hi)
    have hcell' : mget res.1 inf i j = num q := hcell
    rw [mget_oob (fw_res_mshape hmat) hoob] at hcell'
    exact num_ne_inf q hcell'.symm
  have hcell2 : mget res.1 inf i j = num q := hcell
  refine ⟨[NEdge.mk i j q], ?_, ?_⟩
  · refine NChain.cons (medges_mem.2 ⟨hin.1, hin.2, hcell2⟩) rfl ?_
    exact NChain.nil j
  · rw [nchainW_cons, nchainW_nil, add_zero]

theorem fw_final_sinv {nodes : List Node} {edges : List Edge}
    {res : List (List ENum) × List (List (Option Nat))}
    (hmat : fwMatrices nodes edges = some res) :
    SInv (medges res.1 nodes.length) nodes.length (fwFinalSt nodes res) :=
  fwLoop_sinv _ (fw_st0_sinv hmat)

theorem fw_init_diag {nodes : List Node} {edges : List Edge}
    {res : List (List ENum) × List (List (Option Nat))}
    (hself : ∀ e ∈ edges, e.«from».id ≠ e.«to».id)
    (hmat : fwMatrices nodes edges = some res)
    {i : Nat} (hi : i < nodes.length) :
    mget res.1 inf i i = num 0 := by
  have hmat' : fwInitEdges (nodes.map (fun nd => nd.id)) edges
      (fwDistBase nodes.length)
      (List.replicate nodes.length (List.replicate nodes.length none)) =
      some res := hmat
  have hno : ∀ e ∈ edges,
      ¬((nodes.map (fun nd => nd.id)).indexOf? e.«from».id = some i ∧
        (nodes.map (fun nd => nd.id)).indexOf? e.«to».id = some i) :=
    fun e he hc => hself e he (indexOf?_inj hc.1 hc.2)
  rw [fwInitEdges_cell_none edges _ _ res hmat' hno,
    fwDistBase_cell hi hi, if_pos rfl]

theorem fw_final_ge {nodes : List Node}
    {res : List (List ENum) × List (List (Option Nat))} :
    matGE res.1 (fwFinalSt nodes res).dist := by
  have h := fwLoop_ge (nodes.map (fun nd => nd.id)) nodes.length
    (fwSt0 nodes res)
  rw [show (fwSt0 nodes res).dist = res.1 from rfl] at h
  rw [show fwFinalSt nodes res = fwLoop (nodes.map (fun nd => nd.id))
    nodes.length (fwSt0 nodes res) from rfl]
  exact h

theorem fw_final_diag_le {nodes : List Node} {edges : List Edge}
    {res : List (List ENum) × List (List (Option Nat))}
    (hself : ∀ e ∈ edges, e.«from».id ≠ e.«to».id)
    (hmat : fwMatrices nodes edges = some res)
    {i : Nat} (hi : i < nodes.length) :
    mget (fwFinalSt nodes res).dist inf i i ≤ num 0 := by
  have h1 := @fw_final_ge nodes res i i
  rw [fw_init_diag hself hmat hi] at h1
  exact h1

theorem fw_final_diag_neg {nodes : List Node} {edges : List Edge}
    {res : List (List ENum) × List (List (Option Nat))}
    (hmat : fwMatrices nodes edges = some res)
    {i : Nat} {es : List NEdge}
    (hch : NChain (medges res.1 nodes.length) i es i) (hne : es ≠ [])
    (hnd : ((es.map NEdge.b).dropLast).Nodup)
    (hneg : nchainW es < 0) :
    mget (fwFinalSt nodes res).dist inf i i < num 0 := by
  have hlt : ∀ x ∈ (es.map NEdge.b).dropLast, x < nodes.length := by
    intro x hx
    exact nchain_verts_lt hch x (List.mem_of_mem_dropLast hx)
  have hsh' : MShape nodes.length (fwSt0 nodes res).dist :=
    fw_res_mshape hmat
  have hch' : NChain (medges (fwSt0 nodes res).dist nodes.length) i es i :=
    hch
  have hlt' : ∀ x ∈ (es.map NEdge.b).dropLast, x < nodes.length := hlt
  have hdp := fw_dp (nodes.map (fun nd => nd.id)) hsh' nodes.length
    (le_refl _) hch' hne hnd hlt'
  have hfin : mget (fwFinalSt nodes res).dist inf i i ≤
      num (nchainW es) := by
    show mget (fwLoop (nodes.map (fun nd => nd.id)) nodes.length
      (fwSt0 nodes res)).dist inf i i ≤ num (nchainW es)
    rw [fwLoop_trunc_eq]
    exact hdp
  exact lt_of_le_of_lt hfin (num_lt_num.2 hneg)

theorem medges_nonneg {nodes : List Node} {edges : List Edge}
    {res : List (List ENum) × List (List (Option Nat))}
    (hmat : fwMatrices nodes edges = some res)
    (hw : ∀ e ∈ edges, 0 ≤ e.weight) :
    ∀ e ∈ medges res.1 nodes.length, 0 ≤ e.w := by
  intro e he
  obtain ⟨-, -, hcell⟩ := medges_mem.1 he
  have hmat' : fwInitEdges (nodes.map (fun nd => nd.id)) edges
      (fwDistBase nodes.length)
      (List.replicate nodes.length (List.replicate nodes.length none)) =
      some res := hmat
  have hnn := fwInitEdges_nonneg edges _ _ res hmat' hw
    (fwDistBase_nonneg nodes.length) e.a e.b
  rw [hcell] at hnn
  exact num_le_num.1 hnn

theorem fw_final_diag_zero {nodes : List Node} {edges : List Edge}
    {res : List (List ENum) × List (List (Option Nat))}
    (hself : ∀ e ∈ edges, e.«from».id ≠ e.«to».id)
    (hmat : fwMatrices nodes edges = some res)
    (hw : ∀ e ∈ edges, 0 ≤ e.weight)
    {i : Nat} (hi : i < nodes.length) :
    mget (fwFinalSt nodes res).dist inf i i = num 0 := by
  have hle := fw_final_diag_le hself hmat hi
  obtain ⟨-, hnn, hsnd⟩ := fw_final_sinv hmat
  rcases le_num_cases hle with hcase | ⟨p, hcase, hple⟩
  · exact absurd hcase (hnn i i)
  · obtain ⟨es, hch, hWes⟩ := hsnd i i p hcase
    have h0 : 0 ≤ p := hWes ▸ nchainW_nonneg (medges_nonneg hmat hw) hch
    have hp0 : p = 0 := le_antisymm hple h0
    rw [hcase, hp0]

theorem fw_steps_ends {nodes : List Node} {edges : List Edge}
    {res : List (List ENum) × List (List (Option Nat))}
    (hmat : fwMatrices nodes edges = some res) :
    ∀ r, floydWarshall nodes edges = some r →
      (∃ s, r.steps.head? = some s ∧ s.type = StepType.init ∧
        s.distanceMatrix = res.1) ∧
      (∃ s, r.steps.getLast? = some s ∧ s.type = StepType.finish ∧
        s.distanceMatrix = (fwFinalSt nodes res).dist) := by
  intro r hr
  rw [floydWarshall_some hmat] at hr
  rw [← Option.some.inj hr]
  obtain ⟨t, ht⟩ := fwLoop_steps (nodes.map (fun nd => nd.id))
    nodes.length (fwSt0 nodes res)
  have ht' : (fwFinalSt nodes res).steps =
      { type := StepType.init, distanceMatrix := res.1,
        nodes := nodes.map (fun nd => nd.id) } :: t := ht
  constructor
  · refine ⟨{ type := StepType.init, distanceMatrix := res.1,
              nodes := nodes.map (fun nd => nd.id) }, ?_, rfl, rfl⟩
    show ((fwFinalSt nodes res).steps ++ _).head? = _
    rw [ht']
    rfl
  · refine ⟨{ type := StepType.finish,
              distanceMatrix := (fwFinalSt nodes res).dist,
              nodes := nodes.map (fun nd => nd.id) }, ?_, rfl, rfl⟩
    show ((fwFinalSt nodes res).steps ++ _).getLast? = _
    exact List.getLast?_concat _

/-- Claim C6 theorem (corrected): over any graph with no self-loop edge
whose initialization succeeds, the matrix recorded by the `init` step has
an all-zero diagonal, and every diagonal entry of the final matrix is at
most `0`; a final diagonal entry is strictly negative exactly when the
vertex lies on a negative-weight closed walk of the initial matrix — any
finite final entry is the weight of some such walk between its indices
(so a negative diagonal exhibits a negative closed walk), and conversely
any simple negative closed walk forces a negative diagonal; with
non-negative edge weights every final diagonal entry is exactly `0`. -/
theorem claim_C6_theorem (nodes : List Node) (edges : List Edge)
    (hself : ∀ e ∈ edges, e.«from».id ≠ e.«to».id)
    (res : List (List ENum) × List (List (Option Nat)))
    (hmat : fwMatrices nodes edges = some res) :
    (∀ r, floydWarshall nodes edges = some r →
      (∃ s, r.steps.head? = some s ∧ s.type = StepType.init ∧
        s.distanceMatrix = res.1) ∧
      (∃ s, r.steps.getLast? = some s ∧ s.type = StepType.finish ∧
        s.distanceMatrix = (fwFinalSt nodes res).dist)) ∧
    (∀ i, i < nodes.length → mget res.1 inf i i = num 0) ∧
    (∀ i, i < nodes.length →
      mget (fwFinalSt nodes res).dist inf i i ≤ num 0) ∧
    (∀ i j q, mget (fwFinalSt nodes res).dist inf i j = num q →
      ∃ es, NChain (medges res.1 nodes.length) i es j ∧ nchainW es = q) ∧
    (∀ i es, NChain (medges res.1 nodes.length) i es i → es ≠ [] →
      ((es.map NEdge.b).dropLast).Nodup → nchainW es < 0 →
      mget (fwFinalSt nodes res).dist inf i i < num 0) ∧
    ((∀ e ∈ edges, 0 ≤ e.weight) → ∀ i, i < nodes.length →
      mget (fwFinalSt nodes res).dist inf i i = num 0) :=
  ⟨fw_steps_ends hmat, fun i hi => fw_init_diag hself hmat hi,
    fun i hi => fw_final_diag_le hself hmat hi,
    (fw_final_sinv hmat).2.2,
    fun i es hch hne hnd hneg => fw_final_diag_neg hmat hch hne hnd hneg,
    fun hw i hi => fw_final_diag_zero hself hmat hw hi⟩

/-- Counterexample to the original C6: with a self-loop edge `A→A` of
weight `5`, the initialization overwrites the diagonal `0`, so the matrix
recorded by the `init` step has `5`, not `0`, on the diagonal. -/
theorem claim_C6_counterexample :
    (floydWarshall [nodeA] [⟨nodeA, nodeA, 5⟩]).map
      (fun r => (r.steps.head?).map
        (fun s => (s.type, mget s.distanceMatrix inf 0 0))) =
      some (some (StepType.init, num 5)) ∧
    num 5 ≠ num 0 := by
  constructor
  · with_unfolding_all rfl
  · intro hh
    have h5 : (5 : ℚ) = 0 := num_inj hh
    norm_num at h5

/-- The matrices of the C6 witness graph `A→B (weight 1)`. -/
def c6res : List (List ENum) × List (List (Option Nat)) :=
  ([[num 0, num 1], [inf, num 0]], [[none, some 1], [none, none]])

/-- Witness for C6 on the two-vertex graph `A→B (weight 1)`. -/
theorem claim_C6_witness :
    ((∀ e ∈ [edgeAB1], e.«from».id ≠ e.«to».id) ∧
      fwMatrices [nodeA, nodeB] [edgeAB1] = some c6res) ∧
    ((∀ r, floydWarshall [nodeA, nodeB] [edgeAB1] = some r →
      (∃ s, r.steps.head? = some s ∧ s.type = StepType.init ∧
        s.distanceMatrix = c6res.1) ∧
      (∃ s, r.steps.getLast? = some s ∧ s.type = StepType.finish ∧
        s.distanceMatrix = (fwFinalSt [nodeA, nodeB] c6res).dist)) ∧
    (∀ i, i < 2 → mget c6res.1 inf i i = num 0) ∧
    (∀ i, i < 2 →
      mget (fwFinalSt [nodeA, nodeB] c6res).dist inf i i ≤ num 0) ∧
    (∀ i j q, mget (fwFinalSt [nodeA, nodeB] c6res).dist inf i j = num q →
      ∃ es, NChain (medges c6res.1 2) i es j ∧ nchainW es = q) ∧
    (∀ i es, NChain (medges c6res.1 2) i es i → es ≠ [] →
      ((es.map NEdge.b).dropLast).Nodup → nchainW es < 0 →
      mget (fwFinalSt [nodeA, nodeB] c6res).dist inf i i < num 0) ∧
    ((∀ e ∈ [edgeAB1], 0 ≤ e.weight) → ∀ i, i < 2 →
      mget (fwFinalSt [nodeA, nodeB] c6res).dist inf i i = num 0)) :=
  ⟨⟨by decide, by with_unfolding_all rfl⟩,
   claim_C6_theorem [nodeA, nodeB] [edgeAB1] (by decide) c6res
     (by with_unfolding_all rfl)⟩

end SP
